import Mathlib

/-!
# Sliding-window rate limiter (`rate_limiter.c`)

A shallow embedding of the C program and a verification development over it.

Modelling conventions.

* C `int` values are mathematical integers (`Int`).  None of the `int`
  arithmetic performed by the program on reachable states leaves the range of
  its C type (`size` and `rear` stay within `[-1, 1000]`).
* `time_t` is a signed 64-bit integer.  The subtraction
  `current_time - peek(queue)` is `timeSub`: the difference reduced into
  `[-2 ^ 63, 2 ^ 63)`, as two's-complement hardware computes it.  It is the
  mathematical difference whenever that lies in the range of `time_t`.
* C's `%` on `int` truncates towards zero: it is `Int.tmod`.
* `unsigned int` is 32 bits wide: arithmetic on it is reduced modulo `2 ^ 32`.
* A C string is the list of its `char` values before the terminating NUL
  (`Key`); every element of a key is therefore non-zero.
* The array `timestamps` is a map from indices to values; `malloc`-ed memory
  that has not been written yet reads as `0` (the program never reads it).
* `hash_table` is a map from bucket index to the chain hanging off that
  bucket, head first.  A `Node*` is a `NodeRef`: a bucket together with a
  position in its chain.
* `time(NULL)` is an argument (`current_time`) of `isRequestAllowed`.
* The `while` loop of `isRequestAllowed` takes a fuel argument; running out of
  fuel yields `none`.
-/

namespace RateLimiterC

/-! ## Constants -/

/-- Number of buckets: `#define HASH_SIZE 100`. -/
def HASH_SIZE : Nat := 100

/-- Size of the `user_id` array of a node: `#define MAX_USER_ID 50`. -/
def MAX_USER_ID : Nat := 50

/-- Capacity of every tracker: `#define MAX_QUEUE_SIZE 1000`. -/
def MAX_QUEUE_SIZE : Int := 1000

/-- Modulus of `unsigned int` arithmetic. -/
def UINT_MOD : Int := 4294967296

/-- Modulus of `time_t` arithmetic: `2 ^ 64`. -/
def TIME_MOD : Int := 18446744073709551616

/-- Half of the modulus of `time_t` arithmetic, `2 ^ 63`: `time_t` ranges over
`[-TIME_HALF, TIME_HALF)`. -/
def TIME_HALF : Int := 9223372036854775808

/-- Subtraction of two `time_t` values: the difference reduced into
`[-TIME_HALF, TIME_HALF)`. -/
def timeSub (a b : Int) : Int := (a - b + TIME_HALF) % TIME_MOD - TIME_HALF

/-! ## Queue -/

/-- The `Queue` struct: a ring buffer of timestamps. -/
structure Queue where
  timestamps : Int → Int
  front : Int
  rear : Int
  size : Int
  capacity : Int

/-- `Queue* createQueue(int capacity)`. -/
def createQueue (capacity : Int) : Queue :=
  { timestamps := fun _ => 0, front := 0, rear := -1, size := 0, capacity := capacity }

/-- `bool isQueueEmpty(Queue* queue)`. -/
def isQueueEmpty (queue : Queue) : Bool := queue.size == 0

/-- `bool isQueueFull(Queue* queue)`. -/
def isQueueFull (queue : Queue) : Bool := queue.size == queue.capacity

/-- `void enqueue(Queue* queue, time_t timestamp)`: the queue after the call. -/
def enqueue (queue : Queue) (timestamp : Int) : Queue :=
  if isQueueFull queue then queue
  else
    let rear := (queue.rear + 1).tmod queue.capacity
    { queue with
      rear := rear
      timestamps := fun i => if i = rear then timestamp else queue.timestamps i
      size := queue.size + 1 }

/-- `time_t dequeue(Queue* queue)`: the returned value and the queue after the call. -/
def dequeue (queue : Queue) : Int × Queue :=
  if isQueueEmpty queue then (0, queue)
  else
    (queue.timestamps queue.front,
     { queue with
       front := (queue.front + 1).tmod queue.capacity
       size := queue.size - 1 })

/-- `time_t peek(Queue* queue)`. -/
def peek (queue : Queue) : Int :=
  if isQueueEmpty queue then 0 else queue.timestamps queue.front

/-! ## Hash table -/

/-- A C string: its `char` values before the terminating NUL. -/
abbrev Key := List Int

/-- `unsigned int hash(const char* str)`. -/
def hash (str : Key) : Nat :=
  ((str.foldl (fun (h : Int) (c : Int) => (((h * 32) % UINT_MOD + h) % UINT_MOD + c) % UINT_MOD)
      5381) % (HASH_SIZE : Int)).toNat

/-- The `Node` struct; the `next` pointer is the tail of the chain. -/
structure Node where
  user_id : Key
  queue : Queue

/-- The `RateLimiter` struct. -/
structure RateLimiter where
  hash_table : Nat → List Node
  requests_limit : Int
  time_window : Int

/-- A `Node*` into the table: the bucket and the position in its chain. -/
structure NodeRef where
  bucket : Nat
  pos : Nat
deriving DecidableEq, Repr

/-- `RateLimiter* createRateLimiter(int requests_limit, int time_window)`:
the returned pointer (`none` would be `NULL`). -/
def createRateLimiter (requests_limit time_window : Int) : Option RateLimiter :=
  some { hash_table := fun _ => [], requests_limit := requests_limit, time_window := time_window }

/-- The search loop of `findOrCreateUser`: position of the first node of the chain
whose `user_id` compares equal (`strcmp(...) == 0`) to the key. -/
def findUser : List Node → Key → Option Nat
  | [], _ => none
  | current :: next, user_id =>
    if current.user_id = user_id then some 0
    else (findUser next user_id).map (· + 1)

/-- `Node* findOrCreateUser(RateLimiter* limiter, const char* user_id)`:
the limiter after the call and the returned node. -/
def findOrCreateUser (limiter : RateLimiter) (user_id : Key) : RateLimiter × NodeRef :=
  let index := hash user_id
  match findUser (limiter.hash_table index) user_id with
  | some pos => (limiter, ⟨index, pos⟩)
  | none =>
    let newNode : Node :=
      { user_id := user_id.take (MAX_USER_ID - 1), queue := createQueue MAX_QUEUE_SIZE }
    ({ limiter with
       hash_table := fun i => if i = index then newNode :: limiter.hash_table i
                              else limiter.hash_table i },
     ⟨index, 0⟩)

/-- Dereference of a `Node*`. -/
def RateLimiter.node (limiter : RateLimiter) (user : NodeRef) : Option Node :=
  (limiter.hash_table user.bucket)[user.pos]?

/-- Write of the queue owned by the node behind a `Node*`. -/
def RateLimiter.setQueue (limiter : RateLimiter) (user : NodeRef) (queue : Queue) : RateLimiter :=
  { limiter with
    hash_table := fun i =>
      if i = user.bucket then
        match (limiter.hash_table i)[user.pos]? with
        | some n => (limiter.hash_table i).set user.pos { n with queue := queue }
        | none => limiter.hash_table i
      else limiter.hash_table i }

/-- The eviction loop of `isRequestAllowed`
(`while (!isQueueEmpty(queue) && current_time - peek(queue) >= time_window) dequeue(queue);`). -/
def evictExpired : Nat → Queue → Int → Int → Option Queue
  | 0, _, _, _ => none
  | fuel + 1, queue, current_time, time_window =>
    if !isQueueEmpty queue && decide (timeSub current_time (peek queue) ≥ time_window) then
      evictExpired fuel (dequeue queue).2 current_time time_window
    else some queue

/-- `bool isRequestAllowed(RateLimiter* limiter, const char* user_id)` with the clock
read passed in: the returned boolean and the limiter after the call. -/
def isRequestAllowed (fuel : Nat) (limiter : RateLimiter) (user_id : Key) (current_time : Int) :
    Option (Bool × RateLimiter) :=
  let found := findOrCreateUser limiter user_id
  let limiter := found.1
  let user := found.2
  match limiter.node user with
  | none => none
  | some node =>
    match evictExpired fuel node.queue current_time limiter.time_window with
    | none => none
    | some queue =>
      if queue.size ≥ limiter.requests_limit then
        some (false, limiter.setQueue user queue)
      else
        some (true, limiter.setQueue user (enqueue queue current_time))

/-! ## Observations -/

/-- Logical contents of a tracker: the `size` timestamps read from `front`, wrapping. -/
def Queue.contents (q : Queue) : List Int :=
  (List.range q.size.toNat).map
    (fun (i : Nat) => q.timestamps ((q.front + (i : Int)).tmod q.capacity))

/-- A call: the key and the clock value read by the call. -/
abbrev Call := Key × Int

/-- A sequence of `isRequestAllowed` calls: the decisions in order and the final limiter. -/
def runCalls (fuel : Nat) : RateLimiter → List Call → Option (List Bool × RateLimiter)
  | limiter, [] => some ([], limiter)
  | limiter, c :: cs =>
    match isRequestAllowed fuel limiter c.1 c.2 with
    | none => none
    | some (b, limiter1) =>
      match runCalls fuel limiter1 cs with
      | none => none
      | some (bs, limiter2) => some (b :: bs, limiter2)

/-- A sequence of calls on a freshly created limiter. -/
def runFresh (fuel : Nat) (requests_limit time_window : Int) (calls : List Call) :
    Option (List Bool × RateLimiter) :=
  match createRateLimiter requests_limit time_window with
  | none => none
  | some limiter => runCalls fuel limiter calls

/-- The contents of the tracker a lookup of `user_id` is routed to, if there is one. -/
def RateLimiter.tracker (limiter : RateLimiter) (user_id : Key) : Option (List Int) :=
  match findUser (limiter.hash_table (hash user_id)) user_id with
  | none => none
  | some pos => ((limiter.hash_table (hash user_id))[pos]?).map (fun n => n.queue.contents)

/-- The expiry test of the eviction loop: `current_time - timestamp >= time_window`, the
subtraction being that of `time_t`. -/
def expired (current_time time_window : Int) (timestamp : Int) : Bool :=
  decide (timeSub current_time timestamp ≥ time_window)

/-- The expiry test as the specification writes it, over the integers:
`now - timestamp ≥ time_window`. -/
def specExpired (current_time time_window : Int) (timestamp : Int) : Bool :=
  decide (current_time - timestamp ≥ time_window)

/-- What one admission does to the logical contents of a tracker of capacity
`MAX_QUEUE_SIZE`: drop the expired prefix, deny when `requests_limit` entries remain,
otherwise allow and append unless the buffer is full. -/
def admitList (requests_limit time_window current_time : Int) (L : List Int) :
    Bool × List Int :=
  let L1 := L.dropWhile (expired current_time time_window)
  if (L1.length : Int) ≥ requests_limit then (false, L1)
  else if (L1.length : Int) = MAX_QUEUE_SIZE then (true, L1)
  else (true, L1 ++ [current_time])

/-! ## Invariants and auxiliary states -/

/-- Well-formedness of a ring buffer: the indices are in range and `rear` is the slot
before `front + size`, modulo the capacity. -/
structure Queue.WF (q : Queue) : Prop where
  cap_pos : 0 < q.capacity
  front_lo : 0 ≤ q.front
  front_hi : q.front < q.capacity
  size_lo : 0 ≤ q.size
  size_hi : q.size ≤ q.capacity
  rear_lo : -1 ≤ q.rear
  rear_hi : q.rear < q.capacity
  rear_eq : (q.rear + 1) % q.capacity = (q.front + q.size) % q.capacity

/-- Every tracker of the table is a well-formed ring buffer of capacity `MAX_QUEUE_SIZE`. -/
def RateLimiter.WF (l : RateLimiter) : Prop :=
  ∀ b, ∀ n ∈ l.hash_table b, n.queue.WF ∧ n.queue.capacity = MAX_QUEUE_SIZE

/-- The table after a call that found its node at position `p`. -/
def RateLimiter.update (l : RateLimiter) (index p : Nat) (n : Node) : RateLimiter :=
  { l with hash_table := fun i => if i = index then (l.hash_table i).set p n else l.hash_table i }

/-- The table after a call that created its node. -/
def RateLimiter.insert (l : RateLimiter) (index : Nat) (n : Node) : RateLimiter :=
  { l with hash_table := fun i => if i = index then n :: l.hash_table i else l.hash_table i }

/-- The limiter states reachable from `createRateLimiter` by `isRequestAllowed` calls. -/
inductive Reachable (N T : Int) : RateLimiter → Prop
  | init (lim : RateLimiter) : createRateLimiter N T = some lim → Reachable N T lim
  | step (fuel : Nat) (lim : RateLimiter) (K : Key) (now : Int) (b : Bool) (lim1 : RateLimiter) :
      Reachable N T lim → isRequestAllowed fuel lim K now = some (b, lim1) → Reachable N T lim1

/-- The limiter after a sequence of calls on a freshly created limiter. -/
def stateAfter (fuel : Nat) (N T : Int) (calls : List Call) : RateLimiter :=
  match runFresh fuel N T calls with
  | some r => r.2
  | none => { hash_table := fun _ => [], requests_limit := N, time_window := T }

/-- The freshness test of the sliding window: `now - timestamp < time_window`. -/
def fresh (current_time time_window : Int) (timestamp : Int) : Bool :=
  decide (current_time - timestamp < time_window)

/-- The timestamps of the calls of a run for key `K` that returned allow, in call order. -/
def allowedTimes (K : Key) (calls : List Call) (decisions : List Bool) : List Int :=
  ((calls.zip decisions).filter (fun x => decide (x.1.1 = K) && x.2)).map (fun x => x.1.2)

/-- The number of calls of a run for key `K` that returned allow and whose time lies in the
trailing window `(t - time_window, t]`. -/
def allowedInWindow (time_window : Int) (K : Key) (calls : List Call) (decisions : List Bool)
    (t : Int) : Nat :=
  ((allowedTimes K calls decisions).filter
    (fun s => decide (t - time_window < s) && decide (s ≤ t))).length

/-- The decisions a run returned for the calls with key `A`, in call order. -/
def keyDecisions (A : Key) (calls : List Call) (decisions : List Bool) : List Bool :=
  ((calls.zip decisions).filter (fun x => decide (x.1.1 = A))).map (fun x => x.2)

/-- Number of nodes in the hash table. -/
def RateLimiter.entryCount (limiter : RateLimiter) : Nat :=
  ((List.range HASH_SIZE).map (fun i => (limiter.hash_table i).length)).sum

/-- The decisions for a sequence of calls of one key `A` and the final contents of its
tracker, computed from the times of those calls alone, starting from the tracker `s`
(`none` when the key has no node).  A key longer than 49 bytes never gets a tracker it can
find again. -/
def simKey (N T : Int) (A : Key) : Option (List Int) → List Int → List Bool × Option (List Int)
  | s, [] => ([], s)
  | s, t :: ts =>
    let r := admitList N T t (s.getD [])
    let s1 := if s.isSome = true ∨ A.take (MAX_USER_ID - 1) = A then some r.2 else none
    let rest := simKey N T A s1 ts
    (r.1 :: rest.1, rest.2)

/-! ## Queue operations and the bounded FIFO list -/

/-- An operation on a queue: `enqueue(queue, timestamp)`, `dequeue(queue)` or `peek(queue)`. -/
inductive QueueOp where
  | enq (timestamp : Int)
  | deq
  | pk

/-- One operation on the ring buffer: the value it returns, if any, and the queue after. -/
def applyOp (q : Queue) : QueueOp → Option Int × Queue
  | QueueOp.enq x => (none, enqueue q x)
  | QueueOp.deq => (some (dequeue q).1, (dequeue q).2)
  | QueueOp.pk => (some (peek q), q)

/-- A sequence of operations on the ring buffer: the returned values and the final queue. -/
def runOps : Queue → List QueueOp → List (Option Int) × Queue
  | q, [] => ([], q)
  | q, op :: ops => ((applyOp q op).1 :: (runOps (applyOp q op).2 ops).1,
      (runOps (applyOp q op).2 ops).2)

/-- Whether some `enqueue` of a sequence of operations found the queue not full. -/
def enqueueSucceeded : Queue → List QueueOp → Bool
  | _, [] => false
  | q, QueueOp.enq x :: ops => !isQueueFull q || enqueueSucceeded (enqueue q x) ops
  | q, QueueOp.deq :: ops => enqueueSucceeded (dequeue q).2 ops
  | q, QueueOp.pk :: ops => enqueueSucceeded q ops

/-- The bounded FIFO list of the specification, append at the tail: nothing is appended to a
list that already holds `capacity` timestamps. -/
def fifoEnqueue (capacity : Int) (l : List Int) (x : Int) : List Int :=
  if (l.length : Int) = capacity then l else l ++ [x]

/-- The bounded FIFO list of the specification, remove from the head: the head and the tail,
or `0` and the empty list when there is no head. -/
def fifoDequeue : List Int → Int × List Int
  | [] => (0, [])
  | a :: l => (a, l)

/-- The bounded FIFO list of the specification, peek at the head (`0` when empty). -/
def fifoPeek : List Int → Int
  | [] => 0
  | a :: _ => a

/-- One operation on the bounded FIFO list of the specification. -/
def fifoApplyOp (capacity : Int) (l : List Int) : QueueOp → Option Int × List Int
  | QueueOp.enq x => (none, fifoEnqueue capacity l x)
  | QueueOp.deq => (some (fifoDequeue l).1, (fifoDequeue l).2)
  | QueueOp.pk => (some (fifoPeek l), l)

/-- A sequence of operations on the bounded FIFO list of the specification. -/
def fifoRunOps (capacity : Int) : List Int → List QueueOp → List (Option Int) × List Int
  | l, [] => ([], l)
  | l, op :: ops => ((fifoApplyOp capacity l op).1 ::
      (fifoRunOps capacity (fifoApplyOp capacity l op).2 ops).1,
      (fifoRunOps capacity (fifoApplyOp capacity l op).2 ops).2)

/-! ## Well-formed ring buffers -/

theorem createQueue_wf (capacity : Int) (h : 0 < capacity) : (createQueue capacity).WF := by
  refine ⟨h, ?_, ?_, ?_, ?_, ?_, ?_, ?_⟩ <;> simp [createQueue] <;> omega

theorem contents_createQueue (capacity : Int) : (createQueue capacity).contents = [] := by
  simp [Queue.contents, createQueue]

theorem contents_length (q : Queue) : q.contents.length = q.size.toNat := by
  simp [Queue.contents]

theorem contents_length_int (q : Queue) (h : q.WF) : (q.contents.length : Int) = q.size := by
  rw [contents_length]; exact Int.toNat_of_nonneg h.size_lo

/-- Two slots at distance less than the capacity are different. -/
theorem slot_ne (c f : Int) (i j : Int) (hij : i < j) (hj : j < i + c) :
    (f + i) % c ≠ (f + j) % c := by
  intro h
  have h1 : (f + j) % c = (f + i) % c := h.symm
  rw [Int.emod_eq_emod_iff_emod_sub_eq_zero] at h1
  have h2 : f + j - (f + i) = j - i := by ring
  rw [h2, Int.emod_eq_of_lt (by omega) (by omega)] at h1
  omega

theorem enqueue_full (q : Queue) (x : Int) (h : q.size = q.capacity) : enqueue q x = q := by
  simp [enqueue, isQueueFull, h]

theorem enqueue_wf (q : Queue) (x : Int) (h : q.WF) : (enqueue q x).WF := by
  by_cases hf : q.size = q.capacity
  · rw [enqueue_full q x hf]; exact h
  · have hc := h.cap_pos
    have h1 : (q.rear + 1).tmod q.capacity = (q.rear + 1) % q.capacity :=
      Int.tmod_eq_emod (by have := h.rear_lo; omega) (by omega)
    have h2 := Int.emod_nonneg (q.rear + 1) (show q.capacity ≠ 0 by omega)
    have h3 := Int.emod_lt_of_pos (q.rear + 1) hc
    have h4 := h.size_lo
    have h5 := h.size_hi
    refine ⟨?_, ?_, ?_, ?_, ?_, ?_, ?_, ?_⟩ <;>
      simp only [enqueue, isQueueFull, beq_iff_eq, hf, if_false, h1] <;>
      first
        | exact h.cap_pos | exact h.front_lo | exact h.front_hi | omega
        | skip
    rw [h.rear_eq, Int.emod_add_emod]
    congr 1; ring

theorem contents_enqueue (q : Queue) (x : Int) (h : q.WF) (hf : q.size ≠ q.capacity) :
    (enqueue q x).contents = q.contents ++ [x] := by
  have hc := h.cap_pos
  have h4 := h.size_lo
  have h5 := h.size_hi
  have hfl := h.front_lo
  have h1 : (q.rear + 1).tmod q.capacity = (q.front + q.size) % q.capacity := by
    rw [Int.tmod_eq_emod (by have := h.rear_lo; omega) (by omega)]; exact h.rear_eq
  have hn : (q.size + 1).toNat = q.size.toNat + 1 := by omega
  simp only [Queue.contents, enqueue, isQueueFull, beq_iff_eq, hf, if_false, h1, hn]
  rw [List.range_succ, List.map_append]
  congr 1
  · apply List.map_congr_left
    intro i hi
    rw [List.mem_range] at hi
    have hi1 : (i : Int) < q.size := by omega
    rw [Int.tmod_eq_emod (by omega) (by omega)]
    rw [if_neg]
    exact slot_ne q.capacity q.front i q.size hi1 (by omega)
  · simp only [List.map_cons, List.map_nil]
    rw [Int.toNat_of_nonneg h4, Int.tmod_eq_emod (by omega) (by omega)]
    simp

theorem dequeue_empty (q : Queue) (h : q.size = 0) : (dequeue q).2 = q := by
  simp [dequeue, isQueueEmpty, h]

theorem dequeue_wf (q : Queue) (h : q.WF) : (dequeue q).2.WF := by
  by_cases he : q.size = 0
  · rw [dequeue_empty q he]; exact h
  · have hc := h.cap_pos
    have hfl := h.front_lo
    have h1 : (q.front + 1).tmod q.capacity = (q.front + 1) % q.capacity :=
      Int.tmod_eq_emod (by omega) (by omega)
    have h2 := Int.emod_nonneg (q.front + 1) (show q.capacity ≠ 0 by omega)
    have h3 := Int.emod_lt_of_pos (q.front + 1) hc
    have h4 := h.size_lo
    have h5 := h.size_hi
    refine ⟨?_, ?_, ?_, ?_, ?_, ?_, ?_, ?_⟩ <;>
      simp only [dequeue, isQueueEmpty, beq_iff_eq, he, if_false, h1] <;>
      first
        | exact h.cap_pos | exact h.rear_lo | exact h.rear_hi | omega
        | skip
    rw [h.rear_eq, Int.emod_add_emod]
    congr 1; ring

theorem peek_eq_head (q : Queue) (h : q.WF) (he : q.size ≠ 0) :
    q.contents.head? = some (peek q) := by
  have h4 := h.size_lo
  obtain ⟨n, hn⟩ : ∃ n, q.size.toNat = n + 1 := ⟨q.size.toNat - 1, by omega⟩
  simp only [Queue.contents, peek, isQueueEmpty, beq_iff_eq, he, if_false, hn]
  rw [List.range_succ_eq_map]
  simp only [List.map_cons, List.head?_cons, Nat.cast_zero, add_zero]
  rw [Int.tmod_eq_emod h.front_lo (by have := h.cap_pos; omega),
    Int.emod_eq_of_lt h.front_lo h.front_hi]

theorem contents_dequeue (q : Queue) (h : q.WF) (he : q.size ≠ 0) :
    (dequeue q).2.contents = q.contents.tail := by
  have hc := h.cap_pos
  have h4 := h.size_lo
  have hfl := h.front_lo
  obtain ⟨n, hn⟩ : ∃ n, q.size.toNat = n + 1 := ⟨q.size.toNat - 1, by omega⟩
  have hn1 : (q.size - 1).toNat = n := by omega
  have h1 : (q.front + 1).tmod q.capacity = (q.front + 1) % q.capacity :=
    Int.tmod_eq_emod (by omega) (by omega)
  simp only [Queue.contents, dequeue, isQueueEmpty, beq_iff_eq, he, if_false, hn, hn1, h1]
  rw [List.range_succ_eq_map]
  simp only [List.map_cons, List.tail_cons, List.map_map]
  apply List.map_congr_left
  intro i _
  have h2 := Int.emod_nonneg (q.front + 1) (show q.capacity ≠ 0 by omega)
  simp only [Function.comp, Nat.succ_eq_add_one, Nat.cast_add, Nat.cast_one]
  rw [Int.tmod_eq_emod (by omega) (by omega), Int.tmod_eq_emod (by omega) (by omega),
    Int.emod_add_emod]
  congr 2; ring

theorem contents_eq_cons (q : Queue) (h : q.WF) (he : q.size ≠ 0) :
    q.contents = peek q :: (dequeue q).2.contents := by
  have h1 := peek_eq_head q h he
  rw [contents_dequeue q h he]
  cases hq : q.contents with
  | nil => rw [hq] at h1; simp at h1
  | cons a l => rw [hq] at h1; simp at h1; simp [h1]

/-! ## `time_t` subtraction -/

theorem timeSub_eq (a b : Int) (h1 : -TIME_HALF ≤ a - b) (h2 : a - b < TIME_HALF) :
    timeSub a b = a - b := by
  simp only [timeSub, TIME_HALF, TIME_MOD] at *
  omega

/-- A difference that is not negative can only shrink when it is reduced. -/
theorem timeSub_le (a b : Int) (h : b ≤ a) : timeSub a b ≤ a - b := by
  simp only [timeSub, TIME_HALF, TIME_MOD]
  omega

/-- Where the difference fits in `time_t`, the expiry test of the code is that of the
specification. -/
theorem expired_eq_spec (now T e : Int) (h1 : -TIME_HALF ≤ now - e)
    (h2 : now - e < TIME_HALF) : expired now T e = specExpired now T e := by
  simp only [expired, specExpired, timeSub_eq now e h1 h2]

/-- A timestamp not after `now` that the code finds expired is expired. -/
theorem ge_of_expired (now T e : Int) (h1 : e ≤ now) (h : expired now T e = true) :
    now - e ≥ T := by
  simp only [expired, decide_eq_true_eq] at h
  have := timeSub_le now e h1
  omega

theorem dropWhile_congr_of_mem (p q : Int → Bool) (L : List Int) (h : ∀ e ∈ L, p e = q e) :
    L.dropWhile p = L.dropWhile q := by
  induction L with
  | nil => rfl
  | cons a L ih =>
    have ha := h a (List.mem_cons_self _ _)
    have ih1 := ih (fun e he => h e (List.mem_cons_of_mem _ he))
    by_cases hp : p a = true
    · rw [List.dropWhile_cons_of_pos hp, List.dropWhile_cons_of_pos (by rw [← ha]; exact hp), ih1]
    · rw [List.dropWhile_cons_of_neg hp, List.dropWhile_cons_of_neg (by rw [← ha]; exact hp)]

/-! ## The eviction loop -/

theorem evictExpired_of_some (fuel : Nat) (q q1 : Queue) (now T : Int) (h : q.WF)
    (he : evictExpired fuel q now T = some q1) :
    q1.WF ∧ q1.capacity = q.capacity ∧ q1.size ≤ q.size ∧
      q1.contents = q.contents.dropWhile (expired now T) := by
  induction fuel generalizing q with
  | zero => simp [evictExpired] at he
  | succ fuel ih =>
    rw [evictExpired] at he
    by_cases hs : q.size = 0
    · have hc : q.contents = [] := by simp [Queue.contents, hs]
      simp [isQueueEmpty, hs] at he
      subst he
      exact ⟨h, rfl, le_refl _, by simp [hc]⟩
    · have hcons := contents_eq_cons q h hs
      by_cases hx : timeSub now (peek q) ≥ T
      · have hcond : (!isQueueEmpty q && decide (timeSub now (peek q) ≥ T)) = true := by
          simp [isQueueEmpty, hs, hx]
        rw [if_pos hcond] at he
        obtain ⟨h1, h2, h3, h4⟩ := ih (dequeue q).2 (dequeue_wf q h) he
        refine ⟨h1, ?_, ?_, ?_⟩
        · rw [h2]; simp [dequeue, isQueueEmpty, hs]
        · have : (dequeue q).2.size = q.size - 1 := by simp [dequeue, isQueueEmpty, hs]
          omega
        · rw [h4, hcons, List.dropWhile_cons_of_pos (by simpa [expired] using hx)]
      · have hcond : ¬ (!isQueueEmpty q && decide (timeSub now (peek q) ≥ T)) = true := by
          simp [isQueueEmpty, hs, hx]
        rw [if_neg hcond, Option.some.injEq] at he
        subst he
        refine ⟨h, rfl, le_refl _, ?_⟩
        rw [hcons, List.dropWhile_cons_of_neg (by simpa [expired] using hx)]

theorem evictExpired_isSome (fuel : Nat) (q : Queue) (now T : Int) (h : q.WF)
    (hf : q.size < fuel) : ∃ q1, evictExpired fuel q now T = some q1 := by
  induction fuel generalizing q with
  | zero => have := h.size_lo; omega
  | succ fuel ih =>
    rw [evictExpired]
    split
    · apply ih (dequeue q).2 (dequeue_wf q h)
      by_cases hs : q.size = 0
      · simp_all [isQueueEmpty]
      · have : (dequeue q).2.size = q.size - 1 := by simp [dequeue, isQueueEmpty, hs]
        push_cast at hf
        omega
    · exact ⟨q, rfl⟩

/-- Lines 132-139 of `isRequestAllowed` on the logical contents. -/
theorem admit_contents (N T now : Int) (q q1 : Queue) (fuel : Nat) (h : q.WF)
    (hcap : q.capacity = MAX_QUEUE_SIZE) (he : evictExpired fuel q now T = some q1) :
    (if q1.size ≥ N then (false, q1.contents) else (true, (enqueue q1 now).contents))
      = admitList N T now q.contents := by
  obtain ⟨h1, h2, _, h4⟩ := evictExpired_of_some fuel q q1 now T h he
  have hl := contents_length_int q1 h1
  rw [h4] at hl
  simp only [admitList, hl]
  by_cases hN : q1.size ≥ N
  · simp [hN, h4]
  · simp only [hN, if_false]
    by_cases hfull : q1.size = MAX_QUEUE_SIZE
    · rw [if_pos hfull, enqueue_full q1 now (by rw [h2, hcap]; exact hfull), h4]
    · rw [if_neg hfull, contents_enqueue q1 now h1 (by rw [h2, hcap]; exact hfull), h4]

/-! ## Lookup -/

theorem findUser_some (chain : List Node) (K : Key) (p : Nat) (h : findUser chain K = some p) :
    ∃ n, chain[p]? = some n ∧ n.user_id = K := by
  induction chain generalizing p with
  | nil => simp [findUser] at h
  | cons c rest ih =>
    rw [findUser] at h
    by_cases hc : c.user_id = K
    · simp only [hc, if_true, Option.some.injEq] at h
      subst h
      exact ⟨c, by simp, hc⟩
    · simp only [hc, if_false, Option.map_eq_some'] at h
      obtain ⟨p1, hp1, rfl⟩ := h
      obtain ⟨n, hn, hk⟩ := ih p1 hp1
      exact ⟨n, by simpa using hn, hk⟩

theorem findUser_none (chain : List Node) (K : Key) :
    findUser chain K = none ↔ ∀ n ∈ chain, n.user_id ≠ K := by
  induction chain with
  | nil => simp [findUser]
  | cons c rest ih =>
    rw [findUser]
    by_cases hc : c.user_id = K
    · simp [hc]
    · simp [hc, ih]

/-- The node a lookup is routed to, as a search of the chain. -/
theorem findUser_find (chain : List Node) (K : Key) :
    (findUser chain K).bind (fun p => chain[p]?) = chain.find? (fun n => decide (n.user_id = K)) := by
  induction chain with
  | nil => simp [findUser]
  | cons c rest ih =>
    rw [findUser]
    by_cases hc : c.user_id = K
    · simp [hc]
    · rw [if_neg hc, List.find?_cons_of_neg _ (by simpa using hc), ← ih]
      cases findUser rest K <;> simp

/-- Unfolding of `isRequestAllowed`: the node it works on, the queue after the eviction loop
and the two outcomes. -/
theorem isRequestAllowed_unfold (fuel : Nat) (lim : RateLimiter) (K : Key) (now : Int)
    (b : Bool) (lim1 : RateLimiter) (h : isRequestAllowed fuel lim K now = some (b, lim1)) :
    ∃ node q1, (findOrCreateUser lim K).1.node (findOrCreateUser lim K).2 = some node ∧
      evictExpired fuel node.queue now lim.time_window = some q1 ∧
      b = !decide (q1.size ≥ lim.requests_limit) ∧
      lim1 = (findOrCreateUser lim K).1.setQueue (findOrCreateUser lim K).2
        (if q1.size ≥ lim.requests_limit then q1 else enqueue q1 now) := by
  have hT : (findOrCreateUser lim K).1.time_window = lim.time_window := by
    simp only [findOrCreateUser]; cases findUser (lim.hash_table (hash K)) K <;> rfl
  have hN : (findOrCreateUser lim K).1.requests_limit = lim.requests_limit := by
    simp only [findOrCreateUser]; cases findUser (lim.hash_table (hash K)) K <;> rfl
  simp only [isRequestAllowed, hT, hN] at h
  cases hnode : (findOrCreateUser lim K).1.node (findOrCreateUser lim K).2 with
  | none => rw [hnode] at h; simp at h
  | some node =>
    rw [hnode] at h
    simp only at h
    cases hev : evictExpired fuel node.queue now lim.time_window with
    | none => rw [hev] at h; simp at h
    | some q1 =>
      rw [hev] at h
      simp only at h
      refine ⟨node, q1, rfl, hev, ?_⟩
      by_cases hge : q1.size ≥ lim.requests_limit
      · simp only [hge, if_true, Option.some.injEq, Prod.mk.injEq] at h
        simp [hge, h.1.symm, h.2.symm]
      · simp only [hge, if_false, Option.some.injEq, Prod.mk.injEq] at h
        simp [hge, h.1.symm, h.2.symm]

/-- The node returned by `findOrCreateUser` and the table after writing its queue. -/
theorem findOrCreateUser_cases (lim : RateLimiter) (K : Key) :
    (∃ p n, findUser (lim.hash_table (hash K)) K = some p ∧
        (lim.hash_table (hash K))[p]? = some n ∧ n.user_id = K ∧
        (findOrCreateUser lim K).1 = lim ∧ (findOrCreateUser lim K).2 = ⟨hash K, p⟩ ∧
        (findOrCreateUser lim K).1.node (findOrCreateUser lim K).2 = some n ∧
        ∀ q, (findOrCreateUser lim K).1.setQueue (findOrCreateUser lim K).2 q
          = lim.update (hash K) p { n with queue := q }) ∨
    (findUser (lim.hash_table (hash K)) K = none ∧
        (findOrCreateUser lim K).1
          = lim.insert (hash K) ⟨K.take (MAX_USER_ID - 1), createQueue MAX_QUEUE_SIZE⟩ ∧
        (findOrCreateUser lim K).2 = ⟨hash K, 0⟩ ∧
        (findOrCreateUser lim K).1.node (findOrCreateUser lim K).2
          = some ⟨K.take (MAX_USER_ID - 1), createQueue MAX_QUEUE_SIZE⟩ ∧
        ∀ q, (findOrCreateUser lim K).1.setQueue (findOrCreateUser lim K).2 q
          = lim.insert (hash K) ⟨K.take (MAX_USER_ID - 1), q⟩) := by
  cases hf : findUser (lim.hash_table (hash K)) K with
  | some p =>
    left
    obtain ⟨n, hn, hk⟩ := findUser_some _ K p hf
    have h1 : findOrCreateUser lim K = (lim, ⟨hash K, p⟩) := by
      simp only [findOrCreateUser, hf]
    refine ⟨p, n, rfl, hn, hk, by rw [h1], by rw [h1], by rw [h1]; exact hn, ?_⟩
    intro q
    rw [h1]
    simp only [RateLimiter.setQueue, RateLimiter.update]
    congr 1
    funext i
    by_cases hi : i = hash K
    · subst hi; simp [hn]
    · simp [hi]
  | none =>
    right
    have h1 : findOrCreateUser lim K
        = (lim.insert (hash K) ⟨K.take (MAX_USER_ID - 1), createQueue MAX_QUEUE_SIZE⟩,
            ⟨hash K, 0⟩) := by
      simp only [findOrCreateUser, hf, RateLimiter.insert]
    refine ⟨rfl, by rw [h1], by rw [h1], by rw [h1]; simp [RateLimiter.node, RateLimiter.insert], ?_⟩
    intro q
    rw [h1]
    simp only [RateLimiter.setQueue, RateLimiter.insert]
    congr 1
    funext i
    by_cases hi : i = hash K
    · subst hi; simp
    · simp [hi]

theorem enqueue_capacity (q : Queue) (x : Int) : (enqueue q x).capacity = q.capacity := by
  unfold enqueue; split <;> rfl

/-- One call, case by case: either the key's node was found at a position `p` and its
queue replaced, or a node was created at the head of the bucket.  In both cases the new
logical contents and the decision are given by `admitList`. -/
theorem isRequestAllowed_cases (fuel : Nat) (lim : RateLimiter) (K : Key) (now : Int)
    (b : Bool) (lim1 : RateLimiter) (hwf : lim.WF)
    (h : isRequestAllowed fuel lim K now = some (b, lim1)) :
    (∃ p n q, findUser (lim.hash_table (hash K)) K = some p ∧
        (lim.hash_table (hash K))[p]? = some n ∧ n.user_id = K ∧
        q.WF ∧ q.capacity = MAX_QUEUE_SIZE ∧
        (b, q.contents) = admitList lim.requests_limit lim.time_window now n.queue.contents ∧
        lim1 = lim.update (hash K) p { n with queue := q }) ∨
    (∃ q, findUser (lim.hash_table (hash K)) K = none ∧ q.WF ∧ q.capacity = MAX_QUEUE_SIZE ∧
        (b, q.contents) = admitList lim.requests_limit lim.time_window now [] ∧
        lim1 = lim.insert (hash K) ⟨K.take (MAX_USER_ID - 1), q⟩) := by
  obtain ⟨node, q1, hnode, hev, hb, hl⟩ := isRequestAllowed_unfold fuel lim K now b lim1 h
  have key : ∀ q0 : Queue, q0.WF → q0.capacity = MAX_QUEUE_SIZE →
      evictExpired fuel q0 now lim.time_window = some q1 →
      (if q1.size ≥ lim.requests_limit then q1 else enqueue q1 now).WF ∧
      (if q1.size ≥ lim.requests_limit then q1 else enqueue q1 now).capacity = MAX_QUEUE_SIZE ∧
      (b, (if q1.size ≥ lim.requests_limit then q1 else enqueue q1 now).contents)
        = admitList lim.requests_limit lim.time_window now q0.contents := by
    intro q0 h0 hc0 he0
    obtain ⟨h1, h2, _, _⟩ := evictExpired_of_some fuel q0 q1 now _ h0 he0
    have h3 := admit_contents lim.requests_limit lim.time_window now q0 q1 fuel h0 hc0 he0
    rw [← h3, hb]
    by_cases hge : q1.size ≥ lim.requests_limit
    · simp only [hge, if_true, decide_True, Bool.not_true]
      exact ⟨h1, by rw [h2, hc0], trivial⟩
    · simp only [hge, if_false, decide_False, Bool.not_false]
      exact ⟨enqueue_wf q1 now h1, by rw [enqueue_capacity, h2, hc0], trivial⟩
  rcases findOrCreateUser_cases lim K with ⟨p, n, hf, hn, hk, _, _, hnode1, hset⟩ |
    ⟨hf, _, _, hnode1, hset⟩
  · left
    rw [hnode1, Option.some.injEq] at hnode
    subst hnode
    have hmem : n ∈ lim.hash_table (hash K) := List.getElem?_mem hn
    obtain ⟨k1, k2, k3⟩ := key n.queue (hwf _ n hmem).1 (hwf _ n hmem).2 hev
    exact ⟨p, n, _, hf, hn, hk, k1, k2, k3, by rw [hl, hset]⟩
  · right
    rw [hnode1, Option.some.injEq] at hnode
    subst hnode
    obtain ⟨k1, k2, k3⟩ := key (createQueue MAX_QUEUE_SIZE)
      (createQueue_wf _ (by decide)) rfl hev
    rw [contents_createQueue] at k3
    exact ⟨_, hf, k1, k2, k3, by rw [hl, hset]⟩

/-- With more fuel than the size of every tracker, a call on a well-formed table returns. -/
theorem isRequestAllowed_isSome_of (fuel : Nat) (lim : RateLimiter) (K : Key) (now : Int)
    (hwf : lim.WF) (h0 : 0 < fuel)
    (hfuel : ∀ i, ∀ n ∈ lim.hash_table i, n.queue.size < fuel) :
    ∃ b lim1, isRequestAllowed fuel lim K now = some (b, lim1) := by
  have hT : (findOrCreateUser lim K).1.time_window = lim.time_window := by
    simp only [findOrCreateUser]; cases findUser (lim.hash_table (hash K)) K <;> rfl
  have key : ∀ node, (findOrCreateUser lim K).1.node (findOrCreateUser lim K).2 = some node →
      node.queue.WF → node.queue.size < fuel →
      ∃ b lim1, isRequestAllowed fuel lim K now = some (b, lim1) := by
    intro node hnode h1 h2
    obtain ⟨q1, hq1⟩ := evictExpired_isSome fuel node.queue now lim.time_window h1 h2
    simp only [isRequestAllowed, hnode, hT, hq1]
    split
    · exact ⟨_, _, rfl⟩
    · exact ⟨_, _, rfl⟩
  rcases findOrCreateUser_cases lim K with ⟨p, n, _, hn, _, _, _, hnode1, _⟩ |
    ⟨_, _, _, hnode1, _⟩
  · have hmem : n ∈ lim.hash_table (hash K) := List.getElem?_mem hn
    exact key n hnode1 (hwf _ n hmem).1 (hfuel _ n hmem)
  · exact key _ hnode1 (createQueue_wf _ (by decide)) (by simpa [createQueue] using h0)

/-- With more fuel than the capacity of a tracker, a call on a well-formed table returns. -/
theorem isRequestAllowed_isSome (fuel : Nat) (lim : RateLimiter) (K : Key) (now : Int)
    (hwf : lim.WF) (hfuel : MAX_QUEUE_SIZE < fuel) :
    ∃ b lim1, isRequestAllowed fuel lim K now = some (b, lim1) := by
  have h1000 : (1000 : Int) < fuel := hfuel
  apply isRequestAllowed_isSome_of fuel lim K now hwf (by omega)
  intro i n hn
  have h1 := (hwf i n hn).1.size_hi
  rw [(hwf i n hn).2] at h1
  exact lt_of_le_of_lt h1 hfuel

theorem mem_update (lim : RateLimiter) (index p : Nat) (n m : Node) (b : Nat)
    (h : m ∈ (lim.update index p n).hash_table b) : m ∈ lim.hash_table b ∨ m = n := by
  simp only [RateLimiter.update] at h
  by_cases hb : b = index
  · rw [if_pos hb] at h
    exact List.mem_or_eq_of_mem_set h
  · rw [if_neg hb] at h
    exact Or.inl h

theorem mem_insert (lim : RateLimiter) (index : Nat) (n m : Node) (b : Nat)
    (h : m ∈ (lim.insert index n).hash_table b) : m ∈ lim.hash_table b ∨ m = n := by
  simp only [RateLimiter.insert] at h
  by_cases hb : b = index
  · rw [if_pos hb, List.mem_cons] at h
    exact h.symm
  · rw [if_neg hb] at h
    exact Or.inl h

/-- A property of the logical contents of every tracker is kept by a call as soon as
`admitList` keeps it. -/
theorem isRequestAllowed_forall (P : List Int → Prop) (fuel : Nat) (lim : RateLimiter) (K : Key)
    (now : Int) (b : Bool) (lim1 : RateLimiter) (hwf : lim.WF)
    (h : isRequestAllowed fuel lim K now = some (b, lim1))
    (hP : ∀ L, (L = [] ∨ P L) →
      P (admitList lim.requests_limit lim.time_window now L).2)
    (hall : ∀ i, ∀ n ∈ lim.hash_table i, P n.queue.contents) :
    lim1.WF ∧ lim1.requests_limit = lim.requests_limit ∧ lim1.time_window = lim.time_window ∧
      ∀ i, ∀ n ∈ lim1.hash_table i, P n.queue.contents := by
  rcases isRequestAllowed_cases fuel lim K now b lim1 hwf h with
    ⟨p, n, q, _, hn, _, hq, hcap, hadm, rfl⟩ | ⟨q, _, hq, hcap, hadm, rfl⟩
  · have hmem : n ∈ lim.hash_table (hash K) := List.getElem?_mem hn
    have hc : q.contents = (admitList lim.requests_limit lim.time_window now n.queue.contents).2 :=
      congrArg Prod.snd hadm
    refine ⟨?_, rfl, rfl, ?_⟩
    · intro i m hm
      rcases mem_update _ _ _ _ _ _ hm with h1 | rfl
      · exact hwf i m h1
      · exact ⟨hq, hcap⟩
    · intro i m hm
      rcases mem_update _ _ _ _ _ _ hm with h1 | rfl
      · exact hall i m h1
      · show P q.contents
        rw [hc]; exact hP _ (Or.inr (hall _ n hmem))
  · have hc : q.contents = (admitList lim.requests_limit lim.time_window now []).2 :=
      congrArg Prod.snd hadm
    refine ⟨?_, rfl, rfl, ?_⟩
    · intro i m hm
      rcases mem_insert _ _ _ _ _ hm with h1 | rfl
      · exact hwf i m h1
      · exact ⟨hq, hcap⟩
    · intro i m hm
      rcases mem_insert _ _ _ _ _ hm with h1 | rfl
      · exact hall i m h1
      · show P q.contents
        rw [hc]; exact hP _ (Or.inl rfl)

/-! ## Configuration -/

theorem createRateLimiter_isSome (N T : Int) : ∃ lim, createRateLimiter N T = some lim :=
  ⟨_, rfl⟩

/-- C9, as the code has it: `createRateLimiter` performs no validation.  For every pair of
arguments it returns a limiter that stores both values unchanged and whose table is empty. -/
theorem createRateLimiter_stores (N T : Int) :
    ∃ lim, createRateLimiter N T = some lim ∧ lim.requests_limit = N ∧ lim.time_window = T ∧
      ∀ i, lim.hash_table i = [] :=
  ⟨_, rfl, rfl, rfl, fun _ => rfl⟩

/-- C9 fails as stated: a zero limit, a zero window and a limit above `MAX_QUEUE_SIZE`
are all accepted. -/
theorem createRateLimiter_accepts_invalid :
    (createRateLimiter 0 5).isSome = true ∧ (createRateLimiter 3 0).isSome = true ∧
      (createRateLimiter 1001 5).isSome = true ∧
      (createRateLimiter 1001 5).map (fun l => l.requests_limit) = some 1001 :=
  ⟨rfl, rfl, rfl, rfl⟩

theorem wf_of_createRateLimiter (N T : Int) (lim : RateLimiter)
    (h : createRateLimiter N T = some lim) :
    lim.WF ∧ lim.requests_limit = N ∧ lim.time_window = T ∧ ∀ i, lim.hash_table i = [] := by
  simp only [createRateLimiter, Option.some.injEq] at h
  subst h
  exact ⟨fun i n hn => by simp at hn, rfl, rfl, fun _ => rfl⟩

/-! ## A non-positive limit -/

theorem admitList_nil_of_nonpos (N T now : Int) (h : N ≤ 0) :
    admitList N T now [] = (false, []) := by
  simp [admitList, h]

theorem runCalls_nonpos (fuel : Nat) (lim : RateLimiter) (cs : List Call) (h0 : 0 < fuel)
    (hN : lim.requests_limit ≤ 0) (hwf : lim.WF)
    (hall : ∀ i, ∀ n ∈ lim.hash_table i, n.queue.contents = []) :
    ∃ lim2, runCalls fuel lim cs = some (List.replicate cs.length false, lim2) ∧
      ∀ i, ∀ n ∈ lim2.hash_table i, n.queue.size = 0 ∧ n.queue.contents = [] := by
  have hsize : ∀ l : RateLimiter, l.WF → (∀ i, ∀ n ∈ l.hash_table i, n.queue.contents = []) →
      ∀ i, ∀ n ∈ l.hash_table i, n.queue.size = 0 := by
    intro l hl ha i n hn
    have := contents_length_int n.queue (hl i n hn).1
    rw [ha i n hn] at this
    simpa using this.symm
  induction cs generalizing lim with
  | nil => exact ⟨lim, rfl, fun i n hn => ⟨hsize lim hwf hall i n hn, hall i n hn⟩⟩
  | cons c cs ih =>
    obtain ⟨b, lim1, hstep⟩ := isRequestAllowed_isSome_of fuel lim c.1 c.2 hwf h0
      (fun i n hn => by rw [hsize lim hwf hall i n hn]; exact_mod_cast h0)
    have hP : ∀ L : List Int, (L = [] ∨ L = []) →
        (admitList lim.requests_limit lim.time_window c.2 L).2 = [] := by
      intro L hL
      have : L = [] := hL.elim id id
      rw [this, admitList_nil_of_nonpos _ _ _ hN]
    obtain ⟨hwf1, hN1, _, hall1⟩ :=
      isRequestAllowed_forall (fun L => L = []) fuel lim c.1 c.2 b lim1 hwf hstep hP hall
    have hb : b = false := by
      rcases isRequestAllowed_cases fuel lim c.1 c.2 b lim1 hwf hstep with
        ⟨p, n, q, _, hn, _, _, _, hadm, _⟩ | ⟨q, _, _, _, hadm, _⟩
      · rw [hall _ n (List.getElem?_mem hn), admitList_nil_of_nonpos _ _ _ hN] at hadm
        exact congrArg Prod.fst hadm
      · rw [admitList_nil_of_nonpos _ _ _ hN] at hadm
        exact congrArg Prod.fst hadm
    subst hb
    obtain ⟨lim2, hrun, hfin⟩ := ih lim1 (by rw [hN1]; exact hN) hwf1 hall1
    exact ⟨lim2, by simp [runCalls, hstep, hrun, List.replicate_succ], hfin⟩

/-- C10: on a limiter created with a non-positive `requests_limit`, every call of every
sequence of calls (any keys, any times) returns false, and every tracker of the table
stays empty. -/
theorem nonpositive_limit_denies_all (N T : Int) (cs : List Call) (fuel : Nat)
    (hN : N ≤ 0) (h0 : 0 < fuel) :
    ∃ lim, runFresh fuel N T cs = some (List.replicate cs.length false, lim) ∧
      ∀ i, ∀ n ∈ lim.hash_table i, n.queue.size = 0 ∧ n.queue.contents = [] := by
  obtain ⟨l0, hl0⟩ := createRateLimiter_isSome N T
  obtain ⟨hwf, hN0, _, hempty⟩ := wf_of_createRateLimiter N T l0 hl0
  obtain ⟨lim2, hrun, hfin⟩ := runCalls_nonpos fuel l0 cs h0 (by rw [hN0]; exact hN) hwf
    (fun i n hn => by rw [hempty i] at hn; simp at hn)
  exact ⟨lim2, by simp only [runFresh, hl0, hrun], hfin⟩

theorem nonpositive_limit_denies_all_witness :
    ∃ lim, runFresh 1 0 5 [([117], 0), ([118], 0), ([117], 7)]
        = some (List.replicate [(([117], 0) : Call), ([118], 0), ([117], 7)].length false, lim) ∧
      ∀ i, ∀ n ∈ lim.hash_table i, n.queue.size = 0 ∧ n.queue.contents = [] :=
  nonpositive_limit_denies_all 0 5 [([117], 0), ([118], 0), ([117], 7)] 1 (by decide) (by decide)

/-! ## The admission contract on one tracker -/

theorem node_setQueue (lim : RateLimiter) (r : NodeRef) (n : Node) (q : Queue)
    (h : lim.node r = some n) : (lim.setQueue r q).node r = some { n with queue := q } := by
  simp only [RateLimiter.node] at h
  simp only [RateLimiter.node, RateLimiter.setQueue, if_true, h]
  rw [List.getElem?_set_eq_of_lt]
  exact (List.getElem?_eq_some.mp h).1

/-- C1, when no difference `now - e` leaves the range of `time_t`: one admission step
implements the three-step contract.  Let `node` be the node the call is routed to, with a
well-formed tracker of capacity `MAX_QUEUE_SIZE` and logical contents `L` such that
`-2 ^ 63 ≤ now - e < 2 ^ 63` for every `e` in `L`, and let `L1` be `L` without its longest
prefix of entries `e` with `now - e ≥ time_window`.  With
`requests_limit ≤ MAX_QUEUE_SIZE`, the call returns false and leaves contents `L1` when
`|L1| ≥ requests_limit`, and otherwise returns true and leaves contents `L1 ++ [now]`. -/
theorem isRequestAllowed_contract (fuel : Nat) (lim : RateLimiter) (K : Key) (now : Int)
    (node : Node) (hN : lim.requests_limit ≤ MAX_QUEUE_SIZE)
    (hnode : (findOrCreateUser lim K).1.node (findOrCreateUser lim K).2 = some node)
    (hwf : node.queue.WF) (hcap : node.queue.capacity = MAX_QUEUE_SIZE)
    (hfuel : node.queue.size < fuel)
    (hspan : ∀ e ∈ node.queue.contents, -TIME_HALF ≤ now - e ∧ now - e < TIME_HALF) :
    ∃ lim1 node1,
      isRequestAllowed fuel lim K now
        = some (decide
            (((node.queue.contents.dropWhile (specExpired now lim.time_window)).length : Int)
              < lim.requests_limit), lim1) ∧
      lim1.node (findOrCreateUser lim K).2 = some node1 ∧
      node1.user_id = node.user_id ∧
      node1.queue.contents =
        if ((node.queue.contents.dropWhile (specExpired now lim.time_window)).length : Int)
            ≥ lim.requests_limit
        then node.queue.contents.dropWhile (specExpired now lim.time_window)
        else node.queue.contents.dropWhile (specExpired now lim.time_window) ++ [now] := by
  have hT : (findOrCreateUser lim K).1.time_window = lim.time_window := by
    simp only [findOrCreateUser]; cases findUser (lim.hash_table (hash K)) K <;> rfl
  have hNeq : (findOrCreateUser lim K).1.requests_limit = lim.requests_limit := by
    simp only [findOrCreateUser]; cases findUser (lim.hash_table (hash K)) K <;> rfl
  obtain ⟨q1, hq1⟩ := evictExpired_isSome fuel node.queue now lim.time_window hwf hfuel
  obtain ⟨h1, h2, _, h4⟩ := evictExpired_of_some fuel node.queue q1 now _ hwf hq1
  rw [dropWhile_congr_of_mem (expired now lim.time_window) (specExpired now lim.time_window)
    node.queue.contents (fun e he =>
      expired_eq_spec now _ e (hspan e he).1 (hspan e he).2)] at h4
  have hl := contents_length_int q1 h1
  rw [h4] at hl
  rw [hl]
  by_cases hge : q1.size ≥ lim.requests_limit
  · refine ⟨_, _, ?_, node_setQueue _ _ node q1 hnode, rfl, ?_⟩
    · simp only [isRequestAllowed, hnode, hT, hNeq, hq1, hge, if_true]
      simp [not_lt.mpr hge]
    · simp only [hge, if_true]; exact h4
  · refine ⟨_, _, ?_, node_setQueue _ _ node (enqueue q1 now) hnode, rfl, ?_⟩
    · simp only [isRequestAllowed, hnode, hT, hNeq, hq1, hge, if_false]
      simp [not_le.mp hge]
    · simp only [hge, if_false]
      rw [contents_enqueue q1 now h1 (by rw [h2, hcap]; omega), h4]

/-! ## Runs and reachable states -/

theorem runCalls_cons (fuel : Nat) (lim : RateLimiter) (c : Call) (cs : List Call) :
    runCalls fuel lim (c :: cs) =
      match isRequestAllowed fuel lim c.1 c.2 with
      | none => none
      | some (b, lim1) =>
        match runCalls fuel lim1 cs with
        | none => none
        | some (bs, lim2) => some (b :: bs, lim2) := rfl

theorem runCalls_append (fuel : Nat) (lim : RateLimiter) (cs1 cs2 : List Call) :
    runCalls fuel lim (cs1 ++ cs2) =
      match runCalls fuel lim cs1 with
      | none => none
      | some (ds1, lim1) =>
        match runCalls fuel lim1 cs2 with
        | none => none
        | some (ds2, lim2) => some (ds1 ++ ds2, lim2) := by
  induction cs1 generalizing lim with
  | nil =>
    simp only [List.nil_append, runCalls]
    cases runCalls fuel lim cs2 with
    | none => rfl
    | some r => rfl
  | cons c cs ih =>
    rw [List.cons_append, runCalls_cons, runCalls_cons]
    cases isRequestAllowed fuel lim c.1 c.2 with
    | none => rfl
    | some r =>
      obtain ⟨b, l1⟩ := r
      simp only [ih l1]
      cases runCalls fuel l1 cs with
      | none => rfl
      | some r1 =>
        obtain ⟨ds1, l2⟩ := r1
        simp only
        cases runCalls fuel l2 cs2 with
        | none => rfl
        | some r2 => rfl

theorem runCalls_single (fuel : Nat) (lim : RateLimiter) (c : Call) :
    runCalls fuel lim [c] =
      match isRequestAllowed fuel lim c.1 c.2 with
      | none => none
      | some (b, lim1) => some ([b], lim1) := by
  rw [runCalls_cons]
  cases isRequestAllowed fuel lim c.1 c.2 <;> rfl

/-- Extending a run on a fresh limiter by one call. -/
theorem runFresh_snoc (fuel : Nat) (N T : Int) (cs : List Call) (c : Call) (ds : List Bool)
    (lim : RateLimiter) (b : Bool) (lim1 : RateLimiter)
    (h : runFresh fuel N T cs = some (ds, lim))
    (hstep : isRequestAllowed fuel lim c.1 c.2 = some (b, lim1)) :
    runFresh fuel N T (cs ++ [c]) = some (ds ++ [b], lim1) := by
  simp only [runFresh, createRateLimiter] at h ⊢
  rw [runCalls_append, h]
  simp only [runCalls_single, hstep]

theorem runCalls_reachable (fuel : Nat) (N T : Int) (lim : RateLimiter) (cs : List Call)
    (ds : List Bool) (lim2 : RateLimiter) (hr : Reachable N T lim)
    (h : runCalls fuel lim cs = some (ds, lim2)) : Reachable N T lim2 := by
  induction cs generalizing lim ds with
  | nil =>
    simp only [runCalls, Option.some.injEq, Prod.mk.injEq] at h
    rw [← h.2]; exact hr
  | cons c cs ih =>
    simp only [runCalls] at h
    cases hstep : isRequestAllowed fuel lim c.1 c.2 with
    | none => rw [hstep] at h; simp at h
    | some r =>
      obtain ⟨b, l1⟩ := r
      rw [hstep] at h
      simp only at h
      cases hrun : runCalls fuel l1 cs with
      | none => rw [hrun] at h; simp at h
      | some r1 =>
        obtain ⟨ds1, l2⟩ := r1
        rw [hrun] at h
        simp only [Option.some.injEq, Prod.mk.injEq] at h
        have h2 := h.2
        subst h2
        exact ih l1 ds1 (Reachable.step fuel lim c.1 c.2 b l1 hr hstep) hrun

theorem runFresh_reachable (fuel : Nat) (N T : Int) (cs : List Call) (ds : List Bool)
    (lim : RateLimiter) (h : runFresh fuel N T cs = some (ds, lim)) : Reachable N T lim := by
  simp only [runFresh, createRateLimiter] at h
  exact runCalls_reachable fuel N T _ cs ds lim (Reachable.init _ rfl) h

theorem stateAfter_reachable (fuel : Nat) (N T : Int) (cs : List Call) :
    Reachable N T (stateAfter fuel N T cs) := by
  unfold stateAfter
  cases h : runFresh fuel N T cs with
  | none => exact Reachable.init _ rfl
  | some r => exact runFresh_reachable fuel N T cs r.1 r.2 h

theorem stateAfter_eq (fuel : Nat) (N T : Int) (cs : List Call) (ds : List Bool)
    (lim : RateLimiter) (h : runFresh fuel N T cs = some (ds, lim)) :
    stateAfter fuel N T cs = lim := by
  simp only [stateAfter, h]

theorem length_dropWhile_le_length (p : Int → Bool) (L : List Int) :
    (L.dropWhile p).length ≤ L.length :=
  (List.dropWhile_suffix p).length_le

theorem admitList_length_le (N T now : Int) (L : List Int)
    (h : L = [] ∨ (L.length : Int) ≤ max N 0) :
    (((admitList N T now L).2).length : Int) ≤ max N 0 := by
  have h1 := length_dropWhile_le_length (expired now T) L
  have h2 : ((L.dropWhile (expired now T)).length : Int) ≤ max N 0 := by
    rcases h with rfl | h
    · simp
    · omega
  simp only [admitList]
  split
  · exact h2
  · split
    · exact h2
    · simp only [List.length_append, List.length_singleton]
      push_cast
      omega

/-- In every reachable state all trackers are well-formed ring buffers of capacity
`MAX_QUEUE_SIZE`, the configuration is the one given at creation, and no tracker holds
more than `max requests_limit 0` timestamps. -/
theorem reachable_inv (N T : Int) (lim : RateLimiter) (h : Reachable N T lim) :
    lim.WF ∧ lim.requests_limit = N ∧ lim.time_window = T ∧
      ∀ i, ∀ n ∈ lim.hash_table i, (n.queue.contents.length : Int) ≤ max N 0 := by
  induction h with
  | init l hl =>
    obtain ⟨h1, h2, h3, h4⟩ := wf_of_createRateLimiter N T l hl
    exact ⟨h1, h2, h3, fun i n hn => by rw [h4 i] at hn; simp at hn⟩
  | step fuel l K now b l1 _ hstep ih =>
    obtain ⟨h1, h2, h3, h4⟩ := ih
    have := isRequestAllowed_forall (fun L => (L.length : Int) ≤ max N 0) fuel l K now b l1 h1
      hstep (fun L hL => by rw [h2]; exact admitList_length_le N _ now L hL) h4
    exact ⟨this.1, this.2.1.trans h2, this.2.2.1.trans h3, this.2.2.2⟩

/-- The node a call is routed to: it is well-formed, of capacity `MAX_QUEUE_SIZE`, and holds
at most `max requests_limit 0` timestamps. -/
theorem reachable_node (N T : Int) (lim : RateLimiter) (K : Key) (node : Node)
    (h : Reachable N T lim)
    (hnode : (findOrCreateUser lim K).1.node (findOrCreateUser lim K).2 = some node) :
    node.queue.WF ∧ node.queue.capacity = MAX_QUEUE_SIZE ∧
      (node.queue.contents.length : Int) ≤ max N 0 ∧
      (findUser (lim.hash_table (hash K)) K = none → node.queue.contents = []) := by
  obtain ⟨h1, _, _, h4⟩ := reachable_inv N T lim h
  rcases findOrCreateUser_cases lim K with ⟨p, n, hf, hn, _, _, _, hnode1, _⟩ |
    ⟨_, _, _, hnode1, _⟩
  · rw [hnode1, Option.some.injEq] at hnode
    subst hnode
    have hmem : n ∈ lim.hash_table (hash K) := List.getElem?_mem hn
    exact ⟨(h1 _ n hmem).1, (h1 _ n hmem).2, h4 _ n hmem, fun hnone => by simp [hf] at hnone⟩
  · rw [hnode1, Option.some.injEq] at hnode
    subst hnode
    refine ⟨createQueue_wf _ (by decide), rfl, ?_, fun _ => contents_createQueue _⟩
    simp [contents_createQueue]

/-! ## Denied and allowed calls -/

/-- C6: a denied call on a reachable state leaves the logical contents of the tracker it
was routed to exactly as they were before the call (empty, when the call created the
tracker): nothing is evicted and nothing is recorded. -/
theorem denial_idempotent (N T : Int) (lim : RateLimiter) (K : Key) (now : Int) (fuel : Nat)
    (lim1 : RateLimiter) (hr : Reachable N T lim)
    (h : isRequestAllowed fuel lim K now = some (false, lim1)) :
    ∃ node node1,
      (findOrCreateUser lim K).1.node (findOrCreateUser lim K).2 = some node ∧
      lim1.node (findOrCreateUser lim K).2 = some node1 ∧
      node1.user_id = node.user_id ∧
      node1.queue.contents = node.queue.contents ∧
      (findUser (lim.hash_table (hash K)) K = none → node1.queue.contents = []) := by
  obtain ⟨_, hN, hT, _⟩ := reachable_inv N T lim hr
  obtain ⟨node, q1, hnode, hev, hb, hl⟩ := isRequestAllowed_unfold fuel lim K now false lim1 h
  obtain ⟨hwf, _, hlen, hempty⟩ := reachable_node N T lim K node hr hnode
  obtain ⟨h1, _, _, h4⟩ := evictExpired_of_some fuel node.queue q1 now _ hwf hev
  have hge : q1.size ≥ lim.requests_limit := by
    by_contra hc
    simp [hc] at hb
  have hq1 := contents_length_int q1 h1
  have hle := length_dropWhile_le_length (expired now lim.time_window) node.queue.contents
  have hsame : q1.contents = node.queue.contents := by
    rw [h4]
    apply (List.dropWhile_suffix _).eq_of_length
    rw [h4] at hq1
    rw [hN] at hge
    omega
  rw [if_pos hge] at hl
  refine ⟨node, { node with queue := q1 }, hnode, ?_, rfl, hsame, ?_⟩
  · rw [hl]; exact node_setQueue _ _ node q1 hnode
  · intro hnone
    show q1.contents = []
    rw [hsame]; exact hempty hnone

theorem enqueue_size (q : Queue) (x : Int) (h : q.size ≠ q.capacity) :
    (enqueue q x).size = q.size + 1 := by
  simp [enqueue, isQueueFull, h]

/-- C8, for `requests_limit ≤ MAX_QUEUE_SIZE`: an allowed call on a reachable state appends
`now` to the tracker it was routed to.  The tracker's size is one more than after the
eviction loop, its contents are those after the eviction loop followed by `now`, and its
last timestamp is `now`. -/
theorem allowed_is_recorded (N T : Int) (lim : RateLimiter) (K : Key) (now : Int) (fuel : Nat)
    (lim1 : RateLimiter) (hN : N ≤ MAX_QUEUE_SIZE) (hr : Reachable N T lim)
    (h : isRequestAllowed fuel lim K now = some (true, lim1)) :
    ∃ node q1 node1,
      (findOrCreateUser lim K).1.node (findOrCreateUser lim K).2 = some node ∧
      evictExpired fuel node.queue now T = some q1 ∧
      lim1.node (findOrCreateUser lim K).2 = some node1 ∧
      node1.queue.size = q1.size + 1 ∧
      node1.queue.contents = q1.contents ++ [now] ∧
      node1.queue.contents.getLast? = some now := by
  obtain ⟨_, hN0, hT, _⟩ := reachable_inv N T lim hr
  obtain ⟨node, q1, hnode, hev, hb, hl⟩ := isRequestAllowed_unfold fuel lim K now true lim1 h
  obtain ⟨hwf, hcap, _, _⟩ := reachable_node N T lim K node hr hnode
  obtain ⟨h1, h2, _, _⟩ := evictExpired_of_some fuel node.queue q1 now _ hwf hev
  have hlt : ¬ q1.size ≥ lim.requests_limit := by
    intro hc
    simp [hc] at hb
  have hnf : q1.size ≠ q1.capacity := by
    rw [h2, hcap]; rw [hN0] at hlt; omega
  rw [if_neg hlt] at hl
  have hc := contents_enqueue q1 now h1 hnf
  refine ⟨node, q1, { node with queue := enqueue q1 now }, hnode, by rw [← hT]; exact hev, ?_,
    enqueue_size q1 now hnf, hc, ?_⟩
  · rw [hl]; exact node_setQueue _ _ node _ hnode
  · show (enqueue q1 now).contents.getLast? = some now
    rw [hc, List.getLast?_concat]

theorem denial_idempotent_witness :
    ∃ node node1,
      (findOrCreateUser (stateAfter 5 1 100 [([117], 0)]) [117]).1.node
        (findOrCreateUser (stateAfter 5 1 100 [([117], 0)]) [117]).2 = some node ∧
      (stateAfter 5 1 100 [([117], 0), ([117], 1)]).node
        (findOrCreateUser (stateAfter 5 1 100 [([117], 0)]) [117]).2 = some node1 ∧
      node1.user_id = node.user_id ∧
      node1.queue.contents = node.queue.contents ∧
      (findUser ((stateAfter 5 1 100 [([117], 0)]).hash_table (hash [117])) [117] = none →
        node1.queue.contents = []) :=
  denial_idempotent 1 100 (stateAfter 5 1 100 [([117], 0)]) [117] 1 5
    (stateAfter 5 1 100 [([117], 0), ([117], 1)]) (stateAfter_reachable 5 1 100 _) rfl

theorem allowed_is_recorded_witness :
    ∃ node q1 node1,
      (findOrCreateUser (stateAfter 5 2 100 [([117], 0)]) [117]).1.node
        (findOrCreateUser (stateAfter 5 2 100 [([117], 0)]) [117]).2 = some node ∧
      evictExpired 5 node.queue 1 100 = some q1 ∧
      (stateAfter 5 2 100 [([117], 0), ([117], 1)]).node
        (findOrCreateUser (stateAfter 5 2 100 [([117], 0)]) [117]).2 = some node1 ∧
      node1.queue.size = q1.size + 1 ∧
      node1.queue.contents = q1.contents ++ [1] ∧
      node1.queue.contents.getLast? = some 1 :=
  allowed_is_recorded 2 100 (stateAfter 5 2 100 [([117], 0)]) [117] 1 5
    (stateAfter 5 2 100 [([117], 0), ([117], 1)]) (by decide) (stateAfter_reachable 5 2 100 _) rfl

/-! ## The tracker a key is routed to -/

theorem findUser_set (chain : List Node) (p : Nat) (m : Node) (A : Key)
    (h : ∀ n, chain[p]? = some n → m.user_id = n.user_id) :
    findUser (chain.set p m) A = findUser chain A := by
  induction chain generalizing p with
  | nil => simp
  | cons c rest ih =>
    cases p with
    | zero =>
      have h0 : m.user_id = c.user_id := h c (by simp)
      simp only [List.set_cons_zero, findUser, h0]
    | succ p =>
      have ih1 := ih p (fun n hn => h n (by simpa using hn))
      simp only [List.set_cons_succ, findUser, ih1]

theorem tracker_none_iff (lim : RateLimiter) (K : Key) :
    lim.tracker K = none ↔ findUser (lim.hash_table (hash K)) K = none := by
  simp only [RateLimiter.tracker]
  cases hf : findUser (lim.hash_table (hash K)) K with
  | none => simp
  | some p =>
    obtain ⟨n, hn, _⟩ := findUser_some _ K p hf
    simp [hn]

theorem tracker_update (lim : RateLimiter) (K : Key) (p : Nat) (n : Node) (q : Queue) (A : Key)
    (hf : findUser (lim.hash_table (hash K)) K = some p)
    (hn : (lim.hash_table (hash K))[p]? = some n) (hk : n.user_id = K) :
    (lim.update (hash K) p { n with queue := q }).tracker A
      = if A = K then some q.contents else lim.tracker A := by
  have hlt : p < (lim.hash_table (hash K)).length := (List.getElem?_eq_some.mp hn).1
  by_cases hA : A = K
  · subst hA
    simp only [RateLimiter.tracker, RateLimiter.update, if_true]
    rw [findUser_set _ p _ A (fun n1 hn1 => by rw [hn] at hn1; cases hn1; rfl), hf]
    simp only [List.getElem?_set_eq_of_lt _ hlt, Option.map_some']
  · rw [if_neg hA]
    simp only [RateLimiter.tracker, RateLimiter.update]
    by_cases hh : hash A = hash K
    · rw [if_pos hh, hh,
        findUser_set _ p _ A (fun n1 hn1 => by rw [hn] at hn1; cases hn1; rfl)]
      cases hfa : findUser (lim.hash_table (hash K)) A with
      | none => rfl
      | some pa =>
        obtain ⟨na, hna, hka⟩ := findUser_some _ A pa hfa
        have hne : p ≠ pa := by
          rintro rfl
          rw [hn] at hna
          cases hna
          exact hA (hka.symm.trans hk)
        simp only [List.getElem?_set_ne hne]
    · rw [if_neg hh]

theorem tracker_insert (lim : RateLimiter) (K S : Key) (q : Queue) (A : Key) :
    (lim.insert (hash K) ⟨S, q⟩).tracker A
      = if S = A ∧ hash A = hash K then some q.contents else lim.tracker A := by
  simp only [RateLimiter.tracker, RateLimiter.insert]
  by_cases hh : hash A = hash K
  · rw [if_pos hh]
    by_cases hS : S = A
    · simp [findUser, hS, hh]
    · simp only [findUser, hS, if_false, false_and]
      cases findUser (lim.hash_table (hash A)) A with
      | none => rfl
      | some pa => simp
  · rw [if_neg hh]
    simp [hh]

/-- What a call does to the trackers keys are routed to.  The decision and the new contents
come from `admitList` on the contents of the tracker of the key (empty when the key has
none).  A call that found its node changes the tracker of that key only; a call that
created a node changes the tracker of the key stored in the new node only. -/
theorem tracker_step (fuel : Nat) (lim : RateLimiter) (K : Key) (now : Int) (b : Bool)
    (lim1 : RateLimiter) (hwf : lim.WF)
    (h : isRequestAllowed fuel lim K now = some (b, lim1)) :
    b = (admitList lim.requests_limit lim.time_window now ((lim.tracker K).getD [])).1 ∧
    ((lim.tracker K ≠ none ∧ ∀ A, lim1.tracker A =
        if A = K then
          some (admitList lim.requests_limit lim.time_window now ((lim.tracker K).getD [])).2
        else lim.tracker A) ∨
     (lim.tracker K = none ∧ ∀ A, lim1.tracker A =
        if K.take (MAX_USER_ID - 1) = A ∧ hash A = hash K then
          some (admitList lim.requests_limit lim.time_window now ((lim.tracker K).getD [])).2
        else lim.tracker A)) := by
  rcases isRequestAllowed_cases fuel lim K now b lim1 hwf h with
    ⟨p, n, q, hf, hn, hk, _, _, hadm, rfl⟩ | ⟨q, hf, _, _, hadm, rfl⟩
  · have ht : lim.tracker K = some n.queue.contents := by
      simp only [RateLimiter.tracker, hf, hn, Option.map_some']
    rw [ht, Option.getD_some]
    refine ⟨congrArg Prod.fst hadm, Or.inl ⟨by simp, fun A => ?_⟩⟩
    rw [tracker_update lim K p n q A hf hn hk, ← hadm]
  · have ht : lim.tracker K = none := (tracker_none_iff lim K).mpr hf
    rw [ht, Option.getD_none]
    refine ⟨congrArg Prod.fst hadm, Or.inr ⟨rfl, fun A => ?_⟩⟩
    rw [tracker_insert, ← hadm]

/-- A call for a key of at most 49 bytes: its tracker gets the contents computed by
`admitList`, and the tracker of every other key is unchanged. -/
theorem tracker_step_short (fuel : Nat) (lim : RateLimiter) (K : Key) (now : Int) (b : Bool)
    (lim1 : RateLimiter) (hwf : lim.WF) (hK : K.length < MAX_USER_ID)
    (h : isRequestAllowed fuel lim K now = some (b, lim1)) :
    b = (admitList lim.requests_limit lim.time_window now ((lim.tracker K).getD [])).1 ∧
    lim1.tracker K
      = some (admitList lim.requests_limit lim.time_window now ((lim.tracker K).getD [])).2 ∧
    ∀ A, A ≠ K → lim1.tracker A = lim.tracker A := by
  have htake : K.take (MAX_USER_ID - 1) = K := by
    apply List.take_of_length_le
    simp only [MAX_USER_ID] at hK ⊢
    omega
  obtain ⟨hb, hcase⟩ := tracker_step fuel lim K now b lim1 hwf h
  refine ⟨hb, ?_, ?_⟩
  · rcases hcase with ⟨_, hall⟩ | ⟨_, hall⟩
    · rw [hall K, if_pos rfl]
    · rw [hall K, if_pos ⟨htake, rfl⟩]
  · intro A hA
    rcases hcase with ⟨_, hall⟩ | ⟨_, hall⟩
    · rw [hall A, if_neg hA]
    · rw [hall A, if_neg (fun hc => hA (by rw [← hc.1, htake]))]

/-- The node a call is routed to holds the contents of the tracker of its key. -/
theorem tracker_node (lim : RateLimiter) (K : Key) (L : List Int) (h : lim.tracker K = some L) :
    ∃ node, (findOrCreateUser lim K).1.node (findOrCreateUser lim K).2 = some node ∧
      node.queue.contents = L := by
  rcases findOrCreateUser_cases lim K with ⟨p, n, hf, hn, _, _, _, hnode1, _⟩ |
    ⟨hf, _, _, _, _⟩
  · refine ⟨n, hnode1, ?_⟩
    simp only [RateLimiter.tracker, hf, hn, Option.map_some', Option.some.injEq] at h
    exact h
  · rw [(tracker_none_iff lim K).mpr hf] at h
    simp at h

/-! ## A limit above the capacity -/

theorem dropWhile_replicate_zero (now T : Int) (m : Nat) (h : timeSub now 0 < T) :
    (List.replicate m (0 : Int)).dropWhile (expired now T) = List.replicate m 0 := by
  cases m with
  | zero => rfl
  | succ m =>
    rw [List.replicate_succ, List.dropWhile_cons_of_neg]
    simp only [expired, ge_iff_le, decide_eq_true_eq, not_le]
    exact h

/-- With a limit above the capacity a tracker holding only fresh entries always allows, and
stops recording once it holds `MAX_QUEUE_SIZE` entries. -/
theorem admitList_replicate (N T now : Int) (m : Nat) (hN : MAX_QUEUE_SIZE < N)
    (h : timeSub now 0 < T)
    (hm : m ≤ 1000) :
    admitList N T now (List.replicate m 0)
      = (true, if m = 1000 then List.replicate m 0 else List.replicate m 0 ++ [now]) := by
  have h1000 : (1000 : Int) < N := hN
  simp only [admitList, dropWhile_replicate_zero now T m h, List.length_replicate,
    MAX_QUEUE_SIZE]
  rw [if_neg (by omega)]
  by_cases h2 : m = 1000
  · rw [if_pos (by omega), if_pos h2]
  · rw [if_neg (by omega), if_neg h2]

/-- Repeated calls for one short key at time `0` under a limit above the capacity: all of
them are allowed, and the tracker stops growing at `MAX_QUEUE_SIZE` entries. -/
theorem runFresh_saturate (fuel : Nat) (N T : Int) (K : Key) (k : Nat)
    (hfuel : MAX_QUEUE_SIZE < fuel) (hN : MAX_QUEUE_SIZE < N) (hT : 0 < T)
    (hK : K.length < MAX_USER_ID) :
    ∃ lim, runFresh fuel N T (List.replicate k (K, 0)) = some (List.replicate k true, lim) ∧
      (lim.tracker K).getD [] = List.replicate (min k 1000) 0 := by
  induction k with
  | zero => exact ⟨_, rfl, rfl⟩
  | succ k ih =>
    obtain ⟨lim, hrun, htr⟩ := ih
    have hr := runFresh_reachable fuel N T _ _ lim hrun
    obtain ⟨hwf, hN0, hT0, _⟩ := reachable_inv N T lim hr
    obtain ⟨b, lim1, hstep⟩ := isRequestAllowed_isSome fuel lim K 0 hwf hfuel
    obtain ⟨hb, ht1, _⟩ := tracker_step_short fuel lim K 0 b lim1 hwf hK hstep
    rw [hN0, hT0, htr, admitList_replicate N T 0 _ hN (by rw [timeSub_eq 0 0 (by decide) (by decide)]; exact hT) (by omega)] at hb ht1
    dsimp only at hb ht1
    subst hb
    refine ⟨lim1, ?_, ?_⟩
    · rw [List.replicate_succ', List.replicate_succ']
      exact runFresh_snoc fuel N T _ (K, 0) _ lim true lim1 hrun hstep
    · rw [ht1, Option.getD_some]
      by_cases hk : k < 1000
      · rw [if_neg (by omega), ← List.replicate_succ']
        congr 1; omega
      · rw [if_pos (by omega)]
        congr 1; omega

/-- C8 fails as stated: with `requests_limit = 1001` and `time_window = 5`, after 1000
allowed calls for one key at time `0` a further call at time `1` returns true, evicts
nothing, and leaves the tracker with the same 1000 timestamps `0`. -/
theorem allowed_not_recorded :
    Reachable 1001 5 (stateAfter 1001 1001 5 (List.replicate 1000 ([117], 0))) ∧
    ∃ lim1 node node1,
      isRequestAllowed 1001 (stateAfter 1001 1001 5 (List.replicate 1000 ([117], 0))) [117] 1
        = some (true, lim1) ∧
      (findOrCreateUser (stateAfter 1001 1001 5 (List.replicate 1000 ([117], 0))) [117]).1.node
        (findOrCreateUser (stateAfter 1001 1001 5 (List.replicate 1000 ([117], 0))) [117]).2
        = some node ∧
      node.queue.contents = List.replicate 1000 0 ∧
      lim1.node
        (findOrCreateUser (stateAfter 1001 1001 5 (List.replicate 1000 ([117], 0))) [117]).2
        = some node1 ∧
      node1.queue.contents = List.replicate 1000 0 ∧
      node1.queue.contents.getLast? = some 0 := by
  obtain ⟨lim, hrun, htr⟩ := runFresh_saturate 1001 1001 5 [117] 1000 (by decide) (by decide)
    (by decide) (by decide)
  rw [stateAfter_eq _ _ _ _ _ lim hrun]
  have hr := runFresh_reachable _ _ _ _ _ lim hrun
  refine ⟨hr, ?_⟩
  obtain ⟨hwf, hN0, hT0, _⟩ := reachable_inv _ _ lim hr
  obtain ⟨b, lim1, hstep⟩ := isRequestAllowed_isSome 1001 lim [117] 1 hwf (by decide)
  obtain ⟨hb, ht1, _⟩ := tracker_step_short 1001 lim [117] 1 b lim1 hwf (by decide) hstep
  have hmin : min 1000 1000 = 1000 := rfl
  rw [hmin] at htr
  rw [hN0, hT0, htr, admitList_replicate 1001 5 1 _ (by decide) (by decide) (le_refl _)]
    at hb ht1
  dsimp only at hb ht1
  rw [if_pos rfl] at ht1
  subst hb
  have hsome : lim.tracker [117] = some (List.replicate 1000 0) := by
    cases hc : lim.tracker [117] with
    | none =>
      rw [hc] at htr
      have := congrArg List.length htr
      rw [List.length_replicate] at this
      exact absurd this (by decide)
    | some L => rw [hc] at htr; exact congrArg some htr
  obtain ⟨node, hnode, hcont⟩ := tracker_node lim [117] _ hsome
  obtain ⟨node0, q1, hnode0, hev, _, hl⟩ := isRequestAllowed_unfold 1001 lim [117] 1 true lim1 hstep
  rw [hnode, Option.some.injEq] at hnode0
  subst hnode0
  have hnode1 := node_setQueue _ _ node
    (if q1.size ≥ lim.requests_limit then q1 else enqueue q1 1) hnode
  rw [← hl] at hnode1
  obtain ⟨node2, hn2, hc2⟩ := tracker_node lim1 [117] _ ht1
  have hsame : (findOrCreateUser lim1 [117]).1.node (findOrCreateUser lim1 [117]).2
      = lim1.node (findOrCreateUser lim [117]).2 := by
    rcases findOrCreateUser_cases lim [117] with ⟨p, n, hf, hn, hk, _, hr2, _, hset⟩ |
      ⟨hf, _, _, _, _⟩
    · rw [hl, hset, hr2]
      have hf1 : findUser ((lim.update (hash [117]) p
          { n with queue := (if q1.size ≥ lim.requests_limit then q1 else enqueue q1 1) }).hash_table
            (hash [117])) [117] = some p := by
        simp only [RateLimiter.update, if_true]
        rw [findUser_set _ p _ _ (fun n1 hn1 => by rw [hn] at hn1; cases hn1; rfl), hf]
      simp only [findOrCreateUser, hf1]
    · rw [(tracker_none_iff lim [117]).mpr hf] at hsome
      cases hsome
  rw [hsame] at hn2
  refine ⟨lim1, node, node2, hstep, hnode, hcont, hn2, hc2, ?_⟩
  rw [hc2, List.getLast?_replicate, if_neg (by decide)]

/-! ## Runs at non-decreasing times -/

/-- Induction over the runs on a freshly created limiter, one call appended at a time. -/
theorem runFresh_induction (fuel : Nat) (N T : Int) (hfuel : MAX_QUEUE_SIZE < fuel)
    (P : List Call → List Bool → RateLimiter → Prop)
    (h0 : ∀ l0, createRateLimiter N T = some l0 → P [] [] l0)
    (hs : ∀ cs c ds lim b lim1, runFresh fuel N T cs = some (ds, lim) → P cs ds lim →
      isRequestAllowed fuel lim c.1 c.2 = some (b, lim1) → P (cs ++ [c]) (ds ++ [b]) lim1)
    (cs : List Call) : ∃ ds lim, runFresh fuel N T cs = some (ds, lim) ∧ P cs ds lim := by
  induction cs using List.reverseRecOn with
  | nil => exact ⟨[], _, rfl, h0 _ rfl⟩
  | append_singleton cs c ih =>
    obtain ⟨ds, lim, hrun, hP⟩ := ih
    obtain ⟨hwf, _⟩ := reachable_inv N T lim (runFresh_reachable fuel N T cs ds lim hrun)
    obtain ⟨b, lim1, hstep⟩ := isRequestAllowed_isSome fuel lim c.1 c.2 hwf hfuel
    exact ⟨ds ++ [b], lim1, runFresh_snoc fuel N T cs c ds lim b lim1 hrun hstep,
      hs cs c ds lim b lim1 hrun hP hstep⟩

theorem dropWhile_spec_eq_filter_of_sorted (now T : Int) (L : List Int)
    (h : L.Pairwise (fun a b => a ≤ b)) :
    L.dropWhile (specExpired now T) = L.filter (fresh now T) := by
  induction L with
  | nil => rfl
  | cons a L ih =>
    rw [List.pairwise_cons] at h
    by_cases ha : now - a ≥ T
    · rw [List.dropWhile_cons_of_pos (by simpa [specExpired] using ha),
        List.filter_cons_of_neg (by simpa [fresh] using ha), ih h.2]
    · rw [List.dropWhile_cons_of_neg (by simpa [specExpired] using ha),
        List.filter_cons_of_pos (by simpa [fresh] using ha)]
      congr 1
      symm
      rw [List.filter_eq_self]
      intro e he
      have := h.1 e he
      simp only [fresh, decide_eq_true_eq]
      omega

/-- On a sorted tracker whose timestamps are not after `now` and less than `2 ^ 63` before
it, the eviction loop leaves exactly the timestamps inside the window. -/
theorem dropWhile_eq_filter_of_sorted (now T : Int) (L : List Int)
    (h : L.Pairwise (fun a b => a ≤ b))
    (hspan : ∀ e ∈ L, e ≤ now ∧ now - e < TIME_HALF) :
    L.dropWhile (expired now T) = L.filter (fresh now T) := by
  rw [dropWhile_congr_of_mem (expired now T) (specExpired now T) L (fun e he =>
    expired_eq_spec now T e (by have := (hspan e he).1; simp only [TIME_HALF]; omega)
      (hspan e he).2)]
  exact dropWhile_spec_eq_filter_of_sorted now T L h

theorem filter_fresh_eq_nil (now T : Int) (L : List Int) (h : ∀ e ∈ L, now - e ≥ T) :
    L.filter (fresh now T) = [] := by
  rw [List.filter_eq_nil_iff]
  intro e he
  have := h e he
  simp only [fresh, decide_eq_true_eq]
  omega

theorem allowedTimes_snoc (K : Key) (cs : List Call) (ds : List Bool) (c : Call) (b : Bool)
    (hlen : ds.length = cs.length) :
    allowedTimes K (cs ++ [c]) (ds ++ [b])
      = allowedTimes K cs ds ++ (if c.1 = K ∧ b = true then [c.2] else []) := by
  simp only [allowedTimes]
  rw [List.zip_append hlen.symm, List.filter_append, List.map_append]
  congr 1
  by_cases h : c.1 = K ∧ b = true
  · rw [if_pos h]
    simp [h.1, h.2]
  · rw [if_neg h]
    simp only [List.zip_cons_cons, List.zip_nil_right]
    rw [List.filter_cons_of_neg (by simpa using h)]
    rfl

theorem allowedTimes_sublist (K : Key) (cs : List Call) (ds : List Bool)
    (hlen : ds.length = cs.length) :
    List.Sublist (allowedTimes K cs ds) (cs.map Prod.snd) := by
  have h1 : (cs.zip ds).map (fun x => x.1.2) = cs.map Prod.snd := by
    have h2 := List.map_fst_zip cs ds (le_of_eq hlen.symm)
    have h3 : (cs.zip ds).map (fun x => x.1.2) = ((cs.zip ds).map Prod.fst).map Prod.snd := by
      rw [List.map_map]; rfl
    rw [h3, h2]
  rw [← h1]
  exact (List.filter_sublist _).map _

/-- The history invariant of runs at non-decreasing times with keys of at most 49 bytes and
a limit within the capacity: the tracker of a key is a suffix of the list of the allowed
timestamps of that key, and what has been evicted before it is at least `time_window` old
at any time not before the calls. -/
theorem run_history (fuel : Nat) (N T : Int) (hfuel : MAX_QUEUE_SIZE < fuel)
    (hN : N ≤ MAX_QUEUE_SIZE) (cs : List Call) :
    ∃ ds lim, runFresh fuel N T cs = some (ds, lim) ∧
      ((cs.map Prod.snd).Pairwise (fun a b => a ≤ b) →
       (∀ c ∈ cs, c.1.length < MAX_USER_ID) →
       ds.length = cs.length ∧
       ∀ K, K.length < MAX_USER_ID →
         ∃ pre, allowedTimes K cs ds = pre ++ (lim.tracker K).getD [] ∧
           ∀ e ∈ pre, ∀ now, (∀ c ∈ cs, c.2 ≤ now) → now - e ≥ T) := by
  apply runFresh_induction fuel N T hfuel
  · intro l0 hl0 _ _
    refine ⟨rfl, fun K _ => ⟨[], ?_, fun e he => by simp at he⟩⟩
    obtain ⟨_, _, _, hempty⟩ := wf_of_createRateLimiter N T l0 hl0
    simp [RateLimiter.tracker, hempty, findUser, allowedTimes]
  · intro cs c ds lim b lim1 hrun ih hstep hsorted hshort
    rw [List.map_append, List.pairwise_append] at hsorted
    obtain ⟨hs1, _, hs3⟩ := hsorted
    have hle : ∀ c1 ∈ cs, c1.2 ≤ c.2 := fun c1 hc1 =>
      hs3 c1.2 (List.mem_map_of_mem _ hc1) c.2 (by simp)
    obtain ⟨hlen, hH⟩ := ih hs1 (fun c1 hc1 => hshort c1 (List.mem_append_left _ hc1))
    obtain ⟨hwf, hN0, hT0, _⟩ :=
      reachable_inv N T lim (runFresh_reachable fuel N T cs ds lim hrun)
    have hcK : c.1.length < MAX_USER_ID := hshort c (by simp)
    obtain ⟨hb, ht1, hoth⟩ := tracker_step_short fuel lim c.1 c.2 b lim1 hwf hcK hstep
    rw [hN0, hT0] at hb ht1
    refine ⟨by simp [hlen], fun K hK => ?_⟩
    rw [allowedTimes_snoc K cs ds c b hlen]
    by_cases hKc : K = c.1
    · subst hKc
      obtain ⟨pre, hA, hpre⟩ := hH c.1 hK
      have hsub := allowedTimes_sublist c.1 cs ds hlen
      have hLle : ∀ e ∈ (lim.tracker c.1).getD [], e ≤ c.2 := by
        intro e he
        have hmem : e ∈ allowedTimes c.1 cs ds := by
          rw [hA]; exact List.mem_append_right _ he
        obtain ⟨c1, hc1, rfl⟩ := List.mem_map.mp (hsub.subset hmem)
        exact hle c1 hc1
      have hsplit := List.takeWhile_append_dropWhile (expired c.2 T) ((lim.tracker c.1).getD [])
      have hP2 : ∀ e ∈ ((lim.tracker c.1).getD []).takeWhile (expired c.2 T),
          c.2 - e ≥ T := by
        intro e he
        exact ge_of_expired c.2 T e (hLle e ((List.takeWhile_sublist _).subset he))
          (List.mem_takeWhile_imp he)
      have hpre2 : ∀ e ∈ pre ++ ((lim.tracker c.1).getD []).takeWhile (expired c.2 T),
          ∀ now, (∀ c1 ∈ cs ++ [c], c1.2 ≤ now) → now - e ≥ T := by
        intro e he now hnow
        rw [List.mem_append] at he
        rcases he with he | he
        · exact hpre e he now (fun c1 hc1 => hnow c1 (List.mem_append_left _ hc1))
        · have h1 := hP2 e he
          have h2 := hnow c (by simp)
          omega
      refine ⟨pre ++ ((lim.tracker c.1).getD []).takeWhile (expired c.2 T), ?_, hpre2⟩
      rw [ht1, Option.getD_some]
      simp only [admitList] at hb ⊢
      by_cases hge : ((((lim.tracker c.1).getD []).dropWhile (expired c.2 T)).length : Int) ≥ N
      · rw [if_pos hge] at hb ⊢
        subst hb
        simp only [true_and, if_false, List.append_nil, Bool.false_eq_true, and_false]
        rw [List.append_assoc, hsplit]
        exact hA
      · have hne : ¬ ((((lim.tracker c.1).getD []).dropWhile (expired c.2 T)).length : Int)
            = MAX_QUEUE_SIZE := by
          have h1000 : N ≤ (1000 : Int) := hN
          simp only [MAX_QUEUE_SIZE]
          omega
        rw [if_neg hge, if_neg hne] at hb ⊢
        subst hb
        simp only [true_and, if_true, and_self]
        rw [List.append_assoc, ← List.append_assoc _ _ [c.2], hsplit, ← List.append_assoc, hA]
    · obtain ⟨pre, hA, hpre⟩ := hH K hK
      rw [hoth K hKc, if_neg (fun h => hKc h.1.symm), List.append_nil]
      exact ⟨pre, hA, fun e he now hnow =>
        hpre e he now (fun c1 hc1 => hnow c1 (List.mem_append_left _ hc1))⟩

theorem admitList_fst (N T now : Int) (L : List Int) :
    ((admitList N T now L).1 = true) ↔ ((L.dropWhile (expired now T)).length : Int) < N := by
  simp only [admitList]
  split
  · simp only [Bool.false_eq_true, false_iff, not_lt]; assumption
  · split <;> simp only [true_iff] <;> omega

/-- The decision of a call after a run at non-decreasing times, from the history.  An
allowed call has fewer than `requests_limit` allowed timestamps of its key inside the
window; when no earlier call is `2 ^ 63` or more before `now`, the converse holds too. -/
theorem decision_of_history (fuel : Nat) (N T : Int) (cs : List Call) (ds : List Bool)
    (lim : RateLimiter) (K : Key) (now : Int) (b : Bool) (lim1 : RateLimiter)
    (hfuel : MAX_QUEUE_SIZE < fuel) (hN : N ≤ MAX_QUEUE_SIZE)
    (hrun : runFresh fuel N T cs = some (ds, lim))
    (hsorted : (cs.map Prod.snd).Pairwise (fun a b => a ≤ b))
    (hshort : ∀ c ∈ cs, c.1.length < MAX_USER_ID) (hK : K.length < MAX_USER_ID)
    (hnow : ∀ c ∈ cs, c.2 ≤ now)
    (hstep : isRequestAllowed fuel lim K now = some (b, lim1)) :
    ds.length = cs.length ∧
    (b = true → (((allowedTimes K cs ds).filter (fresh now T)).length : Int) < N) ∧
    ((∀ c ∈ cs, now - c.2 < TIME_HALF) →
      (b = true ↔ (((allowedTimes K cs ds).filter (fresh now T)).length : Int) < N)) := by
  obtain ⟨ds1, lim2, hrun1, hH⟩ := run_history fuel N T hfuel hN cs
  rw [hrun, Option.some.injEq, Prod.mk.injEq] at hrun1
  obtain ⟨rfl, rfl⟩ := hrun1
  obtain ⟨hlen, hH1⟩ := hH hsorted hshort
  obtain ⟨pre, hA, hpre⟩ := hH1 K hK
  obtain ⟨hwf, hN0, hT0, _⟩ :=
    reachable_inv N T lim (runFresh_reachable fuel N T cs ds lim hrun)
  obtain ⟨hb, _, _⟩ := tracker_step_short fuel lim K now b lim1 hwf hK hstep
  rw [hN0, hT0] at hb
  have hsub := allowedTimes_sublist K cs ds hlen
  have hAsorted : (allowedTimes K cs ds).Pairwise (fun a b => a ≤ b) :=
    List.Pairwise.sublist hsub hsorted
  have hLmem : ∀ e ∈ (lim.tracker K).getD [], ∃ c1 ∈ cs, c1.2 = e := by
    intro e he
    have hmem : e ∈ allowedTimes K cs ds := by
      rw [hA]; exact List.mem_append_right _ he
    obtain ⟨c1, hc1, h1⟩ := List.mem_map.mp (hsub.subset hmem)
    exact ⟨c1, hc1, h1⟩
  have hLle : ∀ e ∈ (lim.tracker K).getD [], e ≤ now := by
    intro e he
    obtain ⟨c1, hc1, rfl⟩ := hLmem e he
    exact hnow c1 hc1
  have hfilter : (allowedTimes K cs ds).filter (fresh now T)
      = ((lim.tracker K).getD []).filter (fresh now T) := by
    rw [hA, List.filter_append,
      filter_fresh_eq_nil now T pre (fun e he => hpre e he now hnow), List.nil_append]
  have hsplit := List.takeWhile_append_dropWhile (expired now T) ((lim.tracker K).getD [])
  have hle : (((lim.tracker K).getD []).filter (fresh now T)).length
      ≤ (((lim.tracker K).getD []).dropWhile (expired now T)).length := by
    have h1 : ((lim.tracker K).getD []).filter (fresh now T)
        = (((lim.tracker K).getD []).dropWhile (expired now T)).filter (fresh now T) := by
      conv_lhs => rw [← hsplit]
      rw [List.filter_append, filter_fresh_eq_nil now T _ (fun e he =>
        ge_of_expired now T e (hLle e ((List.takeWhile_sublist _).subset he))
          (List.mem_takeWhile_imp he)), List.nil_append]
    rw [h1]
    exact List.length_filter_le _ _
  refine ⟨hlen, ?_, ?_⟩
  · intro hbt
    rw [hb, admitList_fst] at hbt
    rw [hfilter]
    omega
  · intro hspan
    have hLsorted : ((lim.tracker K).getD []).Pairwise (fun a b => a ≤ b) := by
      rw [hA] at hAsorted
      exact (List.pairwise_append.mp hAsorted).2.1
    have hD := dropWhile_eq_filter_of_sorted now T _ hLsorted (fun e he => by
      obtain ⟨c1, hc1, rfl⟩ := hLmem e he
      exact ⟨hnow c1 hc1, hspan c1 hc1⟩)
    rw [hb, admitList_fst, hfilter, hD]

/-- C2, for call times less than `2 ^ 63` apart: the declarative sliding-window decision.
On a limiter created with `requests_limit ≤ MAX_QUEUE_SIZE`, after any sequence of calls
with keys of at most 49 bytes at non-decreasing times, a call for key `K` at a time `now`
not before them and less than `2 ^ 63` after the first of them returns allow if and only if
fewer than `requests_limit` of the earlier calls for `K` that returned allow have a
timestamp `ts` with `now - ts < time_window`. -/
theorem sliding_window_decision (N T : Int) (cs : List Call) (K : Key) (now : Int)
    (fuel : Nat) (hfuel : MAX_QUEUE_SIZE < fuel) (hN : N ≤ MAX_QUEUE_SIZE)
    (hshort : ∀ c ∈ cs, c.1.length < MAX_USER_ID) (hK : K.length < MAX_USER_ID)
    (hsorted : (cs.map Prod.snd ++ [now]).Pairwise (fun a b => a ≤ b))
    (hspan : ∀ c ∈ cs, now - c.2 < TIME_HALF) :
    ∃ ds lim b lim1, runFresh fuel N T cs = some (ds, lim) ∧
      isRequestAllowed fuel lim K now = some (b, lim1) ∧
      ds.length = cs.length ∧
      (b = true ↔ (((allowedTimes K cs ds).filter (fresh now T)).length : Int) < N) := by
  rw [List.pairwise_append] at hsorted
  obtain ⟨hs1, _, hs3⟩ := hsorted
  have hnow : ∀ c ∈ cs, c.2 ≤ now := fun c hc =>
    hs3 c.2 (List.mem_map_of_mem _ hc) now (by simp)
  obtain ⟨ds, lim, hrun, _⟩ := run_history fuel N T hfuel hN cs
  obtain ⟨hwf, _⟩ := reachable_inv N T lim (runFresh_reachable fuel N T cs ds lim hrun)
  obtain ⟨b, lim1, hstep⟩ := isRequestAllowed_isSome fuel lim K now hwf hfuel
  obtain ⟨hlen, _, hiff⟩ := decision_of_history fuel N T cs ds lim K now b lim1 hfuel hN hrun
    hs1 hshort hK hnow hstep
  exact ⟨ds, lim, b, lim1, hrun, hstep, hlen, hiff hspan⟩

theorem sliding_window_decision_witness :
    (∃ ds lim b lim1,
      runFresh 1001 3 5 [([117], 0), ([117], 1), ([117], 2), ([117], 3), ([117], 4)]
        = some (ds, lim) ∧
      isRequestAllowed 1001 lim [117] 6 = some (b, lim1) ∧
      ds.length
        = [(([117], 0) : Call), ([117], 1), ([117], 2), ([117], 3), ([117], 4)].length ∧
      (b = true ↔
        (((allowedTimes [117] [([117], 0), ([117], 1), ([117], 2), ([117], 3), ([117], 4)]
            ds).filter (fresh 6 5)).length : Int) < 3)) ∧
    (runFresh 1001 3 5
        [([117], 0), ([117], 1), ([117], 2), ([117], 3), ([117], 4), ([117], 6)]).map
      (fun r => r.1) = some [true, true, true, false, false, true] :=
  ⟨sliding_window_decision 3 5 [([117], 0), ([117], 1), ([117], 2), ([117], 3), ([117], 4)]
      [117] 6 1001 (by decide) (by decide) (by decide) (by decide) (by decide) (by decide),
    by decide⟩

/-- C2 fails as stated: with `requests_limit = 1` and `time_window = 5`, a call for one key
at time `-10` is allowed, and the next call for it at time `2 ^ 63 - 1` is denied although
no earlier allowed call has `now - ts < 5`: the `time_t` difference `2 ^ 63 + 9` wraps to a
negative value, so the timestamp `-10` is not evicted. -/
theorem sliding_window_decision_fails :
    ([(-10 : Int)] ++ [9223372036854775807]).Pairwise (fun a b => a ≤ b) ∧
    (runFresh 5 1 5 [([117], -10), ([117], 9223372036854775807)]).map (fun r => r.1)
      = some [true, false] ∧
    (((allowedTimes [117] [([117], -10)] [true]).filter
        (fresh 9223372036854775807 5)).length : Int) < 1 := by
  refine ⟨by decide, by decide, by decide⟩

/-! ## A worked admission step -/

theorem isRequestAllowed_contract_witness :
    (∃ lim1 node1,
      isRequestAllowed 5 (stateAfter 5 3 5 [([117], 0), ([117], 2)]) [117] 6
        = some (decide ((((((stateAfter 5 3 5 [([117], 0), ([117], 2)]).tracker [117]).getD
                  []).dropWhile
                  (specExpired 6 (stateAfter 5 3 5 [([117], 0), ([117], 2)]).time_window)).length
                  : Int)
              < (stateAfter 5 3 5 [([117], 0), ([117], 2)]).requests_limit), lim1) ∧
      lim1.node (findOrCreateUser (stateAfter 5 3 5 [([117], 0), ([117], 2)]) [117]).2
        = some node1 ∧
      node1.user_id = [117] ∧
      node1.queue.contents =
        if ((((((stateAfter 5 3 5 [([117], 0), ([117], 2)]).tracker [117]).getD []).dropWhile
              (specExpired 6 (stateAfter 5 3 5 [([117], 0), ([117], 2)]).time_window)).length
              : Int)
            ≥ (stateAfter 5 3 5 [([117], 0), ([117], 2)]).requests_limit)
        then (((stateAfter 5 3 5 [([117], 0), ([117], 2)]).tracker [117]).getD []).dropWhile
          (specExpired 6 (stateAfter 5 3 5 [([117], 0), ([117], 2)]).time_window)
        else (((stateAfter 5 3 5 [([117], 0), ([117], 2)]).tracker [117]).getD []).dropWhile
          (specExpired 6 (stateAfter 5 3 5 [([117], 0), ([117], 2)]).time_window) ++ [6]) ∧
    (stateAfter 5 3 5 [([117], 0), ([117], 2)]).tracker [117] = some [0, 2] ∧
    (stateAfter 5 3 5 [([117], 0), ([117], 2), ([117], 6)]).tracker [117] = some [2, 6] := by
  have hr := stateAfter_reachable 5 3 5 [([117], 0), ([117], 2)]
  have htr : (stateAfter 5 3 5 [([117], 0), ([117], 2)]).tracker [117] = some [0, 2] := by
    decide
  obtain ⟨node, hnode, hcont⟩ := tracker_node _ [117] _ htr
  obtain ⟨hwf, hcap, _, _⟩ := reachable_node 3 5 _ [117] node hr hnode
  have hsize : node.queue.size < (5 : Nat) := by
    have := contents_length_int node.queue hwf
    rw [hcont] at this
    rw [← this]
    decide
  have hid : node.user_id = [117] := by
    rcases findOrCreateUser_cases (stateAfter 5 3 5 [([117], 0), ([117], 2)]) [117] with
      ⟨p, n, _, _, hk, _, _, hnode1, _⟩ | ⟨hf, _, _, _, _⟩
    · rw [hnode1, Option.some.injEq] at hnode
      rw [← hnode]; exact hk
    · rw [(tracker_none_iff _ [117]).mpr hf] at htr
      cases htr
  have key := isRequestAllowed_contract 5 (stateAfter 5 3 5 [([117], 0), ([117], 2)]) [117] 6
    node (by decide) hnode hwf hcap hsize (by rw [hcont]; decide)
  rw [hcont, hid] at key
  rw [htr]
  exact ⟨key, rfl, by decide⟩

/-- C1 fails as stated: after a call at time `-10` on a limiter with `requests_limit = 1`
and `time_window = 5`, the tracker holds `L = [-10]`.  At `now = 2 ^ 63 - 1` the entry has
`now - e ≥ 5`, so `L` without its expired prefix is empty and the contract says allow with
contents `[now]`; the call returns false and leaves `[-10]`, because the `time_t`
difference `2 ^ 63 + 9` wraps to a negative value. -/
theorem contract_fails_on_overflow :
    (stateAfter 5 1 5 [([117], -10)]).tracker [117] = some [-10] ∧
    [(-10 : Int)].dropWhile (specExpired 9223372036854775807 5) = [] ∧
    (isRequestAllowed 5 (stateAfter 5 1 5 [([117], -10)]) [117] 9223372036854775807).map
        (fun r => r.1) = some false ∧
    (isRequestAllowed 5 (stateAfter 5 1 5 [([117], -10)]) [117] 9223372036854775807).map
        (fun r => r.2.tracker [117]) = some (some [-10]) := by
  refine ⟨by decide, by decide, by decide, by decide⟩

/-! ## Fairness -/

/-- In a run at non-decreasing times with keys of at most 49 bytes and a limit within the
capacity, no trailing window holds more than `requests_limit` allowed calls of one key. -/
theorem run_fairness (fuel : Nat) (N T : Int) (hfuel : MAX_QUEUE_SIZE < fuel)
    (hN : N ≤ MAX_QUEUE_SIZE) (h0 : 0 ≤ N) (cs : List Call) :
    ∃ ds lim, runFresh fuel N T cs = some (ds, lim) ∧
      ((cs.map Prod.snd).Pairwise (fun a b => a ≤ b) →
       (∀ c ∈ cs, c.1.length < MAX_USER_ID) →
       ds.length = cs.length ∧
       ∀ K, K.length < MAX_USER_ID → ∀ t, (allowedInWindow T K cs ds t : Int) ≤ N) := by
  apply runFresh_induction fuel N T hfuel
  · intro l0 _ _ _
    exact ⟨rfl, fun K _ t => by simpa [allowedInWindow, allowedTimes] using h0⟩
  · intro cs c ds lim b lim1 hrun ih hstep hsorted hshort
    rw [List.map_append, List.pairwise_append] at hsorted
    obtain ⟨hs1, _, hs3⟩ := hsorted
    have hle : ∀ c1 ∈ cs, c1.2 ≤ c.2 := fun c1 hc1 =>
      hs3 c1.2 (List.mem_map_of_mem _ hc1) c.2 (by simp)
    have hshort1 : ∀ c1 ∈ cs, c1.1.length < MAX_USER_ID :=
      fun c1 hc1 => hshort c1 (List.mem_append_left _ hc1)
    obtain ⟨hlen, hG⟩ := ih hs1 hshort1
    obtain ⟨_, himp, _⟩ := decision_of_history fuel N T cs ds lim c.1 c.2 b lim1 hfuel hN hrun
      hs1 hshort1 (hshort c (by simp)) hle hstep
    refine ⟨by simp [hlen], fun K hK t => ?_⟩
    have hold := hG K hK t
    simp only [allowedInWindow] at hold ⊢
    rw [allowedTimes_snoc K cs ds c b hlen, List.filter_append, List.length_append]
    by_cases hcb : c.1 = K ∧ b = true
    · obtain ⟨rfl, rfl⟩ := hcb
      simp only [and_self, if_true]
      have hlt := himp rfl
      by_cases hw : (decide (t - T < c.2) && decide (c.2 ≤ t)) = true
      · have hx : (List.filter (fun s => decide (t - T < s) && decide (s ≤ t)) [c.2]).length
            = 1 := by
          simp only [List.filter_cons, hw, if_true, List.filter_nil, List.length_singleton]
        rw [hx]
        simp only [Bool.and_eq_true, decide_eq_true_eq] at hw
        have hmono : ((allowedTimes c.1 cs ds).filter
            (fun s => decide (t - T < s) && decide (s ≤ t))).length
            ≤ ((allowedTimes c.1 cs ds).filter (fresh c.2 T)).length := by
          rw [← List.countP_eq_length_filter, ← List.countP_eq_length_filter]
          apply List.countP_mono_left
          intro s _ hws
          simp only [Bool.and_eq_true, decide_eq_true_eq] at hws
          simp only [fresh, decide_eq_true_eq]
          omega
        push_cast
        omega
      · have hx : (List.filter (fun s => decide (t - T < s) && decide (s ≤ t)) [c.2]).length
            = 0 := by
          simp only [List.filter_cons, hw, List.filter_nil]
          rfl
        rw [hx]
        simpa using hold
    · rw [if_neg hcb]
      simpa using hold

/-- C3, for `requests_limit ≤ MAX_QUEUE_SIZE`: monotonic fairness.  For a limiter created
with `1 ≤ requests_limit ≤ MAX_QUEUE_SIZE`, a key of at most 49 bytes and calls for that key
at non-decreasing times, the number of calls that returned allow and whose time lies in
the trailing window `(t - time_window, t]` of any call time `t` is at most
`requests_limit`. -/
theorem monotonic_fairness (N T : Int) (K : Key) (ts : List Int) (fuel : Nat)
    (hfuel : MAX_QUEUE_SIZE < fuel) (hN1 : 1 ≤ N) (hN : N ≤ MAX_QUEUE_SIZE)
    (hK : K.length < MAX_USER_ID) (hsorted : ts.Pairwise (fun a b => a ≤ b)) :
    ∃ ds lim, runFresh fuel N T (ts.map (fun t => (K, t))) = some (ds, lim) ∧
      ds.length = ts.length ∧
      ∀ t ∈ ts, (allowedInWindow T K (ts.map (fun t => (K, t))) ds t : Int) ≤ N := by
  obtain ⟨ds, lim, hrun, hG⟩ := run_fairness fuel N T hfuel hN (by omega)
    (ts.map (fun t => (K, t)))
  have hmap : (ts.map (fun t => ((K, t) : Call))).map Prod.snd = ts := by
    rw [List.map_map]
    exact List.map_id _
  obtain ⟨hlen, hall⟩ := hG (by rw [hmap]; exact hsorted) (by
    intro c hc
    obtain ⟨t, _, rfl⟩ := List.mem_map.mp hc
    exact hK)
  exact ⟨ds, lim, hrun, by simpa using hlen, fun t _ => hall K hK t⟩

theorem monotonic_fairness_witness :
    ∃ ds lim, runFresh 1001 3 5 ([0, 1, 2, 3, 4, 6].map (fun t => ([117], t))) = some (ds, lim) ∧
      ds.length = [(0 : Int), 1, 2, 3, 4, 6].length ∧
      ∀ t ∈ [(0 : Int), 1, 2, 3, 4, 6],
        (allowedInWindow 5 [117] ([0, 1, 2, 3, 4, 6].map (fun t => ([117], t))) ds t : Int) ≤ 3 :=
  monotonic_fairness 3 5 [117] [0, 1, 2, 3, 4, 6] 1001 (by decide) (by decide) (by decide)
    (by decide) (by decide)

theorem allowedInWindow_replicate (T : Int) (K : Key) (k : Nat) (hT : 0 < T) :
    allowedInWindow T K (List.replicate k (K, 0)) (List.replicate k true) 0 = k := by
  simp only [allowedInWindow, allowedTimes, List.zip_replicate, min_self]
  rw [List.filter_replicate]
  simp only [decide_True, Bool.and_self, if_true, List.map_replicate]
  rw [List.filter_replicate]
  have : (decide (0 - T < 0) && decide ((0 : Int) ≤ 0)) = true := by
    simp only [Bool.and_eq_true, decide_eq_true_eq]; omega
  rw [if_pos this, List.length_replicate]

/-- C3 fails as stated: with `requests_limit = 1001` and `time_window = 1`, all of 1002
calls for one key at time `0` return allow, so the trailing window of time `0` holds 1002
allowed calls. -/
theorem fairness_fails_above_capacity :
    ∃ lim, runFresh 1001 1001 1 ((List.replicate 1002 (0 : Int)).map (fun t => ([117], t)))
        = some (List.replicate 1002 true, lim) ∧
      allowedInWindow 1 [117] ((List.replicate 1002 (0 : Int)).map (fun t => ([117], t)))
        (List.replicate 1002 true) 0 = 1002 := by
  obtain ⟨lim, hrun, _⟩ := runFresh_saturate 1001 1001 1 [117] 1002 (by decide) (by decide)
    (by decide) (by decide)
  rw [List.map_replicate]
  exact ⟨lim, hrun, allowedInWindow_replicate 1 [117] 1002 (by decide)⟩

/-! ## Eviction -/

/-- The node a call is routed to, before and after the call. -/
theorem node_step (fuel : Nat) (lim : RateLimiter) (K : Key) (now : Int) (b : Bool)
    (lim1 : RateLimiter) (hwf : lim.WF)
    (h : isRequestAllowed fuel lim K now = some (b, lim1)) :
    ∃ node node1,
      (findOrCreateUser lim K).1.node (findOrCreateUser lim K).2 = some node ∧
      lim1.node (findOrCreateUser lim K).2 = some node1 ∧
      (node ∈ lim.hash_table (hash K) ∨ node.queue.contents = []) ∧
      node1.queue.contents
        = (admitList lim.requests_limit lim.time_window now node.queue.contents).2 := by
  obtain ⟨node, q1, hnode, hev, _, hl⟩ := isRequestAllowed_unfold fuel lim K now b lim1 h
  have hn1 := node_setQueue _ _ node
    (if q1.size ≥ lim.requests_limit then q1 else enqueue q1 now) hnode
  rw [← hl] at hn1
  have key : node.queue.WF ∧ node.queue.capacity = MAX_QUEUE_SIZE ∧
      (node ∈ lim.hash_table (hash K) ∨ node.queue.contents = []) := by
    rcases findOrCreateUser_cases lim K with ⟨p, n, _, hn, _, _, _, hnode1, _⟩ |
      ⟨_, _, _, hnode1, _⟩
    · rw [hnode1, Option.some.injEq] at hnode
      subst hnode
      have hmem : n ∈ lim.hash_table (hash K) := List.getElem?_mem hn
      exact ⟨(hwf _ n hmem).1, (hwf _ n hmem).2, Or.inl hmem⟩
    · rw [hnode1, Option.some.injEq] at hnode
      subst hnode
      exact ⟨createQueue_wf _ (by decide), rfl, Or.inr (contents_createQueue _)⟩
  refine ⟨node, _, hnode, hn1, key.2.2, ?_⟩
  have hadm := admit_contents lim.requests_limit lim.time_window now node.queue q1 fuel
    key.1 key.2.1 hev
  rw [← hadm]
  show (if q1.size ≥ lim.requests_limit then q1 else enqueue q1 now).contents = _
  split <;> rfl

theorem admitList_sorted (N T now : Int) (L : List Int)
    (h : L = [] ∨ (L.Pairwise (fun a b => a ≤ b) ∧ ∀ e ∈ L, e ≤ now)) :
    ((admitList N T now L).2).Pairwise (fun a b => a ≤ b) ∧
      ∀ e ∈ (admitList N T now L).2, e ≤ now := by
  have hL : L.Pairwise (fun a b => a ≤ b) ∧ ∀ e ∈ L, e ≤ now := by
    rcases h with rfl | h
    · exact ⟨List.Pairwise.nil, fun e he => by simp at he⟩
    · exact h
  have hsub := List.dropWhile_sublist (l := L) (expired now T)
  have hD : (L.dropWhile (expired now T)).Pairwise (fun a b => a ≤ b) ∧
      ∀ e ∈ L.dropWhile (expired now T), e ≤ now :=
    ⟨hL.1.sublist hsub, fun e he => hL.2 e (hsub.subset he)⟩
  simp only [admitList]
  split
  · exact hD
  · split
    · exact hD
    · refine ⟨?_, ?_⟩
      · rw [List.pairwise_append]
        refine ⟨hD.1, by simp, ?_⟩
        intro a ha b hb
        rw [List.mem_singleton] at hb
        subst hb
        exact hD.2 a ha
      · intro e he
        rw [List.mem_append, List.mem_singleton] at he
        rcases he with he | rfl
        · exact hD.2 e he
        · exact le_refl _

theorem admitList_fresh (N T now : Int) (L : List Int) (hT : 1 ≤ T)
    (h : L = [] ∨ (L.Pairwise (fun a b => a ≤ b) ∧ ∀ e ∈ L, e ≤ now))
    (hspan : ∀ e ∈ L, now - e < TIME_HALF) :
    ∀ e ∈ (admitList N T now L).2, now - e < T := by
  have hL : L.Pairwise (fun a b => a ≤ b) ∧ ∀ e ∈ L, e ≤ now := by
    rcases h with rfl | h
    · exact ⟨List.Pairwise.nil, fun e he => by simp at he⟩
    · exact h
  have hD : ∀ e ∈ L.dropWhile (expired now T), now - e < T := by
    intro e he
    rw [dropWhile_eq_filter_of_sorted now T L hL.1 (fun e1 he1 => ⟨hL.2 e1 he1, hspan e1 he1⟩),
      List.mem_filter] at he
    simpa [fresh] using he.2
  simp only [admitList]
  split
  · exact hD
  · split
    · exact hD
    · intro e he
      rw [List.mem_append, List.mem_singleton] at he
      rcases he with he | rfl
      · exact hD e he
      · omega

theorem admitList_mem (N T now : Int) (L : List Int) (e : Int)
    (h : e ∈ (admitList N T now L).2) : e ∈ L ∨ e = now := by
  have hsub := List.dropWhile_sublist (l := L) (expired now T)
  simp only [admitList] at h
  split at h
  · exact Or.inl (hsub.subset h)
  · split at h
    · exact Or.inl (hsub.subset h)
    · rw [List.mem_append, List.mem_singleton] at h
      rcases h with h | h
      · exact Or.inl (hsub.subset h)
      · exact Or.inr h

/-- Every timestamp retained after a run is the time of one of its calls. -/
theorem run_times_inv (fuel : Nat) (N T : Int) (hfuel : MAX_QUEUE_SIZE < fuel) (cs : List Call) :
    ∃ ds lim, runFresh fuel N T cs = some (ds, lim) ∧
      ∀ i, ∀ n ∈ lim.hash_table i, ∀ e ∈ n.queue.contents, ∃ c ∈ cs, c.2 = e := by
  apply runFresh_induction fuel N T hfuel
  · intro l0 hl0 i n hn
    obtain ⟨_, _, _, hempty⟩ := wf_of_createRateLimiter N T l0 hl0
    rw [hempty i] at hn
    simp at hn
  · intro cs c ds lim b lim1 hrun ih hstep i n hn
    obtain ⟨hwf, _⟩ := reachable_inv N T lim (runFresh_reachable fuel N T cs ds lim hrun)
    have hall := isRequestAllowed_forall
      (fun L => ∀ e ∈ L, ∃ c1 ∈ cs ++ [c], c1.2 = e) fuel lim c.1 c.2 b lim1 hwf hstep
      (fun L hL e he => by
        rcases admitList_mem _ _ c.2 L e he with h1 | h1
        · rcases hL with rfl | hL
          · simp at h1
          · exact hL e h1
        · exact ⟨c, by simp, h1.symm⟩)
      (fun i1 n1 hn1 e he => by
        obtain ⟨c1, hc1, h1⟩ := ih i1 n1 hn1 e he
        exact ⟨c1, List.mem_append_left _ hc1, h1⟩)
    exact hall.2.2.2 i n hn

/-- In a run at non-decreasing times every tracker is sorted and holds no timestamp later
than the last call. -/
theorem run_time_inv (fuel : Nat) (N T : Int) (hfuel : MAX_QUEUE_SIZE < fuel) (cs : List Call) :
    ∃ ds lim, runFresh fuel N T cs = some (ds, lim) ∧
      ((cs.map Prod.snd).Pairwise (fun a b => a ≤ b) →
       ∀ t, (∀ c ∈ cs, c.2 ≤ t) → ∀ i, ∀ n ∈ lim.hash_table i,
         n.queue.contents.Pairwise (fun a b => a ≤ b) ∧ ∀ e ∈ n.queue.contents, e ≤ t) := by
  apply runFresh_induction fuel N T hfuel
  · intro l0 hl0 _ t _ i n hn
    obtain ⟨_, _, _, hempty⟩ := wf_of_createRateLimiter N T l0 hl0
    rw [hempty i] at hn
    simp at hn
  · intro cs c ds lim b lim1 hrun ih hstep hsorted t ht i n hn
    rw [List.map_append, List.pairwise_append] at hsorted
    obtain ⟨hs1, _, hs3⟩ := hsorted
    have hle : ∀ c1 ∈ cs, c1.2 ≤ c.2 := fun c1 hc1 =>
      hs3 c1.2 (List.mem_map_of_mem _ hc1) c.2 (by simp)
    obtain ⟨hwf, _⟩ := reachable_inv N T lim (runFresh_reachable fuel N T cs ds lim hrun)
    have hall := isRequestAllowed_forall
      (fun L => L.Pairwise (fun a b => a ≤ b) ∧ ∀ e ∈ L, e ≤ c.2) fuel lim c.1 c.2 b lim1 hwf
      hstep (fun L hL => admitList_sorted _ _ c.2 L hL) (ih hs1 c.2 hle)
    obtain ⟨h1, h2⟩ := hall.2.2.2 i n hn
    exact ⟨h1, fun e he => le_trans (h2 e he) (ht c (by simp))⟩

/-- C7, for call times less than `2 ^ 63` apart: eviction correctness with the boundary
tie-break.  For `time_window ≥ 1`, after any sequence of calls at non-decreasing times on a
freshly created limiter, a call for key `K` at a time `now` not before them and less than
`2 ^ 63` after the first of them leaves in the tracker it was routed to only timestamps
`ts` with `now - ts < time_window`, whether it returned allow or deny. -/
theorem eviction_correct (N T : Int) (cs : List Call) (K : Key) (now : Int) (fuel : Nat)
    (hfuel : MAX_QUEUE_SIZE < fuel) (hT : 1 ≤ T)
    (hsorted : (cs.map Prod.snd ++ [now]).Pairwise (fun a b => a ≤ b))
    (hspan : ∀ c ∈ cs, now - c.2 < TIME_HALF) :
    ∃ ds lim b lim1 node1, runFresh fuel N T cs = some (ds, lim) ∧
      isRequestAllowed fuel lim K now = some (b, lim1) ∧
      lim1.node (findOrCreateUser lim K).2 = some node1 ∧
      (∀ ts ∈ node1.queue.contents, now - ts < T) ∧
      ∀ ts ∈ node1.queue.contents, now - ts ≠ T := by
  rw [List.pairwise_append] at hsorted
  obtain ⟨hs1, _, hs3⟩ := hsorted
  have hnow : ∀ c ∈ cs, c.2 ≤ now := fun c hc =>
    hs3 c.2 (List.mem_map_of_mem _ hc) now (by simp)
  obtain ⟨ds, lim, hrun, hinv⟩ := run_time_inv fuel N T hfuel cs
  obtain ⟨ds2, lim2, hrun2, htimes⟩ := run_times_inv fuel N T hfuel cs
  rw [hrun, Option.some.injEq, Prod.mk.injEq] at hrun2
  obtain ⟨rfl, rfl⟩ := hrun2
  obtain ⟨hwf, _, hT0, _⟩ := reachable_inv N T lim (runFresh_reachable fuel N T cs ds lim hrun)
  obtain ⟨b, lim1, hstep⟩ := isRequestAllowed_isSome fuel lim K now hwf hfuel
  obtain ⟨node, node1, _, hn1, hmem, hc⟩ := node_step fuel lim K now b lim1 hwf hstep
  have hfresh : ∀ ts ∈ node1.queue.contents, now - ts < T := by
    rw [hc, hT0]
    rcases hmem with hmem | hempty
    · apply admitList_fresh _ T now _ hT (Or.inr (hinv hs1 now hnow _ node hmem))
      intro e he
      obtain ⟨c1, hc1, rfl⟩ := htimes _ node hmem e he
      exact hspan c1 hc1
    · apply admitList_fresh _ T now _ hT (Or.inl hempty)
      intro e he
      rw [hempty] at he
      simp at he
  exact ⟨ds, lim, b, lim1, node1, hrun, hstep, hn1, hfresh,
    fun ts hts => ne_of_lt (hfresh ts hts)⟩

theorem eviction_correct_witness :
    ∃ ds lim b lim1 node1,
      runFresh 1001 3 5 [([117], 0), ([117], 1), ([117], 2), ([117], 3)] = some (ds, lim) ∧
      isRequestAllowed 1001 lim [117] 5 = some (b, lim1) ∧
      lim1.node (findOrCreateUser lim [117]).2 = some node1 ∧
      (∀ ts ∈ node1.queue.contents, 5 - ts < 5) ∧
      ∀ ts ∈ node1.queue.contents, 5 - ts ≠ 5 :=
  eviction_correct 3 5 [([117], 0), ([117], 1), ([117], 2), ([117], 3)] [117] 5 1001
    (by decide) (by decide) (by decide) (by decide)

/-- C7 fails as stated: with `requests_limit = 1` and `time_window = 5`, after a call for
one key at time `-10`, the next call for it at time `now = 2 ^ 63 - 1` leaves the timestamp
`-10` in the tracker, for which `now - ts = 2 ^ 63 + 9` is not below `5`: the `time_t`
difference wraps to a negative value and the eviction loop stops at once. -/
theorem eviction_fails_on_overflow :
    ([(-10 : Int)] ++ [9223372036854775807]).Pairwise (fun a b => a ≤ b) ∧
    (runFresh 5 1 5 [([117], -10), ([117], 9223372036854775807)]).map
        (fun r => r.2.tracker [117]) = some (some [-10]) ∧
    ¬ ((9223372036854775807 : Int) - (-10) < 5) := by
  refine ⟨by decide, by decide, by decide⟩

/-! ## Independence of keys -/

theorem keyDecisions_cons (A : Key) (c : Call) (cs : List Call) (b : Bool) (ds : List Bool) :
    keyDecisions A (c :: cs) (b :: ds)
      = if c.1 = A then b :: keyDecisions A cs ds else keyDecisions A cs ds := by
  simp only [keyDecisions, List.zip_cons_cons, List.filter_cons]
  by_cases h : c.1 = A
  · simp [h]
  · simp [h]

/-- The decisions of a run for the calls of one key `A`, and the final tracker of `A`, are
those computed by `simKey` from the calls for `A` alone, as long as no other key of the run
has `A` as its first 49 bytes. -/
theorem runCalls_key (fuel : Nat) (N T : Int) (A : Key) (cs : List Call) :
    ∀ (lim : RateLimiter) (ds : List Bool) (lim2 : RateLimiter), lim.WF →
      lim.requests_limit = N → lim.time_window = T →
      (∀ c ∈ cs, c.1 ≠ A → c.1.take (MAX_USER_ID - 1) ≠ A) →
      runCalls fuel lim cs = some (ds, lim2) →
      (keyDecisions A cs ds, lim2.tracker A)
        = simKey N T A (lim.tracker A) ((cs.filter (fun c => decide (c.1 = A))).map Prod.snd) := by
  induction cs with
  | nil =>
    intro lim ds lim2 _ _ _ _ hrun
    simp only [runCalls, Option.some.injEq, Prod.mk.injEq] at hrun
    obtain ⟨rfl, rfl⟩ := hrun
    rfl
  | cons c cs ih =>
    intro lim ds lim2 hwf hN hT hoth hrun
    rw [runCalls_cons] at hrun
    cases hstep : isRequestAllowed fuel lim c.1 c.2 with
    | none => rw [hstep] at hrun; simp at hrun
    | some r =>
      obtain ⟨b, l1⟩ := r
      rw [hstep] at hrun
      simp only at hrun
      cases hrest : runCalls fuel l1 cs with
      | none => rw [hrest] at hrun; simp at hrun
      | some r1 =>
        obtain ⟨ds1, l2⟩ := r1
        rw [hrest] at hrun
        simp only [Option.some.injEq, Prod.mk.injEq] at hrun
        obtain ⟨rfl, rfl⟩ := hrun
        obtain ⟨hwf1, hN1, hT1, _⟩ := isRequestAllowed_forall (fun _ => True) fuel lim c.1 c.2
          b l1 hwf hstep (fun _ _ => trivial) (fun _ _ _ => trivial)
        have ih1 := ih l1 ds1 l2 hwf1 (hN1.trans hN) (hT1.trans hT)
          (fun c1 hc1 => hoth c1 (List.mem_cons_of_mem _ hc1)) hrest
        obtain ⟨hb, hcase⟩ := tracker_step fuel lim c.1 c.2 b l1 hwf hstep
        rw [hN, hT] at hb hcase
        rw [keyDecisions_cons]
        by_cases hcA : c.1 = A
        · have hl1 : l1.tracker A
              = if (lim.tracker A).isSome = true ∨ A.take (MAX_USER_ID - 1) = A then
                  some (admitList N T c.2 ((lim.tracker A).getD [])).2
                else none := by
            rw [hcA] at hcase
            rcases hcase with ⟨hne, hall⟩ | ⟨hnone, hall⟩
            · rw [hall A, if_pos rfl, if_pos (Or.inl (Option.ne_none_iff_isSome.mp hne))]
            · rw [hall A, hnone]
              by_cases htake : A.take (MAX_USER_ID - 1) = A
              · rw [if_pos ⟨htake, rfl⟩, if_pos (Or.inr htake)]
              · rw [if_neg (fun h => htake h.1), if_neg (by simp [htake])]
          rw [if_pos hcA, List.filter_cons_of_pos (by simpa using hcA), List.map_cons, simKey]
          rw [hcA] at hb
          rw [← hl1, ← ih1, ← hb]
        · have hl1 : l1.tracker A = lim.tracker A := by
            rcases hcase with ⟨_, hall⟩ | ⟨_, hall⟩
            · rw [hall A, if_neg (fun h => hcA h.symm)]
            · rw [hall A, if_neg (fun h => hoth c (List.mem_cons_self _ _) hcA h.1)]
          rw [if_neg hcA, List.filter_cons_of_neg (by simpa using hcA), ← hl1]
          exact ih1

theorem runFresh_total (fuel : Nat) (N T : Int) (hfuel : MAX_QUEUE_SIZE < fuel)
    (cs : List Call) : ∃ ds lim, runFresh fuel N T cs = some (ds, lim) := by
  obtain ⟨ds, lim, h, _⟩ := runFresh_induction fuel N T hfuel (fun _ _ _ => True)
    (fun _ _ => trivial) (fun _ _ _ _ _ _ _ _ _ => trivial) cs
  exact ⟨ds, lim, h⟩

/-- C4, when no other key is cut down to `A`: independence of keys.  Take two sequences of
calls on freshly created limiters with the same configuration that contain the same calls
for key `A`, in the same order and at the same times, and in which no key other than `A` has
`A` as its first 49 bytes (in particular when every key is at most 49 bytes long).  Both
runs return, and the decisions for the calls with key `A` are the same in both. -/
theorem key_independence (N T : Int) (A : Key) (cs1 cs2 : List Call) (fuel : Nat)
    (hfuel : MAX_QUEUE_SIZE < fuel)
    (h1 : ∀ c ∈ cs1, c.1 ≠ A → c.1.take (MAX_USER_ID - 1) ≠ A)
    (h2 : ∀ c ∈ cs2, c.1 ≠ A → c.1.take (MAX_USER_ID - 1) ≠ A)
    (hsame : cs1.filter (fun c => decide (c.1 = A)) = cs2.filter (fun c => decide (c.1 = A))) :
    ∃ ds1 l1 ds2 l2, runFresh fuel N T cs1 = some (ds1, l1) ∧
      runFresh fuel N T cs2 = some (ds2, l2) ∧
      keyDecisions A cs1 ds1 = keyDecisions A cs2 ds2 := by
  obtain ⟨ds1, l1, hr1⟩ := runFresh_total fuel N T hfuel cs1
  obtain ⟨ds2, l2, hr2⟩ := runFresh_total fuel N T hfuel cs2
  refine ⟨ds1, l1, ds2, l2, hr1, hr2, ?_⟩
  obtain ⟨l0, hl0⟩ := createRateLimiter_isSome N T
  obtain ⟨hwf, hN, hT, _⟩ := wf_of_createRateLimiter N T l0 hl0
  simp only [runFresh, hl0] at hr1 hr2
  have k1 := runCalls_key fuel N T A cs1 l0 ds1 l1 hwf hN hT h1 hr1
  have k2 := runCalls_key fuel N T A cs2 l0 ds2 l2 hwf hN hT h2 hr2
  rw [hsame] at k1
  exact congrArg Prod.fst (k1.trans k2.symm)

theorem key_independence_witness :
    (∃ ds1 l1 ds2 l2, runFresh 1001 1 100 [([65], 0), ([66], 0)] = some (ds1, l1) ∧
      runFresh 1001 1 100 [([66], 0)] = some (ds2, l2) ∧
      keyDecisions [66] [([65], 0), ([66], 0)] ds1 = keyDecisions [66] [([66], 0)] ds2) ∧
    (runFresh 1001 1 100 [([65], 0), ([66], 0)]).map (fun r => r.1) = some [true, true] :=
  ⟨key_independence 1 100 [66] [([65], 0), ([66], 0)] [([66], 0)] 1001 (by decide) (by decide)
      (by decide) (by decide),
    by decide⟩

set_option maxRecDepth 100000 in
/-- C4 fails as stated: with `requests_limit = 1` and `time_window = 100`, let `A` be 49
bytes `a` and `B` be `A` followed by the byte `|`, which hashes to the same bucket.  The
call for `A` at time `0` is allowed on a fresh limiter, and denied when a call for `B` at
time `0` came first: the node created for `B` stores the 49-byte prefix `A`. -/
theorem key_independence_fails :
    hash (List.replicate 49 97 ++ [124]) = hash (List.replicate 49 97) ∧
    ([((List.replicate 49 97, 0) : Call)].filter (fun c => decide (c.1 = List.replicate 49 97))
      = [((List.replicate 49 97 ++ [124], 0) : Call), (List.replicate 49 97, 0)].filter
          (fun c => decide (c.1 = List.replicate 49 97))) ∧
    (runFresh 5 1 100 [(List.replicate 49 97, 0)]).map
        (fun r => keyDecisions (List.replicate 49 97) [(List.replicate 49 97, 0)] r.1)
      = some [true] ∧
    (runFresh 5 1 100 [(List.replicate 49 97 ++ [124], 0), (List.replicate 49 97, 0)]).map
        (fun r => keyDecisions (List.replicate 49 97)
          [(List.replicate 49 97 ++ [124], 0), (List.replicate 49 97, 0)] r.1)
      = some [false] := by
  refine ⟨by decide, by decide, by decide, by decide⟩

/-! ## Registry entries -/

theorem hash_lt (K : Key) : hash K < HASH_SIZE := by
  unfold hash
  have h1 : (0 : Int) < (HASH_SIZE : Int) := by decide
  have h2 := Int.emod_lt_of_pos
    (K.foldl (fun (h : Int) (c : Int) =>
      (((h * 32) % UINT_MOD + h) % UINT_MOD + c) % UINT_MOD) 5381) h1
  have h3 := Int.emod_nonneg
    (K.foldl (fun (h : Int) (c : Int) =>
      (((h * 32) % UINT_MOD + h) % UINT_MOD + c) % UINT_MOD) 5381) (ne_of_gt h1)
  omega

theorem sum_range_bump (n : Nat) (f g : Nat → Nat) (j : Nat) (hj : j < n)
    (hgj : g j = f j + 1) (hg : ∀ i, i ≠ j → g i = f i) :
    ((List.range n).map g).sum = ((List.range n).map f).sum + 1 := by
  induction n with
  | zero => omega
  | succ n ih =>
    rw [List.range_succ, List.map_append, List.map_append, List.sum_append, List.sum_append]
    simp only [List.map_cons, List.map_nil, List.sum_cons, List.sum_nil, add_zero]
    by_cases hjn : j = n
    · subst hjn
      have : (List.range j).map g = (List.range j).map f := by
        apply List.map_congr_left
        intro i hi
        rw [List.mem_range] at hi
        exact hg i (by omega)
      rw [this, hgj]
      omega
    · rw [ih (by omega), hg n (fun h => hjn h.symm)]
      omega

theorem entryCount_update (lim : RateLimiter) (index p : Nat) (n : Node) :
    (lim.update index p n).entryCount = lim.entryCount := by
  simp only [RateLimiter.entryCount, RateLimiter.update]
  congr 1
  apply List.map_congr_left
  intro i _
  split
  · rw [List.length_set]
  · rfl

theorem entryCount_insert (lim : RateLimiter) (index : Nat) (n : Node)
    (h : index < HASH_SIZE) : (lim.insert index n).entryCount = lim.entryCount + 1 := by
  simp only [RateLimiter.entryCount, RateLimiter.insert]
  apply sum_range_bump HASH_SIZE _ _ index h
  · simp
  · intro i hi
    simp [hi]

theorem map_user_id_set (chain : List Node) (p : Nat) (n : Node) (q : Queue)
    (hn : chain[p]? = some n) :
    (chain.set p { n with queue := q }).map Node.user_id = chain.map Node.user_id := by
  induction chain generalizing p with
  | nil => simp
  | cons c rest ih =>
    cases p with
    | zero =>
      simp only [List.getElem?_cons_zero, Option.some.injEq] at hn
      subst hn
      simp
    | succ p =>
      simp only [List.getElem?_cons_succ] at hn
      simp only [List.set_cons_succ, List.map_cons, ih p hn]

/-- The registry invariant of runs with keys of at most 49 bytes: the number of nodes is
the number of distinct keys requested, no bucket holds two nodes with the same `user_id`,
every node sits in the bucket of its `user_id`, which is a requested key, and a key has a
node exactly when it has been requested. -/
theorem run_entries (fuel : Nat) (N T : Int) (hfuel : MAX_QUEUE_SIZE < fuel) (cs : List Call) :
    ∃ ds lim, runFresh fuel N T cs = some (ds, lim) ∧
      ((∀ c ∈ cs, c.1.length < MAX_USER_ID) →
        lim.entryCount = (cs.map Prod.fst).toFinset.card ∧
        (∀ i, ((lim.hash_table i).map Node.user_id).Nodup) ∧
        (∀ i, ∀ k ∈ (lim.hash_table i).map Node.user_id, hash k = i ∧ k ∈ cs.map Prod.fst) ∧
        (∀ K, K ∈ cs.map Prod.fst ↔ findUser (lim.hash_table (hash K)) K ≠ none)) := by
  apply runFresh_induction fuel N T hfuel
  · intro l0 hl0 _
    obtain ⟨_, _, _, hempty⟩ := wf_of_createRateLimiter N T l0 hl0
    refine ⟨?_, ?_, ?_, ?_⟩
    · simp [RateLimiter.entryCount, hempty]
    · intro i; simp [hempty]
    · intro i k hk; simp [hempty] at hk
    · intro K; simp [hempty, findUser]
  · intro cs c ds lim b lim1 hrun ih hstep hshort
    obtain ⟨ha, hb, hc, hd⟩ := ih (fun c1 hc1 => hshort c1 (List.mem_append_left _ hc1))
    obtain ⟨hwf, _⟩ := reachable_inv N T lim (runFresh_reachable fuel N T cs ds lim hrun)
    have hcK : c.1.length < MAX_USER_ID := hshort c (by simp)
    have htake : c.1.take (MAX_USER_ID - 1) = c.1 := by
      apply List.take_of_length_le
      simp only [MAX_USER_ID] at hcK ⊢
      omega
    have hkeys : (cs ++ [c]).map Prod.fst = cs.map Prod.fst ++ [c.1] := by simp
    rw [hkeys]
    rcases isRequestAllowed_cases fuel lim c.1 c.2 b lim1 hwf hstep with
      ⟨p, n, q, hf, hn, hk, _, _, _, rfl⟩ | ⟨q, hf, _, _, _, rfl⟩
    · have hmem : c.1 ∈ cs.map Prod.fst := (hd c.1).mpr (by rw [hf]; simp)
      have hids : ∀ i, ((lim.update (hash c.1) p { n with queue := q }).hash_table i).map
          Node.user_id = (lim.hash_table i).map Node.user_id := by
        intro i
        simp only [RateLimiter.update]
        split
        · next hi => subst hi; exact map_user_id_set _ p n q hn
        · rfl
      refine ⟨?_, ?_, ?_, ?_⟩
      · rw [entryCount_update, ha]
        apply congrArg Finset.card
        ext x
        simp only [List.mem_toFinset, List.mem_append, List.mem_singleton]
        constructor
        · intro hx; exact Or.inl hx
        · rintro (hx | rfl)
          · exact hx
          · exact hmem
      · intro i; rw [hids i]; exact hb i
      · intro i k hk1
        rw [hids i] at hk1
        exact ⟨(hc i k hk1).1, List.mem_append_left _ (hc i k hk1).2⟩
      · intro K
        have hfu : findUser ((lim.update (hash c.1) p { n with queue := q }).hash_table (hash K)) K
            = findUser (lim.hash_table (hash K)) K := by
          simp only [RateLimiter.update]
          split
          · next hi =>
            rw [hi]
            exact findUser_set _ p _ K (fun n1 hn1 => by rw [hn] at hn1; cases hn1; rfl)
          · rfl
        rw [hfu, ← hd K, List.mem_append, List.mem_singleton]
        constructor
        · rintro (hx | rfl)
          · exact hx
          · exact hmem
        · intro hx; exact Or.inl hx
    · have hnot : c.1 ∉ cs.map Prod.fst := fun hx => (hd c.1).mp hx hf
      have hidseq : ∀ i, ((lim.insert (hash c.1) ⟨c.1.take (MAX_USER_ID - 1), q⟩).hash_table
          i).map Node.user_id
          = if i = hash c.1 then c.1 :: (lim.hash_table i).map Node.user_id
            else (lim.hash_table i).map Node.user_id := by
        intro i
        simp only [RateLimiter.insert]
        split
        · simp [htake]
        · rfl
      refine ⟨?_, ?_, ?_, ?_⟩
      · rw [entryCount_insert _ _ _ (hash_lt c.1), ha, List.toFinset_append]
        have hdisj : Disjoint (cs.map Prod.fst).toFinset [c.1].toFinset := by
          rw [Finset.disjoint_left]
          intro x hx hx1
          simp only [List.mem_toFinset, List.mem_singleton] at hx hx1
          subst hx1
          exact hnot hx
        rw [Finset.card_union_of_disjoint hdisj]
        simp
      · intro i
        rw [hidseq i]
        split
        · next hi =>
          subst hi
          rw [List.nodup_cons]
          refine ⟨?_, hb _⟩
          intro hx
          obtain ⟨n1, hn1, hk1⟩ := List.mem_map.mp hx
          exact (findUser_none _ c.1).mp hf n1 hn1 hk1
        · exact hb i
      · intro i k hk1
        rw [hidseq i] at hk1
        by_cases hi : i = hash c.1
        · rw [if_pos hi, List.mem_cons] at hk1
          rcases hk1 with rfl | hk1
          · exact ⟨hi.symm, by simp⟩
          · exact ⟨(hc i k hk1).1, List.mem_append_left _ (hc i k hk1).2⟩
        · rw [if_neg hi] at hk1
          exact ⟨(hc i k hk1).1, List.mem_append_left _ (hc i k hk1).2⟩
      · intro K
        rw [List.mem_append, List.mem_singleton]
        simp only [RateLimiter.insert]
        by_cases hi : hash K = hash c.1
        · rw [if_pos hi, findUser, htake]
          by_cases hKc : c.1 = K
          · simp [hKc]
          · rw [if_neg hKc, hd K, hi]
            constructor
            · rintro (hx | rfl)
              · simpa using hx
              · exact absurd rfl hKc
            · intro hx
              exact Or.inl (by simpa using hx)
        · rw [if_neg hi, hd K]
          constructor
          · rintro (hx | rfl)
            · exact hx
            · exact absurd rfl hi
          · intro hx; exact Or.inl hx

/-- C5, for keys of at most 49 bytes: at most one registry entry per distinct key.  After
any sequence of calls with such keys on a freshly created limiter, the number of nodes in
the hash table is the number of distinct keys requested, no bucket holds two nodes with the
same `user_id`, and every node sits in the bucket of its `user_id`, which is a requested
key.  A further lookup of such a key that has been requested creates no node and returns
the node whose `user_id` is the key; a lookup of one that has not been requested creates
exactly one node, with that `user_id` and an empty tracker. -/
theorem one_entry_per_key (N T : Int) (cs : List Call) (fuel : Nat)
    (hfuel : MAX_QUEUE_SIZE < fuel) (hshort : ∀ c ∈ cs, c.1.length < MAX_USER_ID) :
    ∃ ds lim, runFresh fuel N T cs = some (ds, lim) ∧
      lim.entryCount = (cs.map Prod.fst).dedup.length ∧
      (∀ i, ((lim.hash_table i).map Node.user_id).Nodup) ∧
      (∀ i, ∀ n ∈ lim.hash_table i, hash n.user_id = i ∧ n.user_id ∈ cs.map Prod.fst) ∧
      ∀ K, K.length < MAX_USER_ID →
        (K ∈ cs.map Prod.fst →
          (findOrCreateUser lim K).1 = lim ∧
          ∃ node, lim.node (findOrCreateUser lim K).2 = some node ∧ node.user_id = K) ∧
        (K ∉ cs.map Prod.fst →
          (findOrCreateUser lim K).1.entryCount = lim.entryCount + 1 ∧
          (findOrCreateUser lim K).1.node (findOrCreateUser lim K).2
            = some ⟨K, createQueue MAX_QUEUE_SIZE⟩) := by
  obtain ⟨ds, lim, hrun, hE⟩ := run_entries fuel N T hfuel cs
  obtain ⟨ha, hb, hc, hd⟩ := hE hshort
  refine ⟨ds, lim, hrun, by rw [ha, List.card_toFinset], hb,
    fun i n hn => hc i n.user_id (List.mem_map_of_mem _ hn), fun K hK => ⟨?_, ?_⟩⟩
  · intro hmem
    rcases findOrCreateUser_cases lim K with ⟨p, n, _, _, hk, h1, _, hnode, _⟩ |
      ⟨hf, _, _, _, _⟩
    · refine ⟨h1, n, ?_, hk⟩
      rw [h1] at hnode
      exact hnode
    · exact absurd hf ((hd K).mp hmem)
  · intro hnot
    have htake : K.take (MAX_USER_ID - 1) = K := by
      apply List.take_of_length_le
      simp only [MAX_USER_ID] at hK ⊢
      omega
    rcases findOrCreateUser_cases lim K with ⟨p, n, hf, _, _, _, _, _, _⟩ |
      ⟨_, h1, _, hnode, _⟩
    · exact absurd ((hd K).mpr (by rw [hf]; simp)) hnot
    · rw [htake] at h1 hnode
      exact ⟨by rw [h1, entryCount_insert _ _ _ (hash_lt K)], hnode⟩

theorem one_entry_per_key_witness :
    ∃ ds lim, runFresh 1001 3 5 [([65], 0), ([66], 1), ([65], 2)] = some (ds, lim) ∧
      lim.entryCount = ([(([65], 0) : Call), ([66], 1), ([65], 2)].map Prod.fst).dedup.length ∧
      (∀ i, ((lim.hash_table i).map Node.user_id).Nodup) ∧
      (∀ i, ∀ n ∈ lim.hash_table i, hash n.user_id = i ∧
        n.user_id ∈ [(([65], 0) : Call), ([66], 1), ([65], 2)].map Prod.fst) ∧
      ∀ K, K.length < MAX_USER_ID →
        (K ∈ [(([65], 0) : Call), ([66], 1), ([65], 2)].map Prod.fst →
          (findOrCreateUser lim K).1 = lim ∧
          ∃ node, lim.node (findOrCreateUser lim K).2 = some node ∧ node.user_id = K) ∧
        (K ∉ [(([65], 0) : Call), ([66], 1), ([65], 2)].map Prod.fst →
          (findOrCreateUser lim K).1.entryCount = lim.entryCount + 1 ∧
          (findOrCreateUser lim K).1.node (findOrCreateUser lim K).2
            = some ⟨K, createQueue MAX_QUEUE_SIZE⟩) :=
  one_entry_per_key 3 5 [([65], 0), ([66], 1), ([65], 2)] 1001 (by decide) (by decide)

set_option maxRecDepth 100000 in
/-- C5 fails as stated: two calls with the same key of 50 bytes leave two nodes in the
table for one distinct key.  The stored `user_id` is cut to 49 bytes and never compares
equal to the key, so the second call creates a second node (and is decided on an empty
tracker: with `requests_limit = 1` both calls are allowed). -/
theorem long_key_duplicates :
    (stateAfter 5 1 100 [(List.replicate 50 97, 0), (List.replicate 50 97, 1)]).entryCount = 2 ∧
    ([((List.replicate 50 97, 0) : Call), (List.replicate 50 97, 1)].map Prod.fst).dedup.length
      = 1 ∧
    (runFresh 5 1 100 [(List.replicate 50 97, 0), (List.replicate 50 97, 1)]).map (fun r => r.1)
      = some [true, true] := by
  refine ⟨by decide, by decide, by decide⟩

/-! ## Tracker bounds and order -/

/-- C11: the tracker length bound.  In every limiter state reachable from
`createRateLimiter(N, T)` by `isRequestAllowed` calls (any keys, any times), every tracker
has capacity `MAX_QUEUE_SIZE = 1000` and a size between `0` and its capacity, and its size
is at most `N` when `N ≥ 0`. -/
theorem tracker_length_bound (N T : Int) (lim : RateLimiter) (i : Nat) (n : Node)
    (hr : Reachable N T lim) (hn : n ∈ lim.hash_table i) :
    n.queue.capacity = 1000 ∧ 0 ≤ n.queue.size ∧ n.queue.size ≤ n.queue.capacity ∧
      n.queue.size ≤ 1000 ∧ (0 ≤ N → n.queue.size ≤ N) ∧
      (n.queue.contents.length : Int) = n.queue.size := by
  obtain ⟨hwf, _, _, hlen⟩ := reachable_inv N T lim hr
  obtain ⟨h1, h2⟩ := hwf i n hn
  have h3 := contents_length_int n.queue h1
  have h4 := hlen i n hn
  have h5 := h1.size_hi
  have h6 : n.queue.capacity = 1000 := h2
  refine ⟨h6, h1.size_lo, h5, by omega, fun h0 => ?_, h3⟩
  rw [h3, max_eq_left h0] at h4
  exact h4

theorem tracker_mem (lim : RateLimiter) (K : Key) (L : List Int) (h : lim.tracker K = some L) :
    ∃ n, n ∈ lim.hash_table (hash K) ∧ n.user_id = K ∧ n.queue.contents = L := by
  simp only [RateLimiter.tracker] at h
  cases hf : findUser (lim.hash_table (hash K)) K with
  | none => rw [hf] at h; cases h
  | some p =>
    obtain ⟨n, hn, hk⟩ := findUser_some _ K p hf
    rw [hf] at h
    simp only [hn, Option.map_some', Option.some.injEq] at h
    exact ⟨n, List.getElem?_mem hn, hk, h⟩

theorem tracker_length_bound_witness :
    ∃ n, n ∈ (stateAfter 5 2 100 [([117], 0), ([117], 1), ([117], 2)]).hash_table (hash [117]) ∧
      n.queue.contents = [0, 1] ∧
      (n.queue.capacity = 1000 ∧ 0 ≤ n.queue.size ∧ n.queue.size ≤ n.queue.capacity ∧
        n.queue.size ≤ 1000 ∧ ((0 : Int) ≤ 2 → n.queue.size ≤ 2) ∧
        (n.queue.contents.length : Int) = n.queue.size) := by
  obtain ⟨n, hn, _, hc⟩ := tracker_mem
    (stateAfter 5 2 100 [([117], 0), ([117], 1), ([117], 2)]) [117] [0, 1] (by decide)
  exact ⟨n, hn, hc,
    tracker_length_bound 2 100 _ (hash [117]) n (stateAfter_reachable 5 2 100 _) hn⟩

/-- C12: tracker timestamps are ordered and not in the future.  After any sequence of calls
at non-decreasing times on a freshly created limiter, the retained timestamps of every
tracker, read from head to tail, are non-decreasing, and none of them is later than the
time of the most recent call. -/
theorem tracker_sorted (N T : Int) (cs : List Call) (fuel : Nat)
    (hfuel : MAX_QUEUE_SIZE < fuel)
    (hsorted : (cs.map Prod.snd).Pairwise (fun a b => a ≤ b)) :
    ∃ ds lim, runFresh fuel N T cs = some (ds, lim) ∧
      ∀ i, ∀ n ∈ lim.hash_table i,
        n.queue.contents.Pairwise (fun a b => a ≤ b) ∧
        ∀ e ∈ n.queue.contents, ∀ last ∈ cs.getLast?, e ≤ last.2 := by
  obtain ⟨ds, lim, hrun, hinv⟩ := run_time_inv fuel N T hfuel cs
  refine ⟨ds, lim, hrun, fun i n hn => ?_⟩
  have hall : ∀ last ∈ cs.getLast?, ∀ c ∈ cs, c.2 ≤ last.2 := by
    intro last hlast c hc
    rw [Option.mem_def] at hlast
    obtain ⟨init, rfl⟩ : ∃ init, cs = init ++ [last] := by
      have hne : cs ≠ [] := by rintro rfl; simp at hlast
      refine ⟨cs.dropLast, ?_⟩
      have h1 := List.dropLast_append_getLast hne
      rw [List.getLast?_eq_getLast _ hne, Option.some.injEq] at hlast
      rw [← hlast]; exact h1.symm
    rw [List.map_append, List.pairwise_append] at hsorted
    rw [List.mem_append, List.mem_singleton] at hc
    rcases hc with hc | rfl
    · exact hsorted.2.2 c.2 (List.mem_map_of_mem _ hc) last.2 (by simp)
    · exact le_refl _
  refine ⟨?_, fun e he last hlast => (hinv hsorted last.2 (hall last hlast) i n hn).2 e he⟩
  cases hl : cs.getLast? with
  | none =>
    have hnil : cs = [] := by simpa using hl
    subst hnil
    exact (hinv hsorted 0 (fun c hc => by simp at hc) i n hn).1
  | some last => exact (hinv hsorted last.2 (hall last (by rw [hl]; rfl)) i n hn).1

theorem tracker_sorted_witness :
    ∃ ds lim, runFresh 1001 3 5 [([117], 0), ([118], 1), ([117], 4), ([117], 6)]
        = some (ds, lim) ∧
      ∀ i, ∀ n ∈ lim.hash_table i,
        n.queue.contents.Pairwise (fun a b => a ≤ b) ∧
        ∀ e ∈ n.queue.contents,
          ∀ last ∈ [(([117], 0) : Call), ([118], 1), ([117], 4), ([117], 6)].getLast?,
            e ≤ last.2 :=
  tracker_sorted 3 5 [([117], 0), ([118], 1), ([117], 4), ([117], 6)] 1001 (by decide)
    (by decide)

/-! ## A non-positive window -/

theorem dropWhile_expired_all (now T : Int) (L : List Int) (hT : T ≤ 0)
    (h : ∀ e ∈ L, e ≤ now ∧ now - e < TIME_HALF) : L.dropWhile (expired now T) = [] := by
  induction L with
  | nil => rfl
  | cons a L ih =>
    have ha := h a (List.mem_cons_self _ _)
    have hsub : timeSub now a = now - a :=
      timeSub_eq now a (by have := ha.1; simp only [TIME_HALF]; omega) ha.2
    rw [List.dropWhile_cons_of_pos (by
      simp only [expired, decide_eq_true_eq, hsub]; have := ha.1; omega)]
    exact ih (fun e he => h e (List.mem_cons_of_mem _ he))

theorem admitList_nonpos_window (N T now : Int) (L : List Int) (hT : T ≤ 0) (hN : 1 ≤ N)
    (h : ∀ e ∈ L, e ≤ now ∧ now - e < TIME_HALF) : admitList N T now L = (true, [now]) := by
  simp only [admitList, dropWhile_expired_all now T L hT h, List.length_nil, List.nil_append,
    MAX_QUEUE_SIZE]
  rw [if_neg (by simp only [Nat.cast_zero]; omega), if_neg (by decide)]

/-- C14, for call times less than `2 ^ 63` apart: a non-positive window keeps no memory of
past requests.  On a limiter created with `time_window ≤ 0` and `requests_limit ≥ 1`, all
calls of a sequence at non-decreasing times return allow, and a further call at a time
`now` not before them and less than `2 ^ 63` after the first of them returns allow as well
and leaves exactly the single timestamp `now` in the tracker it was routed to: whatever
earlier calls recorded there has been evicted. -/
theorem nonpositive_window_forgets (N T : Int) (cs : List Call) (K : Key) (now : Int)
    (fuel : Nat) (hfuel : MAX_QUEUE_SIZE < fuel) (hT : T ≤ 0) (hN : 1 ≤ N)
    (hsorted : (cs.map Prod.snd ++ [now]).Pairwise (fun a b => a ≤ b))
    (hspan : ∀ c ∈ cs, now - c.2 < TIME_HALF) :
    ∃ lim lim1 node1, runFresh fuel N T cs = some (List.replicate cs.length true, lim) ∧
      isRequestAllowed fuel lim K now = some (true, lim1) ∧
      lim1.node (findOrCreateUser lim K).2 = some node1 ∧
      node1.queue.contents = [now] := by
  have step : ∀ (cs : List Call) (ds : List Bool) (lim : RateLimiter) (K : Key) (now : Int)
      (b : Bool) (lim1 : RateLimiter),
      (cs.map Prod.snd ++ [now]).Pairwise (fun a b => a ≤ b) →
      (∀ c ∈ cs, now - c.2 < TIME_HALF) →
      runFresh fuel N T cs = some (ds, lim) →
      isRequestAllowed fuel lim K now = some (b, lim1) →
      b = true ∧ ∃ node1, lim1.node (findOrCreateUser lim K).2 = some node1 ∧
        node1.queue.contents = [now] := by
    intro cs ds lim K now b lim1 hs hsp hrun hstep
    rw [List.pairwise_append] at hs
    obtain ⟨hs1, _, hs3⟩ := hs
    have hnow : ∀ c ∈ cs, c.2 ≤ now := fun c hc =>
      hs3 c.2 (List.mem_map_of_mem _ hc) now (by simp)
    obtain ⟨ds1, lim2, hrun1, htimes⟩ := run_times_inv fuel N T hfuel cs
    rw [hrun, Option.some.injEq, Prod.mk.injEq] at hrun1
    obtain ⟨rfl, rfl⟩ := hrun1
    obtain ⟨hwf, hN0, hT0, _⟩ :=
      reachable_inv N T lim (runFresh_reachable fuel N T cs ds lim hrun)
    have hle : ∀ node, (node ∈ lim.hash_table (hash K) ∨ node.queue.contents = []) →
        ∀ e ∈ node.queue.contents, e ≤ now ∧ now - e < TIME_HALF := by
      intro node hmem e he
      rcases hmem with hmem | hempty
      · obtain ⟨c1, hc1, rfl⟩ := htimes _ node hmem e he
        exact ⟨hnow c1 hc1, hsp c1 hc1⟩
      · rw [hempty] at he; simp at he
    obtain ⟨node, node1, _, hn1, hmem, hc⟩ := node_step fuel lim K now b lim1 hwf hstep
    obtain ⟨p, n, q, _, hn, _, _, _, hadm, _⟩ | ⟨q, _, _, _, hadm, _⟩ :=
      isRequestAllowed_cases fuel lim K now b lim1 hwf hstep
    · rw [hN0, hT0, admitList_nonpos_window N T now _ hT hN
        (hle n (Or.inl (List.getElem?_mem hn)))] at hadm
      rw [hN0, hT0, admitList_nonpos_window N T now _ hT hN (hle node hmem)] at hc
      exact ⟨congrArg Prod.fst hadm, node1, hn1, hc⟩
    · rw [hN0, hT0, admitList_nonpos_window N T now _ hT hN (by simp)] at hadm
      rw [hN0, hT0, admitList_nonpos_window N T now _ hT hN (hle node hmem)] at hc
      exact ⟨congrArg Prod.fst hadm, node1, hn1, hc⟩
  have hs1 : (cs.map Prod.snd).Pairwise (fun a b => a ≤ b) :=
    (List.pairwise_append.mp hsorted).1
  have hnow : ∀ c ∈ cs, c.2 ≤ now := fun c hc =>
    (List.pairwise_append.mp hsorted).2.2 c.2 (List.mem_map_of_mem _ hc) now (by simp)
  have hall : ∃ ds lim, runFresh fuel N T cs = some (ds, lim) ∧
      ((cs.map Prod.snd).Pairwise (fun a b => a ≤ b) →
        (∀ c ∈ cs, c.2 ≤ now ∧ now - c.2 < TIME_HALF) →
        ds = List.replicate cs.length true) := by
    apply runFresh_induction fuel N T hfuel
    · intro _ _ _ _; rfl
    · intro cs c ds lim b lim1 hrun ih hstep hs hb
      rw [List.map_append] at hs
      have hs0 : (cs.map Prod.snd).Pairwise (fun a b => a ≤ b) :=
        (List.pairwise_append.mp hs).1
      have hc := hb c (by simp)
      have hb0 : ∀ c1 ∈ cs, c1.2 ≤ now ∧ now - c1.2 < TIME_HALF :=
        fun c1 hc1 => hb c1 (List.mem_append_left _ hc1)
      obtain ⟨hbt, _⟩ := step cs ds lim c.1 c.2 b lim1 hs
        (fun c1 hc1 => by have := (hb0 c1 hc1).2; have := hc.1; omega) hrun hstep
      rw [ih hs0 hb0, hbt, List.length_append, List.length_singleton, List.replicate_succ']
  obtain ⟨ds, lim, hrun, hds⟩ := hall
  obtain ⟨hwf, _⟩ := reachable_inv N T lim (runFresh_reachable fuel N T cs ds lim hrun)
  obtain ⟨b, lim1, hstep⟩ := isRequestAllowed_isSome fuel lim K now hwf hfuel
  obtain ⟨hb, node1, hn1, hc⟩ := step cs ds lim K now b lim1 hsorted hspan hrun hstep
  subst hb
  rw [hds hs1 (fun c hc => ⟨hnow c hc, hspan c hc⟩)] at hrun
  exact ⟨lim, lim1, node1, hrun, hstep, hn1, hc⟩

theorem nonpositive_window_forgets_witness :
    ∃ lim lim1 node1,
      runFresh 1001 2 0 [([117], 0), ([117], 0), ([118], 3), ([117], 3)]
        = some (List.replicate
            [(([117], 0) : Call), ([117], 0), ([118], 3), ([117], 3)].length true, lim) ∧
      isRequestAllowed 1001 lim [117] 3 = some (true, lim1) ∧
      lim1.node (findOrCreateUser lim [117]).2 = some node1 ∧
      node1.queue.contents = [3] :=
  nonpositive_window_forgets 2 0 [([117], 0), ([117], 0), ([118], 3), ([117], 3)] [117] 3 1001
    (by decide) (by decide) (by decide) (by decide) (by decide)

/-- C14 fails as stated: with `time_window = 0` and `requests_limit = 1`, after a call for
one key at time `-10`, the next call for it at time `2 ^ 63 - 1` is denied and the tracker
keeps the single timestamp `-10`: the `time_t` difference `2 ^ 63 + 9` wraps to a negative
value, which is below the window, so nothing is evicted. -/
theorem nonpositive_window_fails_on_overflow :
    ([(-10 : Int)] ++ [9223372036854775807]).Pairwise (fun a b => a ≤ b) ∧
    (runFresh 5 1 0 [([117], -10), ([117], 9223372036854775807)]).map (fun r => r.1)
      = some [true, false] ∧
    (runFresh 5 1 0 [([117], -10), ([117], 9223372036854775807)]).map
        (fun r => r.2.tracker [117]) = some (some [-10]) := by
  refine ⟨by decide, by decide, by decide⟩

/-! ## The ring buffer as a bounded FIFO list -/

theorem dequeue_capacity (q : Queue) : (dequeue q).2.capacity = q.capacity := by
  unfold dequeue; split <;> rfl

theorem enqueue_refines (q : Queue) (x : Int) (h : q.WF) :
    (enqueue q x).contents = fifoEnqueue q.capacity q.contents x := by
  unfold fifoEnqueue
  rw [contents_length_int q h]
  by_cases hf : q.size = q.capacity
  · rw [if_pos hf, enqueue_full q x hf]
  · rw [if_neg hf, contents_enqueue q x h hf]

theorem dequeue_fst (q : Queue) (he : q.size ≠ 0) : (dequeue q).1 = peek q := by
  simp [dequeue, peek, isQueueEmpty, he]

theorem contents_of_size_zero (q : Queue) (he : q.size = 0) : q.contents = [] := by
  simp [Queue.contents, he]

theorem dequeue_refines (q : Queue) (h : q.WF) :
    ((dequeue q).1, (dequeue q).2.contents) = fifoDequeue q.contents := by
  by_cases he : q.size = 0
  · rw [contents_of_size_zero q he]
    simp [dequeue, isQueueEmpty, he, fifoDequeue, contents_of_size_zero q he]
  · rw [contents_eq_cons q h he, dequeue_fst q he]
    rfl

theorem peek_refines (q : Queue) (h : q.WF) : peek q = fifoPeek q.contents := by
  by_cases he : q.size = 0
  · rw [contents_of_size_zero q he]
    simp [peek, isQueueEmpty, he, fifoPeek]
  · rw [contents_eq_cons q h he]
    rfl

theorem applyOp_wf (q : Queue) (op : QueueOp) (h : q.WF) :
    (applyOp q op).2.WF ∧ (applyOp q op).2.capacity = q.capacity := by
  cases op with
  | enq x => exact ⟨enqueue_wf q x h, enqueue_capacity q x⟩
  | deq => exact ⟨dequeue_wf q h, dequeue_capacity q⟩
  | pk => exact ⟨h, rfl⟩

theorem applyOp_refines (q : Queue) (op : QueueOp) (h : q.WF) :
    ((applyOp q op).1, (applyOp q op).2.contents) = fifoApplyOp q.capacity q.contents op := by
  cases op with
  | enq x => simp only [applyOp, fifoApplyOp, enqueue_refines q x h]
  | deq =>
    have := dequeue_refines q h
    simp only [applyOp, fifoApplyOp, ← this]
  | pk => simp only [applyOp, fifoApplyOp, peek_refines q h]

theorem runOps_wf (q : Queue) (ops : List QueueOp) (h : q.WF) :
    (runOps q ops).2.WF ∧ (runOps q ops).2.capacity = q.capacity := by
  induction ops generalizing q with
  | nil => exact ⟨h, rfl⟩
  | cons op ops ih =>
    obtain ⟨h1, h2⟩ := applyOp_wf q op h
    obtain ⟨h3, h4⟩ := ih (applyOp q op).2 h1
    exact ⟨h3, h4.trans h2⟩

theorem runOps_refines (q : Queue) (ops : List QueueOp) (h : q.WF) :
    ((runOps q ops).1, (runOps q ops).2.contents) = fifoRunOps q.capacity q.contents ops := by
  induction ops generalizing q with
  | nil => rfl
  | cons op ops ih =>
    obtain ⟨h1, h2⟩ := applyOp_wf q op h
    have h3 := ih (applyOp q op).2 h1
    have h4 := applyOp_refines q op h
    rw [h2] at h3
    simp only [runOps, fifoRunOps, ← h4, ← h3]

/-- C13: the ring-buffer `Queue` refines a bounded FIFO list.  With `contents` the list of
the `size` timestamps read from `front` modulo the capacity: a queue created with a capacity
of at least 1 is empty; on a well-formed queue that is not full, `enqueue` appends at the
tail; on a well-formed queue that is not empty, `peek` returns the head and `dequeue`
returns the head and leaves the tail.  Every sequence of operations on a created queue
returns the same values as on the bounded FIFO list and leaves the same contents, so
timestamps come out in insertion order, wrap-around included. -/
theorem queue_refines_fifo (capacity : Int) (q : Queue) (x : Int) (ops : List QueueOp)
    (hcap : 1 ≤ capacity) (hwf : q.WF) :
    (createQueue capacity).contents = [] ∧
    (q.size ≠ q.capacity → (enqueue q x).contents = q.contents ++ [x]) ∧
    (q.size ≠ 0 → q.contents.head? = some (peek q) ∧ (dequeue q).1 = peek q ∧
      (dequeue q).2.contents = q.contents.tail) ∧
    (enqueue q x).contents = fifoEnqueue q.capacity q.contents x ∧
    ((dequeue q).1, (dequeue q).2.contents) = fifoDequeue q.contents ∧
    peek q = fifoPeek q.contents ∧
    ((runOps (createQueue capacity) ops).1, (runOps (createQueue capacity) ops).2.contents)
      = fifoRunOps capacity [] ops := by
  refine ⟨contents_createQueue capacity, contents_enqueue q x hwf, fun he =>
    ⟨peek_eq_head q hwf he, dequeue_fst q he, contents_dequeue q hwf he⟩,
    enqueue_refines q x hwf, dequeue_refines q hwf, peek_refines q hwf, ?_⟩
  have := runOps_refines (createQueue capacity) ops (createQueue_wf capacity (by omega))
  rw [contents_createQueue] at this
  exact this

theorem queue_refines_fifo_witness :
    ((createQueue 2).contents = [] ∧
    ((enqueue (enqueue (dequeue (enqueue (createQueue 3) 7)).2 8) 9).size
        ≠ (enqueue (enqueue (dequeue (enqueue (createQueue 3) 7)).2 8) 9).capacity →
      (enqueue (enqueue (enqueue (dequeue (enqueue (createQueue 3) 7)).2 8) 9) 5).contents
        = (enqueue (enqueue (dequeue (enqueue (createQueue 3) 7)).2 8) 9).contents ++ [5]) ∧
    ((enqueue (enqueue (dequeue (enqueue (createQueue 3) 7)).2 8) 9).size ≠ 0 →
      (enqueue (enqueue (dequeue (enqueue (createQueue 3) 7)).2 8) 9).contents.head?
        = some (peek (enqueue (enqueue (dequeue (enqueue (createQueue 3) 7)).2 8) 9)) ∧
      (dequeue (enqueue (enqueue (dequeue (enqueue (createQueue 3) 7)).2 8) 9)).1
        = peek (enqueue (enqueue (dequeue (enqueue (createQueue 3) 7)).2 8) 9) ∧
      (dequeue (enqueue (enqueue (dequeue (enqueue (createQueue 3) 7)).2 8) 9)).2.contents
        = (enqueue (enqueue (dequeue (enqueue (createQueue 3) 7)).2 8) 9).contents.tail) ∧
    (enqueue (enqueue (enqueue (dequeue (enqueue (createQueue 3) 7)).2 8) 9) 5).contents
      = fifoEnqueue (enqueue (enqueue (dequeue (enqueue (createQueue 3) 7)).2 8) 9).capacity
          (enqueue (enqueue (dequeue (enqueue (createQueue 3) 7)).2 8) 9).contents 5 ∧
    ((dequeue (enqueue (enqueue (dequeue (enqueue (createQueue 3) 7)).2 8) 9)).1,
      (dequeue (enqueue (enqueue (dequeue (enqueue (createQueue 3) 7)).2 8) 9)).2.contents)
      = fifoDequeue (enqueue (enqueue (dequeue (enqueue (createQueue 3) 7)).2 8) 9).contents ∧
    peek (enqueue (enqueue (dequeue (enqueue (createQueue 3) 7)).2 8) 9)
      = fifoPeek (enqueue (enqueue (dequeue (enqueue (createQueue 3) 7)).2 8) 9).contents ∧
    ((runOps (createQueue 2)
        [QueueOp.enq 7, QueueOp.deq, QueueOp.enq 8, QueueOp.enq 9, QueueOp.enq 5, QueueOp.pk,
          QueueOp.deq, QueueOp.deq, QueueOp.deq]).1,
      (runOps (createQueue 2)
        [QueueOp.enq 7, QueueOp.deq, QueueOp.enq 8, QueueOp.enq 9, QueueOp.enq 5, QueueOp.pk,
          QueueOp.deq, QueueOp.deq, QueueOp.deq]).2.contents)
      = fifoRunOps 2 []
        [QueueOp.enq 7, QueueOp.deq, QueueOp.enq 8, QueueOp.enq 9, QueueOp.enq 5, QueueOp.pk,
          QueueOp.deq, QueueOp.deq, QueueOp.deq]) ∧
    (enqueue (enqueue (dequeue (enqueue (createQueue 3) 7)).2 8) 9).contents = [8, 9] ∧
    (enqueue (enqueue (enqueue (dequeue (enqueue (createQueue 3) 7)).2 8) 9) 5).rear = 0 ∧
    (enqueue (enqueue (enqueue (dequeue (enqueue (createQueue 3) 7)).2 8) 9) 5).contents
      = [8, 9, 5] ∧
    (runOps (createQueue 2)
        [QueueOp.enq 7, QueueOp.deq, QueueOp.enq 8, QueueOp.enq 9, QueueOp.enq 5, QueueOp.pk,
          QueueOp.deq, QueueOp.deq, QueueOp.deq]).1
      = [none, some 7, none, none, none, some 8, some 8, some 9, some 0] :=
  ⟨queue_refines_fifo 2 (enqueue (enqueue (dequeue (enqueue (createQueue 3) 7)).2 8) 9) 5
      [QueueOp.enq 7, QueueOp.deq, QueueOp.enq 8, QueueOp.enq 9, QueueOp.enq 5, QueueOp.pk,
        QueueOp.deq, QueueOp.deq, QueueOp.deq] (by decide)
      (enqueue_wf _ _ (enqueue_wf _ _ (dequeue_wf _ (enqueue_wf _ _
        (createQueue_wf 3 (by decide)))))),
    by decide, by decide, by decide, by decide⟩

/-! ## Ring-buffer indices -/

theorem dequeue_rear (q : Queue) : (dequeue q).2.rear = q.rear := by
  unfold dequeue; split <;> rfl

theorem enqueue_rear_nonneg (q : Queue) (x : Int) (h : q.WF) (hf : q.size ≠ q.capacity) :
    0 ≤ (enqueue q x).rear := by
  have h1 : (enqueue q x).rear = (q.rear + 1).tmod q.capacity := by
    simp [enqueue, isQueueFull, hf]
  rw [h1, Int.tmod_eq_emod (by have := h.rear_lo; omega) (by have := h.cap_pos; omega)]
  exact Int.emod_nonneg _ (by have := h.cap_pos; omega)

theorem runOps_rear_nonneg (q : Queue) (ops : List QueueOp) (h : q.WF)
    (hr : 0 ≤ q.rear ∨ enqueueSucceeded q ops = true) : 0 ≤ (runOps q ops).2.rear := by
  induction ops generalizing q with
  | nil =>
    rcases hr with hr | hr
    · exact hr
    · simp [enqueueSucceeded] at hr
  | cons op ops ih =>
    cases op with
    | enq x =>
      show 0 ≤ (runOps (enqueue q x) ops).2.rear
      by_cases hf : q.size = q.capacity
      · apply ih (enqueue q x) (enqueue_wf q x h)
        rcases hr with hr | hr
        · left; rw [enqueue_full q x hf]; exact hr
        · right
          simpa [enqueueSucceeded, isQueueFull, hf] using hr
      · exact ih (enqueue q x) (enqueue_wf q x h) (Or.inl (enqueue_rear_nonneg q x h hf))
    | deq =>
      show 0 ≤ (runOps (dequeue q).2 ops).2.rear
      apply ih (dequeue q).2 (dequeue_wf q h)
      rcases hr with hr | hr
      · left; rw [dequeue_rear]; exact hr
      · right; exact hr
    | pk =>
      show 0 ≤ (runOps q ops).2.rear
      exact ih q h hr

/-- C18: ring-buffer indices stay in bounds.  After any sequence of `enqueue`, `dequeue`
and `peek` calls on `createQueue(capacity)` with `capacity ≥ 1`: `0 ≤ front < capacity`,
`0 ≤ size ≤ capacity`, `-1 ≤ rear < capacity`, `rear ≥ 0` once an `enqueue` found the queue
not full, and `(rear + 1) mod capacity = (front + size) mod capacity`.  So the slot `front`
read by `dequeue` and `peek` and the slot `(rear + 1) % capacity` written by `enqueue` are
indices in `[0, capacity)`. -/
theorem ring_indices_in_bounds (capacity : Int) (ops : List QueueOp) (hcap : 1 ≤ capacity) :
    (runOps (createQueue capacity) ops).2.capacity = capacity ∧
    0 ≤ (runOps (createQueue capacity) ops).2.front ∧
    (runOps (createQueue capacity) ops).2.front < capacity ∧
    0 ≤ (runOps (createQueue capacity) ops).2.size ∧
    (runOps (createQueue capacity) ops).2.size ≤ capacity ∧
    -1 ≤ (runOps (createQueue capacity) ops).2.rear ∧
    (runOps (createQueue capacity) ops).2.rear < capacity ∧
    (enqueueSucceeded (createQueue capacity) ops = true →
      0 ≤ (runOps (createQueue capacity) ops).2.rear) ∧
    ((runOps (createQueue capacity) ops).2.rear + 1) % capacity
      = ((runOps (createQueue capacity) ops).2.front
          + (runOps (createQueue capacity) ops).2.size) % capacity ∧
    ((runOps (createQueue capacity) ops).2.rear + 1).tmod capacity
      = ((runOps (createQueue capacity) ops).2.front
          + (runOps (createQueue capacity) ops).2.size).tmod capacity ∧
    0 ≤ ((runOps (createQueue capacity) ops).2.rear + 1).tmod capacity ∧
    ((runOps (createQueue capacity) ops).2.rear + 1).tmod capacity < capacity := by
  have hwf0 := createQueue_wf capacity (by omega)
  obtain ⟨h, hc⟩ := runOps_wf (createQueue capacity) ops hwf0
  have hc1 : (runOps (createQueue capacity) ops).2.capacity = capacity := hc
  have h1 := h.front_lo
  have h2 := h.front_hi
  have h3 := h.size_lo
  have h4 := h.size_hi
  have h5 := h.rear_lo
  have h6 := h.rear_hi
  have h7 := h.rear_eq
  rw [hc1] at h2 h4 h6 h7
  have h8 : ((runOps (createQueue capacity) ops).2.rear + 1).tmod capacity
      = ((runOps (createQueue capacity) ops).2.rear + 1) % capacity :=
    Int.tmod_eq_emod (by omega) (by omega)
  have h9 : ((runOps (createQueue capacity) ops).2.front
      + (runOps (createQueue capacity) ops).2.size).tmod capacity
      = ((runOps (createQueue capacity) ops).2.front
          + (runOps (createQueue capacity) ops).2.size) % capacity :=
    Int.tmod_eq_emod (by omega) (by omega)
  refine ⟨hc1, h1, h2, h3, h4, h5, h6,
    fun hs => runOps_rear_nonneg _ ops hwf0 (Or.inr hs), h7, by rw [h8, h9, h7], ?_, ?_⟩
  · rw [h8]; exact Int.emod_nonneg _ (by omega)
  · rw [h8]; exact Int.emod_lt_of_pos _ (by omega)

theorem ring_indices_in_bounds_witness :
    ((runOps (createQueue 2) [QueueOp.enq 7, QueueOp.enq 8, QueueOp.deq, QueueOp.enq 9]).2.capacity
      = 2 ∧
    0 ≤ (runOps (createQueue 2) [QueueOp.enq 7, QueueOp.enq 8, QueueOp.deq, QueueOp.enq 9]).2.front ∧
    (runOps (createQueue 2) [QueueOp.enq 7, QueueOp.enq 8, QueueOp.deq, QueueOp.enq 9]).2.front
      < 2 ∧
    0 ≤ (runOps (createQueue 2) [QueueOp.enq 7, QueueOp.enq 8, QueueOp.deq, QueueOp.enq 9]).2.size ∧
    (runOps (createQueue 2) [QueueOp.enq 7, QueueOp.enq 8, QueueOp.deq, QueueOp.enq 9]).2.size
      ≤ 2 ∧
    -1 ≤ (runOps (createQueue 2) [QueueOp.enq 7, QueueOp.enq 8, QueueOp.deq, QueueOp.enq 9]).2.rear ∧
    (runOps (createQueue 2) [QueueOp.enq 7, QueueOp.enq 8, QueueOp.deq, QueueOp.enq 9]).2.rear
      < 2 ∧
    (enqueueSucceeded (createQueue 2) [QueueOp.enq 7, QueueOp.enq 8, QueueOp.deq, QueueOp.enq 9]
        = true →
      0 ≤ (runOps (createQueue 2)
        [QueueOp.enq 7, QueueOp.enq 8, QueueOp.deq, QueueOp.enq 9]).2.rear) ∧
    ((runOps (createQueue 2) [QueueOp.enq 7, QueueOp.enq 8, QueueOp.deq, QueueOp.enq 9]).2.rear
        + 1) % 2
      = ((runOps (createQueue 2) [QueueOp.enq 7, QueueOp.enq 8, QueueOp.deq, QueueOp.enq 9]).2.front
          + (runOps (createQueue 2)
              [QueueOp.enq 7, QueueOp.enq 8, QueueOp.deq, QueueOp.enq 9]).2.size) % 2 ∧
    ((runOps (createQueue 2) [QueueOp.enq 7, QueueOp.enq 8, QueueOp.deq, QueueOp.enq 9]).2.rear
        + 1).tmod 2
      = ((runOps (createQueue 2) [QueueOp.enq 7, QueueOp.enq 8, QueueOp.deq, QueueOp.enq 9]).2.front
          + (runOps (createQueue 2)
              [QueueOp.enq 7, QueueOp.enq 8, QueueOp.deq, QueueOp.enq 9]).2.size).tmod 2 ∧
    0 ≤ ((runOps (createQueue 2)
        [QueueOp.enq 7, QueueOp.enq 8, QueueOp.deq, QueueOp.enq 9]).2.rear + 1).tmod 2 ∧
    ((runOps (createQueue 2)
        [QueueOp.enq 7, QueueOp.enq 8, QueueOp.deq, QueueOp.enq 9]).2.rear + 1).tmod 2 < 2) ∧
    (runOps (createQueue 2) [QueueOp.enq 7, QueueOp.enq 8, QueueOp.deq, QueueOp.enq 9]).2.front
      = 1 ∧
    (runOps (createQueue 2) [QueueOp.enq 7, QueueOp.enq 8, QueueOp.deq, QueueOp.enq 9]).2.rear
      = 0 ∧
    (runOps (createQueue 2) [QueueOp.enq 7, QueueOp.enq 8, QueueOp.deq, QueueOp.enq 9]).2.size
      = 2 ∧
    enqueueSucceeded (createQueue 2) [QueueOp.enq 7, QueueOp.enq 8, QueueOp.deq, QueueOp.enq 9]
      = true :=
  ⟨ring_indices_in_bounds 2 [QueueOp.enq 7, QueueOp.enq 8, QueueOp.deq, QueueOp.enq 9]
      (by decide),
    by decide, by decide, by decide, by decide⟩

/-! ## The bucket index -/

/-- C19: the bucket index is always valid.  `hash(key)` is the djb2 fold
`h := (h * 33 + c) mod 2^32` over the `char` values `c` of the key, starting from `5381`,
reduced modulo `100`; so `hash(key) < HASH_SIZE = 100`, the bucket `findOrCreateUser`
indexes `hash_table` with is in bounds, and the empty key hashes to `81`. -/
theorem hash_bucket_valid (K : Key) (lim : RateLimiter) :
    hash K = ((K.foldl (fun (h : Int) (c : Int) => (h * 33 + c) % 4294967296) 5381) % 100).toNat ∧
    0 ≤ hash K ∧ hash K < HASH_SIZE ∧ hash K < 100 ∧
    (findOrCreateUser lim K).2.bucket = hash K ∧
    (findOrCreateUser lim K).2.bucket < 100 ∧
    hash [] = 81 := by
  have hf : (fun (h : Int) (c : Int) => (((h * 32) % UINT_MOD + h) % UINT_MOD + c) % UINT_MOD)
      = (fun (h : Int) (c : Int) => (h * 33 + c) % 4294967296) := by
    funext h c
    simp only [UINT_MOD]
    omega
  have hb : (findOrCreateUser lim K).2.bucket = hash K := by
    simp only [findOrCreateUser]
    cases findUser (lim.hash_table (hash K)) K <;> rfl
  have hlt : hash K < 100 := hash_lt K
  refine ⟨?_, Nat.zero_le _, hash_lt K, hlt, hb, by rw [hb]; exact hlt, by decide⟩
  unfold hash
  rw [hf]
  rfl

/-! ## Termination -/

theorem evictExpired_fuel (f f1 : Nat) (q q1 : Queue) (now T : Int)
    (h : evictExpired f q now T = some q1) (hle : f ≤ f1) :
    evictExpired f1 q now T = some q1 := by
  induction f generalizing q f1 with
  | zero => simp [evictExpired] at h
  | succ f ih =>
    obtain ⟨f2, rfl⟩ : ∃ f2, f1 = f2 + 1 := ⟨f1 - 1, by omega⟩
    rw [evictExpired] at h ⊢
    split
    · next hc => rw [if_pos hc] at h; exact ih f2 _ h (by omega)
    · next hc => rw [if_neg hc] at h; exact h

/-- C15: admission always completes with a boolean.  On a reachable limiter state, for
every key and time: the lookup stops at a position inside the bucket chain; the node the
call is routed to holds between `0` and `1000` timestamps; the eviction loop returns within
`size + 1` evaluations of its test, that is after at most `size` dequeues, leaving a size
between `0` and `size`; and `isRequestAllowed` returns a boolean with any fuel above `size`
(so with fuel `1001`), the same result whatever that fuel. -/
theorem isRequestAllowed_terminates (N T : Int) (lim : RateLimiter) (K : Key) (now : Int)
    (hr : Reachable N T lim) :
    ∃ node, (findOrCreateUser lim K).1.node (findOrCreateUser lim K).2 = some node ∧
      0 ≤ node.queue.size ∧ node.queue.size ≤ 1000 ∧
      (∀ p, findUser (lim.hash_table (hash K)) K = some p →
        p < (lim.hash_table (hash K)).length) ∧
      (∃ q1, evictExpired (node.queue.size.toNat + 1) node.queue now T = some q1 ∧
        0 ≤ q1.size ∧ q1.size ≤ node.queue.size) ∧
      (∃ b lim1, isRequestAllowed 1001 lim K now = some (b, lim1)) ∧
      ∀ fuel : Nat, node.queue.size < fuel →
        (∃ b lim1, isRequestAllowed fuel lim K now = some (b, lim1)) ∧
        isRequestAllowed fuel lim K now
          = isRequestAllowed (node.queue.size.toNat + 1) lim K now := by
  obtain ⟨hwf, _, hT, _⟩ := reachable_inv N T lim hr
  have hnode : ∃ node, (findOrCreateUser lim K).1.node (findOrCreateUser lim K).2 = some node := by
    rcases findOrCreateUser_cases lim K with ⟨_, n, _, _, _, _, _, h1, _⟩ | ⟨_, _, _, h1, _⟩
    · exact ⟨n, h1⟩
    · exact ⟨_, h1⟩
  obtain ⟨node, hnode⟩ := hnode
  obtain ⟨hq, hcap, _, _⟩ := reachable_node N T lim K node hr hnode
  have h0 := hq.size_lo
  have h1 := hq.size_hi
  have hcap1 : node.queue.capacity = 1000 := hcap
  rw [hcap1] at h1
  have hT1 : (findOrCreateUser lim K).1.time_window = T := by
    rw [← hT]
    simp only [findOrCreateUser]; cases findUser (lim.hash_table (hash K)) K <;> rfl
  obtain ⟨q1, hq1⟩ := evictExpired_isSome (node.queue.size.toNat + 1) node.queue now T hq
    (by push_cast; omega)
  obtain ⟨hq1wf, _, hq1le, _⟩ := evictExpired_of_some _ node.queue q1 now T hq hq1
  have hfuel : ∀ fuel : Nat, node.queue.size < fuel →
      (∃ b lim1, isRequestAllowed fuel lim K now = some (b, lim1)) ∧
      isRequestAllowed fuel lim K now
        = isRequestAllowed (node.queue.size.toNat + 1) lim K now := by
    intro fuel hf
    have hq2 := evictExpired_fuel _ fuel node.queue q1 now T hq1 (by omega)
    have heq : isRequestAllowed fuel lim K now
        = isRequestAllowed (node.queue.size.toNat + 1) lim K now := by
      simp only [isRequestAllowed, hnode, hT1, hq1, hq2]
    refine ⟨?_, heq⟩
    rw [heq]
    simp only [isRequestAllowed, hnode, hT1, hq1]
    split
    · exact ⟨_, _, rfl⟩
    · exact ⟨_, _, rfl⟩
  refine ⟨node, hnode, h0, h1, ?_, ⟨q1, hq1, hq1wf.size_lo, hq1le⟩,
    (hfuel 1001 (by push_cast; omega)).1, hfuel⟩
  intro p hp
  obtain ⟨n, hn, _⟩ := findUser_some _ K p hp
  exact (List.getElem?_eq_some.mp hn).1

theorem isRequestAllowed_terminates_witness :
    ∃ node,
      (findOrCreateUser (stateAfter 5 3 5 [([117], 0), ([117], 2)]) [117]).1.node
        (findOrCreateUser (stateAfter 5 3 5 [([117], 0), ([117], 2)]) [117]).2 = some node ∧
      0 ≤ node.queue.size ∧ node.queue.size ≤ 1000 ∧
      (∀ p, findUser ((stateAfter 5 3 5 [([117], 0), ([117], 2)]).hash_table (hash [117])) [117]
          = some p →
        p < ((stateAfter 5 3 5 [([117], 0), ([117], 2)]).hash_table (hash [117])).length) ∧
      (∃ q1, evictExpired (node.queue.size.toNat + 1) node.queue 6 5 = some q1 ∧
        0 ≤ q1.size ∧ q1.size ≤ node.queue.size) ∧
      (∃ b lim1, isRequestAllowed 1001 (stateAfter 5 3 5 [([117], 0), ([117], 2)]) [117] 6
        = some (b, lim1)) ∧
      ∀ fuel : Nat, node.queue.size < fuel →
        (∃ b lim1, isRequestAllowed fuel (stateAfter 5 3 5 [([117], 0), ([117], 2)]) [117] 6
          = some (b, lim1)) ∧
        isRequestAllowed fuel (stateAfter 5 3 5 [([117], 0), ([117], 2)]) [117] 6
          = isRequestAllowed (node.queue.size.toNat + 1)
              (stateAfter 5 3 5 [([117], 0), ([117], 2)]) [117] 6 :=
  isRequestAllowed_terminates 3 5 (stateAfter 5 3 5 [([117], 0), ([117], 2)]) [117] 6
    (stateAfter_reachable 5 3 5 _)

/-! ## Exact lookup -/

theorem take_of_short (K : Key) (hK : K.length < MAX_USER_ID) :
    K.take (MAX_USER_ID - 1) = K := by
  apply List.take_of_length_le
  simp only [MAX_USER_ID] at hK ⊢
  omega

/-- After a lookup of a key of at most 49 bytes, the search of its bucket finds the node the
lookup returned. -/
theorem findUser_after_lookup (lim : RateLimiter) (K : Key) (hK : K.length < MAX_USER_ID) :
    (findOrCreateUser lim K).2.bucket = hash K ∧
    findUser ((findOrCreateUser lim K).1.hash_table (hash K)) K
      = some (findOrCreateUser lim K).2.pos := by
  rcases findOrCreateUser_cases lim K with ⟨p, n, hf, _, _, h1, h2, _, _⟩ |
    ⟨_, h1, h2, _, _⟩
  · rw [h1, h2]; exact ⟨rfl, hf⟩
  · rw [h1, h2]
    refine ⟨rfl, ?_⟩
    simp only [RateLimiter.insert, if_true, findUser, take_of_short K hK]

/-- A key that has a node keeps having one after a lookup of any key. -/
theorem findUser_preserved (lim : RateLimiter) (K K2 : Key)
    (h : findUser (lim.hash_table (hash K)) K ≠ none) :
    findUser ((findOrCreateUser lim K2).1.hash_table (hash K)) K ≠ none := by
  rcases findOrCreateUser_cases lim K2 with ⟨_, _, _, _, _, h1, _, _, _⟩ | ⟨_, h1, _, _, _⟩
  · rw [h1]; exact h
  · rw [h1]
    simp only [RateLimiter.insert]
    by_cases hi : hash K = hash K2
    · rw [if_pos hi, hi, findUser]
      rw [hi] at h
      by_cases hs : K2.take (MAX_USER_ID - 1) = K
      · simp [hs]
      · cases hf : findUser (lim.hash_table (hash K2)) K with
        | none => exact absurd hf h
        | some p => simp [hs]
    · rw [if_neg hi]; exact h

theorem findOrCreateUser_found (l : RateLimiter) (K : Key) (p : Nat)
    (h : findUser (l.hash_table (hash K)) K = some p) :
    findOrCreateUser l K = (l, ⟨hash K, p⟩) := by
  simp only [findOrCreateUser, h]

/-- C16: lookup is exact and idempotent for keys within the supported length.  After any
sequence of calls with keys of at most 49 bytes on a freshly created limiter, for keys `K`
and `K2 ≠ K` of at most 49 bytes: `findOrCreateUser(limiter, K)` returns a node whose
`user_id` is `K`; if `K` was requested before, the table is unchanged and the returned node
is the only node of the table with that `user_id`; if not, exactly one node, with an empty
tracker, is inserted at the head of bucket `hash(K)`; a second lookup of `K` returns the
same node and leaves the table unchanged; and after a lookup of `K2` the nodes returned for
`K` and `K2` are different nodes. -/
theorem lookup_exact (N T : Int) (cs : List Call) (K K2 : Key) (fuel : Nat)
    (hfuel : MAX_QUEUE_SIZE < fuel) (hshort : ∀ c ∈ cs, c.1.length < MAX_USER_ID)
    (hK : K.length < MAX_USER_ID) (hK2 : K2.length < MAX_USER_ID) (hne : K2 ≠ K) :
    ∃ ds lim, runFresh fuel N T cs = some (ds, lim) ∧
      (∃ node, (findOrCreateUser lim K).1.node (findOrCreateUser lim K).2 = some node ∧
        node.user_id = K) ∧
      (K ∈ cs.map Prod.fst →
        (findOrCreateUser lim K).1 = lim ∧
        ∀ i j n, (lim.hash_table i)[j]? = some n → n.user_id = K →
          (⟨i, j⟩ : NodeRef) = (findOrCreateUser lim K).2) ∧
      (K ∉ cs.map Prod.fst →
        (findOrCreateUser lim K).2 = ⟨hash K, 0⟩ ∧
        (findOrCreateUser lim K).1.hash_table (hash K)
          = ⟨K, createQueue MAX_QUEUE_SIZE⟩ :: lim.hash_table (hash K) ∧
        (∀ i, i ≠ hash K → (findOrCreateUser lim K).1.hash_table i = lim.hash_table i) ∧
        (createQueue MAX_QUEUE_SIZE).contents = [] ∧
        (findOrCreateUser lim K).1.entryCount = lim.entryCount + 1) ∧
      findOrCreateUser (findOrCreateUser lim K).1 K
        = ((findOrCreateUser lim K).1, (findOrCreateUser lim K).2) ∧
      (∃ node2,
        (findOrCreateUser (findOrCreateUser lim K).1 K2).1.node
          (findOrCreateUser (findOrCreateUser lim K).1 K2).2 = some node2 ∧
        node2.user_id = K2) ∧
      (findOrCreateUser (findOrCreateUser (findOrCreateUser lim K).1 K2).1 K).1
        = (findOrCreateUser (findOrCreateUser lim K).1 K2).1 ∧
      (∃ node1,
        (findOrCreateUser (findOrCreateUser lim K).1 K2).1.node
          (findOrCreateUser (findOrCreateUser (findOrCreateUser lim K).1 K2).1 K).2
          = some node1 ∧
        node1.user_id = K) ∧
      (findOrCreateUser (findOrCreateUser (findOrCreateUser lim K).1 K2).1 K).2
        ≠ (findOrCreateUser (findOrCreateUser lim K).1 K2).2 := by
  obtain ⟨ds, lim, hrun, hE⟩ := run_entries fuel N T hfuel cs
  obtain ⟨_, hb, hc, hd⟩ := hE hshort
  have hexact : ∀ (l : RateLimiter) (A : Key), A.length < MAX_USER_ID →
      ∃ node, (findOrCreateUser l A).1.node (findOrCreateUser l A).2 = some node ∧
        node.user_id = A := by
    intro l A hA
    rcases findOrCreateUser_cases l A with ⟨_, n, _, _, hk, _, _, h1, _⟩ | ⟨_, _, _, h1, _⟩
    · exact ⟨n, h1, hk⟩
    · exact ⟨_, h1, take_of_short A hA⟩
  have found : ∀ (l : RateLimiter) (A : Key), findUser (l.hash_table (hash A)) A ≠ none →
      (findOrCreateUser l A).1 = l := by
    intro l A hA
    rcases findOrCreateUser_cases l A with ⟨_, _, _, _, _, h1, _, _, _⟩ | ⟨hf, _, _, _, _⟩
    · exact h1
    · exact absurd hf hA
  have hafter := findUser_after_lookup lim K hK
  have hK1 : findUser ((findOrCreateUser lim K).1.hash_table (hash K)) K ≠ none := by
    rw [hafter.2]; simp
  have hK3 := findUser_preserved (findOrCreateUser lim K).1 K K2 hK1
  have hsame3 := found _ K hK3
  obtain ⟨node2, hnode2, hid2⟩ := hexact (findOrCreateUser lim K).1 K2 hK2
  obtain ⟨node1, hnode1, hid1⟩ := hexact (findOrCreateUser (findOrCreateUser lim K).1 K2).1 K hK
  rw [hsame3] at hnode1
  refine ⟨ds, lim, hrun, hexact lim K hK, ?_, ?_, ?_, ⟨node2, hnode2, hid2⟩, hsame3,
    ⟨node1, hnode1, hid1⟩, ?_⟩
  · intro hmem
    have hfnd := (hd K).mp hmem
    refine ⟨found lim K hfnd, ?_⟩
    intro i j n hn hk
    rcases findOrCreateUser_cases lim K with ⟨p, n0, _, hn0, hk0, _, h2, _, _⟩ |
      ⟨hf, _, _, _, _⟩
    · have hi : hash K = i := by
        have := (hc i n.user_id (List.mem_map_of_mem _ (List.getElem?_mem hn))).1
        rw [hk] at this
        exact this
      subst hi
      rw [h2]
      have hjlt : j < ((lim.hash_table (hash K)).map Node.user_id).length := by
        rw [List.length_map]; exact (List.getElem?_eq_some.mp hn).1
      have hjp : j = p := by
        apply List.getElem?_inj hjlt (hb (hash K))
        rw [List.getElem?_map, List.getElem?_map, hn, hn0, Option.map_some', Option.map_some',
          hk, hk0]
      rw [hjp]
    · exact absurd hf hfnd
  · intro hnot
    have hnone : findUser (lim.hash_table (hash K)) K = none := by
      by_contra hcon
      exact hnot ((hd K).mpr hcon)
    rcases findOrCreateUser_cases lim K with ⟨_, _, hf, _, _, _, _, _, _⟩ | ⟨_, h1, h2, _, _⟩
    · rw [hnone] at hf; cases hf
    · rw [take_of_short K hK] at h1
      refine ⟨h2, ?_, ?_, contents_createQueue _, ?_⟩
      · rw [h1]; simp only [RateLimiter.insert, if_true]
      · intro i hi; rw [h1]; simp only [RateLimiter.insert, if_neg hi]
      · rw [h1, entryCount_insert _ _ _ (hash_lt K)]
  · rw [findOrCreateUser_found _ K _ hafter.2, ← hafter.1]
  · intro heq
    rw [heq, hnode2, Option.some.injEq] at hnode1
    rw [← hnode1, hid2] at hid1
    exact hne hid1

theorem lookup_exact_witness :
    hash [65, 84] = hash [65] ∧
    ∃ ds lim, runFresh 1001 3 5 [([65], 0), ([66], 1)] = some (ds, lim) ∧
      (∃ node, (findOrCreateUser lim [65, 84]).1.node (findOrCreateUser lim [65, 84]).2 = some node ∧
        node.user_id = [65, 84]) ∧
      ([65, 84] ∈ [(([65], 0) : Call), ([66], 1)].map Prod.fst →
        (findOrCreateUser lim [65, 84]).1 = lim ∧
        ∀ i j n, (lim.hash_table i)[j]? = some n → n.user_id = [65, 84] →
          (⟨i, j⟩ : NodeRef) = (findOrCreateUser lim [65, 84]).2) ∧
      ([65, 84] ∉ [(([65], 0) : Call), ([66], 1)].map Prod.fst →
        (findOrCreateUser lim [65, 84]).2 = ⟨hash [65, 84], 0⟩ ∧
        (findOrCreateUser lim [65, 84]).1.hash_table (hash [65, 84])
          = ⟨[65, 84], createQueue MAX_QUEUE_SIZE⟩ :: lim.hash_table (hash [65, 84]) ∧
        (∀ i, i ≠ hash [65, 84] → (findOrCreateUser lim [65, 84]).1.hash_table i = lim.hash_table i) ∧
        (createQueue MAX_QUEUE_SIZE).contents = [] ∧
        (findOrCreateUser lim [65, 84]).1.entryCount = lim.entryCount + 1) ∧
      findOrCreateUser (findOrCreateUser lim [65, 84]).1 [65, 84]
        = ((findOrCreateUser lim [65, 84]).1, (findOrCreateUser lim [65, 84]).2) ∧
      (∃ node2,
        (findOrCreateUser (findOrCreateUser lim [65, 84]).1 [65]).1.node
          (findOrCreateUser (findOrCreateUser lim [65, 84]).1 [65]).2 = some node2 ∧
        node2.user_id = [65]) ∧
      (findOrCreateUser (findOrCreateUser (findOrCreateUser lim [65, 84]).1 [65]).1 [65, 84]).1
        = (findOrCreateUser (findOrCreateUser lim [65, 84]).1 [65]).1 ∧
      (∃ node1,
        (findOrCreateUser (findOrCreateUser lim [65, 84]).1 [65]).1.node
          (findOrCreateUser (findOrCreateUser (findOrCreateUser lim [65, 84]).1 [65]).1 [65, 84]).2
          = some node1 ∧
        node1.user_id = [65, 84]) ∧
      (findOrCreateUser (findOrCreateUser (findOrCreateUser lim [65, 84]).1 [65]).1 [65, 84]).2
        ≠ (findOrCreateUser (findOrCreateUser lim [65, 84]).1 [65]).2 :=
  ⟨by decide,
    lookup_exact 3 5 [([65], 0), ([66], 1)] [65, 84] [65] 1001 (by decide) (by decide) (by decide)
      (by decide) (by decide)⟩

/-! ## The frame of a call -/

/-- C17: a call touches only one tracker.  After `isRequestAllowed(limiter, K)` on a
reachable state, `requests_limit` and `time_window` are unchanged and at most one node has
been added, at the head of bucket `hash(K)` (`d` is the number of added nodes).  Every node
that existed before the call is still in its bucket, `d` places further down the chain of
bucket `hash(K)`, with the same `user_id`; unless it is the node the call was routed to, it
is unchanged, tracker included. -/
theorem call_touches_one_tracker (N T : Int) (lim : RateLimiter) (K : Key) (now : Int)
    (fuel : Nat) (b : Bool) (lim1 : RateLimiter) (hr : Reachable N T lim)
    (h : isRequestAllowed fuel lim K now = some (b, lim1)) :
    lim1.requests_limit = lim.requests_limit ∧ lim1.time_window = lim.time_window ∧
    ∃ d : Nat, d ≤ 1 ∧ lim1.entryCount = lim.entryCount + d ∧
      (∀ i, (lim1.hash_table i).length
        = (lim.hash_table i).length + (if i = hash K then d else 0)) ∧
      ∀ i j n, (lim.hash_table i)[j]? = some n →
        ∃ n1, (lim1.hash_table i)[j + (if i = hash K then d else 0)]? = some n1 ∧
          n1.user_id = n.user_id ∧
          ((⟨i, j + (if i = hash K then d else 0)⟩ : NodeRef) ≠ (findOrCreateUser lim K).2 →
            n1 = n) := by
  obtain ⟨hwf, _⟩ := reachable_inv N T lim hr
  rcases isRequestAllowed_cases fuel lim K now b lim1 hwf h with
    ⟨p, n0, q, hf, hn0, hk0, _, _, _, rfl⟩ | ⟨q, hf, _, _, _, rfl⟩
  · have href : (findOrCreateUser lim K).2 = ⟨hash K, p⟩ := by
      simp only [findOrCreateUser, hf]
    refine ⟨rfl, rfl, 0, by omega, by rw [entryCount_update, Nat.add_zero], ?_, ?_⟩
    · intro i
      simp only [RateLimiter.update]
      split <;> simp
    · intro i j n hn
      simp only [RateLimiter.update, ite_self, add_zero]
      by_cases hi : i = hash K
      · subst hi
        rw [if_pos rfl]
        by_cases hj : j = p
        · subst hj
          rw [hn0, Option.some.injEq] at hn
          subst hn
          refine ⟨{ n0 with queue := q }, ?_, rfl, fun hne => absurd href.symm hne⟩
          rw [List.getElem?_set_eq_of_lt]
          exact (List.getElem?_eq_some.mp hn0).1
        · exact ⟨n, by rw [List.getElem?_set_ne (fun hc => hj hc.symm)]; exact hn, rfl,
            fun _ => rfl⟩
      · rw [if_neg hi]
        exact ⟨n, hn, rfl, fun _ => rfl⟩
  · refine ⟨rfl, rfl, 1, le_refl _, entryCount_insert _ _ _ (hash_lt K), ?_, ?_⟩
    · intro i
      simp only [RateLimiter.insert]
      split <;> simp
    · intro i j n hn
      simp only [RateLimiter.insert]
      by_cases hi : i = hash K
      · subst hi
        rw [if_pos rfl, if_pos rfl]
        exact ⟨n, by rw [List.getElem?_cons_succ]; exact hn, rfl, fun _ => rfl⟩
      · rw [if_neg hi, if_neg hi]
        exact ⟨n, hn, rfl, fun _ => rfl⟩

theorem call_touches_one_tracker_witness :
    (stateAfter 5 3 5 [([65], 0), ([66], 1), ([65], 2)]).requests_limit
      = (stateAfter 5 3 5 [([65], 0), ([66], 1)]).requests_limit ∧
    (stateAfter 5 3 5 [([65], 0), ([66], 1), ([65], 2)]).time_window
      = (stateAfter 5 3 5 [([65], 0), ([66], 1)]).time_window ∧
    ∃ d : Nat, d ≤ 1 ∧
      (stateAfter 5 3 5 [([65], 0), ([66], 1), ([65], 2)]).entryCount
        = (stateAfter 5 3 5 [([65], 0), ([66], 1)]).entryCount + d ∧
      (∀ i, ((stateAfter 5 3 5 [([65], 0), ([66], 1), ([65], 2)]).hash_table i).length
        = ((stateAfter 5 3 5 [([65], 0), ([66], 1)]).hash_table i).length
          + (if i = hash [65] then d else 0)) ∧
      ∀ i j n, ((stateAfter 5 3 5 [([65], 0), ([66], 1)]).hash_table i)[j]? = some n →
        ∃ n1, ((stateAfter 5 3 5 [([65], 0), ([66], 1), ([65], 2)]).hash_table i)[
            j + (if i = hash [65] then d else 0)]? = some n1 ∧
          n1.user_id = n.user_id ∧
          ((⟨i, j + (if i = hash [65] then d else 0)⟩ : NodeRef)
              ≠ (findOrCreateUser (stateAfter 5 3 5 [([65], 0), ([66], 1)]) [65]).2 →
            n1 = n) :=
  call_touches_one_tracker 3 5 (stateAfter 5 3 5 [([65], 0), ([66], 1)]) [65] 2 5 true
    (stateAfter 5 3 5 [([65], 0), ([66], 1), ([65], 2)]) (stateAfter_reachable 5 3 5 _) rfl

end RateLimiterC
